import Mathlib

/-!
# go-directequality-checker: a shallow embedding of `main.go`

The checker reports `if` conditions that compare a struct field tagged
`security:"nodirectequality"`.  This file embeds

* the tag parser `hasNoDirectEqualityTag`, together with the parts of the Go
  standard library it runs (`reflect.StructTag.Get`, `strconv.Unquote`,
  `unicode/utf8`, `strings.Split`);
* the type resolver `structFromSelectorXType` over a graph of type objects;
* the field classifier `isProhibitedField`, the selector test `isProhibited`;
* the traversal `walkFile` (`ast.Inspect` with the closure of `main.go`).

Go strings are byte sequences; a byte is a natural number below 256.  All
functions are written over arbitrary lists of naturals, so every statement
proved for all lists holds for all byte strings.
-/

namespace DirectEquality

/-! ## Go strings -/

/-- A Go string: its bytes, in order. -/
abbrev GoString := List Nat

/-- The bytes (UTF-8) of a string literal of the Go source. -/
def bytes (s : String) : GoString :=
  s.data.flatMap (fun c => (String.utf8EncodeChar c).map UInt8.toNat)

/-- The constant `securityTag = "security"` of `main.go`. -/
def securityTag : GoString := bytes "security"

/-- The constant `noDirectEqualityValue = "nodirectequality"` of `main.go`. -/
def noDirectEqualityValue : GoString := bytes "nodirectequality"

/-! ## Package `unicode/utf8` -/

/-- The constant `utf8.RuneError`, U+FFFD. -/
def RuneError : Nat := 0xFFFD

/-- The constant `utf8.RuneSelf`: bytes below it are single-byte runes. -/
def RuneSelf : Nat := 0x80

/-- The constant `utf8.MaxRune`. -/
def MaxRune : Nat := 0x10FFFF

/-- The table `utf8.first`: information about the first byte of an encoding.
`0xF0` is ASCII (`as`), `0xF1` is an illegal starter (`xx`); otherwise the low
three bits are the size and the high four bits index `acceptRanges`. -/
def first (b : Nat) : Nat :=
  if b < 0x80 then 0xF0
  else if b < 0xC2 then 0xF1
  else if b < 0xE0 then 0x02
  else if b = 0xE0 then 0x13
  else if b < 0xED then 0x03
  else if b = 0xED then 0x23
  else if b < 0xF0 then 0x03
  else if b = 0xF0 then 0x34
  else if b < 0xF4 then 0x04
  else if b = 0xF4 then 0x44
  else 0xF1

/-- The table `utf8.acceptRanges`: the accepted range `(lo, hi)` of the second
byte of an encoding. -/
def acceptRanges (i : Nat) : Nat × Nat :=
  match i with
  | 0 => (0x80, 0xBF)
  | 1 => (0xA0, 0xBF)
  | 2 => (0x80, 0x9F)
  | 3 => (0x90, 0xBF)
  | 4 => (0x80, 0x8F)
  | _ => (0, 0)

/-- The function `utf8.DecodeRuneInString`: the first rune of `s` and its width in
bytes; `(RuneError, 1)` for an invalid encoding, `(RuneError, 0)` for the empty
string.  Masks and shifts are written with `%` and `*`. -/
def decodeRuneInString (s : GoString) : Nat × Nat :=
  match s with
  | [] => (RuneError, 0)
  | s0 :: _ =>
    let x := first s0
    if x ≥ 0xF0 then
      (if x = 0xF0 then s0 else RuneError, 1)
    else
      let sz := x % 8
      let accept := acceptRanges (x / 16)
      if s.length < sz then (RuneError, 1)
      else
        let s1 := s.getD 1 0
        if s1 < accept.1 ∨ accept.2 < s1 then (RuneError, 1)
        else if sz ≤ 2 then ((s0 % 32) * 64 + s1 % 64, 2)
        else
          let s2 := s.getD 2 0
          if s2 < 0x80 ∨ 0xBF < s2 then (RuneError, 1)
          else if sz ≤ 3 then ((s0 % 16) * 4096 + (s1 % 64) * 64 + s2 % 64, 3)
          else
            let s3 := s.getD 3 0
            if s3 < 0x80 ∨ 0xBF < s3 then (RuneError, 1)
            else ((s0 % 8) * 262144 + (s1 % 64) * 4096 + (s2 % 64) * 64 + s3 % 64, 4)

/-- The loop of `utf8.ValidString` (its eight-bytes-at-a-time ASCII fast path
only skips bytes this loop would skip too).  Every iteration consumes at least
one byte, so `fuel = len(s)` is enough. -/
def validStringLoop : Nat → GoString → Bool
  | 0, _ => true
  | fuel + 1, s =>
    match s with
    | [] => true
    | si :: rest =>
      if si < RuneSelf then validStringLoop fuel rest
      else
        let x := first si
        if x = 0xF1 then false
        else
          let size := x % 8
          if s.length < size then false
          else
            let accept := acceptRanges (x / 16)
            let c1 := s.getD 1 0
            if c1 < accept.1 ∨ accept.2 < c1 then false
            else if size = 2 then validStringLoop fuel (s.drop size)
            else
              let c2 := s.getD 2 0
              if c2 < 0x80 ∨ 0xBF < c2 then false
              else if size = 3 then validStringLoop fuel (s.drop size)
              else
                let c3 := s.getD 3 0
                if c3 < 0x80 ∨ 0xBF < c3 then false
                else validStringLoop fuel (s.drop size)

/-- The function `utf8.ValidString`. -/
def validString (s : GoString) : Bool := validStringLoop s.length s

/-- The function `utf8.AppendRune` applied to an empty buffer: the UTF-8 encoding
of `r`, with `RuneError` encoded for surrogates and out-of-range values. -/
def appendRune (r : Nat) : GoString :=
  if r ≤ 0x7F then [r]
  else if r ≤ 0x7FF then [0xC0 + r / 64, 0x80 + r % 64]
  else if r > MaxRune ∨ (0xD800 ≤ r ∧ r ≤ 0xDFFF) then
    [0xE0 + RuneError / 4096, 0x80 + (RuneError / 64) % 64, 0x80 + RuneError % 64]
  else if r ≤ 0xFFFF then [0xE0 + r / 4096, 0x80 + (r / 64) % 64, 0x80 + r % 64]
  else [0xF0 + r / 262144, 0x80 + (r / 4096) % 64, 0x80 + (r / 64) % 64, 0x80 + r % 64]

/-- The function `utf8.ValidRune`. -/
def validRune (r : Nat) : Bool :=
  decide (r < 0xD800) || (decide (0xDFFF < r) && decide (r ≤ MaxRune))

/-! ## Package `strconv`: `Unquote` of a double-quoted string -/

/-- The function `strconv.unhex`: the value of a hexadecimal digit. -/
def unhex (b : Nat) : Option Nat :=
  if 48 ≤ b ∧ b ≤ 57 then some (b - 48)
  else if 97 ≤ b ∧ b ≤ 102 then some (b - 97 + 10)
  else if 65 ≤ b ∧ b ≤ 70 then some (b - 65 + 10)
  else none

/-- The digit loop of `strconv.UnquoteChar` for `\x`, `\u` and `\U`: reads `n`
hexadecimal digits, `v = v<<4 | x` at each. -/
def hexDigits : Nat → GoString → Nat → Option (Nat × GoString)
  | 0, s, v => some (v, s)
  | _ + 1, [], _ => none
  | n + 1, b :: s, v =>
    match unhex b with
    | none => none
    | some x => hexDigits n s (v * 16 + x)

/-- The digit loop of `strconv.UnquoteChar` for an octal escape: reads `n` octal
digits, `v = v<<3 | x` at each. -/
def octDigits : Nat → GoString → Nat → Option (Nat × GoString)
  | 0, s, v => some (v, s)
  | _ + 1, [], _ => none
  | n + 1, b :: s, v =>
    if b < 48 ∨ b > 55 then none else octDigits n s (v * 8 + (b - 48))

/-- The function `strconv.UnquoteChar(s, '"')`: decodes the first character or
escape sequence of `s`; the result is `(value, multibyte, tail)`, and `none` is
`ErrSyntax`. -/
def unquoteChar (s : GoString) : Option (Nat × Bool × GoString) :=
  match s with
  | [] => none
  | c :: t =>
    if c = 34 then none
    else if c ≥ RuneSelf then
      let d := decodeRuneInString s
      some (d.1, true, s.drop d.2)
    else if c ≠ 92 then some (c, false, t)
    else
      match t with
      | [] => none
      | e :: u =>
        if e = 97 then some (7, false, u)
        else if e = 98 then some (8, false, u)
        else if e = 102 then some (12, false, u)
        else if e = 110 then some (10, false, u)
        else if e = 114 then some (13, false, u)
        else if e = 116 then some (9, false, u)
        else if e = 118 then some (11, false, u)
        else if e = 120 then
          (hexDigits 2 u 0).map (fun r => (r.1, false, r.2))
        else if e = 117 ∨ e = 85 then
          match hexDigits (if e = 117 then 4 else 8) u 0 with
          | none => none
          | some (v, u1) => if validRune v then some (v, true, u1) else none
        else if 48 ≤ e ∧ e ≤ 55 then
          match octDigits 2 u (e - 48) with
          | none => none
          | some (v, u1) => if v > 255 then none else some (v, false, u1)
        else if e = 92 then some (92, false, u)
        else if e = 34 then some (34, false, u)
        else none

/-- The escape-handling loop of `strconv.unquote` for the quote `"`:
decodes characters into `buf` until the terminating quote; the result is the
buffer and what follows the quote.  Every iteration consumes at least one
byte, so `fuel = len(in)` is enough. -/
def unquoteLoop : Nat → GoString → GoString → Option (GoString × GoString)
  | 0, inp, buf =>
    match inp with
    | c :: rest => if c = 34 then some (buf, rest) else none
    | [] => none
  | fuel + 1, inp, buf =>
    match inp with
    | [] => none
    | c :: rest =>
      if c = 34 then some (buf, rest)
      else
        match unquoteChar inp with
        | none => none
        | some (r, multibyte, rem) =>
          if c = 10 then none
          else if r < RuneSelf ∨ multibyte = false then
            unquoteLoop fuel rem (buf ++ [r % 256])
          else unquoteLoop fuel rem (buf ++ appendRune r)

/-- The function `strconv.Unquote` on a string that starts with the double quote
(the only way `reflect.StructTag.Lookup` calls it); `none` is `ErrSyntax`.
`seg` is the text up to the first later quote, returned as it is when it has
no backslash, no newline and is valid UTF-8; otherwise the escape loop runs.
Text left after the closing quote is an error. -/
def strconvUnquote (s : GoString) : Option GoString :=
  match s with
  | 34 :: body =>
    if 34 ∉ body then none
    else
      let seg := body.takeWhile (fun b => b ≠ 34)
      let rem := body.drop (seg.length + 1)
      if 92 ∉ seg ∧ 10 ∉ seg ∧ validString seg = true then
        (if rem = [] then some seg else none)
      else
        match unquoteLoop body.length body [] with
        | none => none
        | some (out, rem1) => if rem1 = [] then some out else none
  | _ => none

/-! ## Package `reflect`: `StructTag.Lookup` and `StructTag.Get` -/

/-- The test of the key scan in `Lookup`: the byte is above the space and is not
a colon, a quote or DEL. -/
def isKeyByte (b : Nat) : Bool :=
  decide (b > 32) && decide (b ≠ 58) && decide (b ≠ 34) && decide (b ≠ 0x7f)

/-- The scan of the quoted value in `Lookup`, started after the opening quote:
a backslash skips the byte after it; the result is the text before the closing
quote and the text after it, `none` when no closing quote is found. -/
def scanQuoted : GoString → Option (GoString × GoString)
  | [] => none
  | c :: s =>
    if c = 34 then some ([], s)
    else if c = 92 then
      match s with
      | [] => none
      | d :: s1 => (scanQuoted s1).map (fun r => (c :: d :: r.1, r.2))
    else (scanQuoted s).map (fun r => (c :: r.1, r.2))

/-- The loop of `reflect.StructTag.Lookup`; `none` is `ok = false`.  An iteration
that does not stop consumes at least four bytes, so `fuel = len(tag) + 1` is
enough. -/
def lookupLoop (key : GoString) : Nat → GoString → Option GoString
  | 0, _ => none
  | fuel + 1, tag0 =>
    if tag0 = [] then none
    else
      let tag := tag0.dropWhile (fun b => b = 32)
      if tag = [] then none
      else
        let name := tag.takeWhile isKeyByte
        let i := name.length
        if i = 0 ∨ i + 1 ≥ tag.length ∨ tag.getD i 0 ≠ 58 ∨ tag.getD (i + 1) 0 ≠ 34 then none
        else
          match scanQuoted (tag.drop (i + 2)) with
          | none => none
          | some (body, rest) =>
            let qvalue := 34 :: (body ++ [34])
            if key = name then strconvUnquote qvalue
            else lookupLoop key fuel rest

/-- The method `reflect.StructTag.Lookup`. -/
def structTagLookup (tag key : GoString) : Option GoString :=
  lookupLoop key (tag.length + 1) tag

/-- The method `reflect.StructTag.Get`: the value found by `Lookup`, or the empty
string. -/
def structTagGet (tag key : GoString) : GoString :=
  (structTagLookup tag key).getD []

/-! ## Package `strings`: `Split` with a one-byte separator -/

/-- The function `strings.Split(s, sep)` for a separator of one byte: the pieces of
`s` between the occurrences of `sep` (one empty piece for the empty string). -/
def stringsSplit (sep : Nat) : GoString → List GoString
  | [] => [[]]
  | c :: s =>
    if c = sep then [] :: stringsSplit sep s
    else
      match stringsSplit sep s with
      | [] => [[c]]
      | t :: ts => (c :: t) :: ts

/-! ## `main.go`: the tag parser -/

/-- The function `hasNoDirectEqualityTag` of `main.go`: the `security` value of the
tag, split at commas, has a piece equal to `nodirectequality`. -/
def hasNoDirectEqualityTag (tagString : GoString) : Bool :=
  let tag := structTagGet tagString securityTag
  let values := stringsSplit 44 tag
  values.any (fun value => decide (value = noDirectEqualityValue))

/-! ## Well-formed tags (the convention of `reflect.StructTag`) -/

/-- The function `strings.Join(ts, ",")`: the tokens with a comma between neighbours. -/
def joinTokens : List GoString → GoString
  | [] => []
  | [t] => t
  | t :: t1 :: ts => t ++ 44 :: joinTokens (t1 :: ts)

/-- One `key:"value"` group of a tag, as key and value. -/
abbrev TagGroup := GoString × GoString

/-- The text `key:"value"` of a group. -/
def renderGroup (g : TagGroup) : GoString := g.1 ++ 58 :: 34 :: (g.2 ++ [34])

/-- The tag made of the groups, neighbours separated by a single space. -/
def renderTag : List TagGroup → GoString
  | [] => []
  | [g] => renderGroup g
  | g :: g1 :: gs => renderGroup g ++ 32 :: renderTag (g1 :: gs)

/-- A well-formed key: not empty, made of bytes above the space other than the
colon, the quote and DEL. -/
def WellFormedKey (k : GoString) : Prop := k ≠ [] ∧ ∀ b ∈ k, isKeyByte b = true

/-- A value without quotes or backslashes. -/
def PlainValue (v : GoString) : Prop := 34 ∉ v ∧ 92 ∉ v

/-- A list of groups with well-formed keys and plain values. -/
def WellFormedGroups (gs : List TagGroup) : Prop :=
  ∀ g ∈ gs, WellFormedKey g.1 ∧ PlainValue g.2

/-- The first group of the list with the given key. -/
def firstGroup (key : GoString) (gs : List TagGroup) : Option TagGroup :=
  gs.find? (fun g => decide (g.1 = key))

/-- Two strings that agree on their ASCII bytes, in order, and have non-empty
runs of bytes from 0x80 up at the same places. -/
inductive AsciiEquiv : GoString → GoString → Prop
  | nil : AsciiEquiv [] []
  | ascii (c : Nat) (s t : GoString) : c < 128 → AsciiEquiv s t → AsciiEquiv (c :: s) (c :: t)
  | high (a b s t : GoString) : a ≠ [] → b ≠ [] → (∀ x ∈ a, 128 ≤ x) → (∀ x ∈ b, 128 ≤ x) →
      AsciiEquiv s t → AsciiEquiv (a ++ s) (b ++ t)

/-- What follows a group in a rendered tag: nothing, or a space and the rest. -/
def sepTail (gs : List TagGroup) : GoString :=
  match gs with
  | [] => []
  | g :: gs1 => 32 :: renderTag (g :: gs1)

instance (k : GoString) : Decidable (WellFormedKey k) := by
  unfold WellFormedKey; infer_instance

instance (v : GoString) : Decidable (PlainValue v) := by
  unfold PlainValue; infer_instance

instance (gs : List TagGroup) : Decidable (WellFormedGroups gs) := by
  unfold WellFormedGroups; infer_instance

/-! ## Package `go/types`: the type objects the checker looks at -/

/-- A struct type (`*types.Struct`): the names of its fields in declaration order
(`Field(i).Name()`) and its tags. -/
structure Struct where
  fields : List GoString
  tags : List GoString
deriving DecidableEq, Repr

/-- The method `(*types.Struct).NumFields`. -/
def Struct.NumFields (s : Struct) : Nat := s.fields.length

/-- The name `s.Field(i).Name()` of the i-th field. -/
def Struct.FieldName (s : Struct) (i : Nat) : GoString := s.fields.getD i []

/-- The method `(*types.Struct).Tag`: the i-th tag, the empty string when `i` is not
below the number of tags. -/
def Struct.Tag (s : Struct) (i : Nat) : GoString := s.tags.getD i []

/-- A value of the interface `types.Type`: nil, or a type object told apart by its
dynamic type.  Pointer, named and alias objects are known by their identity; what
they refer to is read from the `TypeGraph`, so type graphs with cycles exist.
`other` stands for every remaining kind (basic, slice, map, interface, ...). -/
inductive TypeVal where
  | nil
  | struct (s : Struct)
  | pointer (p : Nat)
  | named (n : Nat)
  | typeAlias (a : Nat)
  | other
deriving DecidableEq, Repr

/-- The methods the type objects answer: `(*types.Pointer).Elem`,
`(*types.Named).Underlying` and `(*types.Alias).Rhs`, by object identity. -/
structure TypeGraph where
  elem : Nat → TypeVal
  underlying : Nat → TypeVal
  rhs : Nat → TypeVal

/-! ## Package `go/ast`: syntax trees -/

/-- A node of the syntax tree.  The three kinds `main.go` tells apart are spelled
out; `other` is any other node (identifier, literal, call, parenthesised
expression, block, loop, function literal, declaration, file, ...) with its
children in the order `ast.Walk` visits them.  `id` is the identity of the node,
the key of `TypesInfo.Types`. -/
inductive Node where
  | ifStmt (id : Nat) (init : Option Node) (cond : Node) (body : Node) (els : Option Node)
  | binaryExpr (id : Nat) (x : Node) (op : Nat) (y : Node)
  | selectorExpr (id : Nat) (x : Node) (sel : Option GoString)
  | other (id : Nat) (children : List Node)

/-- The identity of a node. -/
def Node.id : Node → Nat
  | .ifStmt id _ _ _ _ => id
  | .binaryExpr id _ _ _ => id
  | .selectorExpr id _ _ => id
  | .other id _ => id

/-- What `main.go` reads of a `*packages.Package`: the type recorded for an
expression, `pkg.TypesInfo.Types[e].Type` (nil when the map has no entry), and
the type objects. -/
structure Package where
  types : Nat → TypeVal
  graph : TypeGraph

/-! ## `main.go`: type resolver, field classifier, selector test -/

/-- The function `structFromSelectorXType` of `main.go`.  The Go function recurses
without a bound; here each call spends one unit of `fuel`, and `none` means the
fuel ran out before the function returned.  `some none` is the result nil. -/
def structFromSelectorXType (g : TypeGraph) : Nat → TypeVal → Option (Option Struct)
  | 0, _ => none
  | fuel + 1, xType =>
    match xType with
    | .struct xTypeStruct => some (some xTypeStruct)
    | .pointer p => structFromSelectorXType g fuel (g.elem p)
    | .named n => structFromSelectorXType g fuel (g.underlying n)
    | _ => some none

/-- The loop of `isProhibitedField`, from index `i`, with `n` iterations left at
most. -/
def isProhibitedFieldLoop (definition : Struct) (fieldSelector : GoString) : Nat → Nat → Bool
  | 0, _ => false
  | n + 1, i =>
    if i < definition.NumFields then
      if definition.FieldName i = fieldSelector then hasNoDirectEqualityTag (definition.Tag i)
      else isProhibitedFieldLoop definition fieldSelector n (i + 1)
    else false

/-- The function `isProhibitedField` of `main.go`. -/
def isProhibitedField (definition : Struct) (fieldSelector : GoString) : Bool :=
  isProhibitedFieldLoop definition fieldSelector definition.NumFields 0

/-- The function `isProbibitedSelector` of `main.go` on the selector `x.sel`; `none`
when the type resolution runs out of fuel. -/
def isProbibitedSelector (pkg : Package) (fuel : Nat) (x : Node) (sel : Option GoString) :
    Option (Bool × GoString) :=
  match sel with
  | none => some (false, [])
  | some name =>
    if name.length = 0 then some (false, [])
    else
      match structFromSelectorXType pkg.graph fuel (pkg.types x.id) with
      | none => none
      | some none => some (false, [])
      | some (some xTypeStruct) => some (isProhibitedField xTypeStruct name, name)

/-- The function `isProhibited` of `main.go`. -/
def isProhibited (pkg : Package) (fuel : Nat) (x : Node) : Option (Bool × GoString) :=
  match x with
  | .selectorExpr _ x1 sel => isProbibitedSelector pkg fuel x1 sel
  | _ => some (false, [])

/-! ## `main.go`: the traversal -/

/-- One call of `printWarningMessageForExpression`: the expression and the field
name it was given. -/
structure Warning where
  expr : Node
  fieldName : GoString

/-- The state of `walkFile`: the calls of `printWarningMessageForExpression` made
so far, oldest first, and the variable `rawComparisonsFound`. -/
structure WalkState where
  printed : List Warning
  rawComparisonsFound : Bool

/-- The closure `walkFile` passes to `ast.Inspect`, applied to a node (or to nil):
the new state and the closure's result, which tells `ast.Inspect` to descend. -/
def inspectFn (pkg : Package) (fuel : Nat) (n : Option Node) (st : WalkState) :
    Option (WalkState × Bool) :=
  match n with
  | some (.ifStmt _ _ cond _ _) =>
    match cond with
    | .binaryExpr _ left _ right =>
      match isProhibited pkg fuel left with
      | none => none
      | some (prohibited, fieldName) =>
        let st1 : WalkState :=
          if prohibited then ⟨st.printed ++ [⟨left, fieldName⟩], true⟩ else st
        match isProhibited pkg fuel right with
        | none => none
        | some (prohibited2, fieldName2) =>
          let st2 : WalkState :=
            if prohibited2 then ⟨st1.printed ++ [⟨right, fieldName2⟩], true⟩ else st1
          some (st2, true)
    | _ => some (st, true)
  | _ => some (st, true)

/-- The end of `ast.Walk` at a node whose children were walked: the call
`v.Visit(nil)`. -/
def leave (f : Option Node → WalkState → Option (WalkState × Bool)) (st : WalkState) :
    Option WalkState :=
  (f none st).map Prod.fst

mutual
/-- The function `ast.Inspect(n, f)`: calls `f` on the node, and when `f` answers
true walks the children in order and calls `f(nil)`. -/
def astInspect (f : Option Node → WalkState → Option (WalkState × Bool)) :
    Node → WalkState → Option WalkState
  | .ifStmt id init cond body els, st =>
    match f (some (.ifStmt id init cond body els)) st with
    | none => none
    | some (st1, false) => some st1
    | some (st1, true) =>
      match astInspectOpt f init st1 with
      | none => none
      | some st2 =>
        match astInspect f cond st2 with
        | none => none
        | some st3 =>
          match astInspect f body st3 with
          | none => none
          | some st4 =>
            match astInspectOpt f els st4 with
            | none => none
            | some st5 => leave f st5
  | .binaryExpr id x op y, st =>
    match f (some (.binaryExpr id x op y)) st with
    | none => none
    | some (st1, false) => some st1
    | some (st1, true) =>
      match astInspect f x st1 with
      | none => none
      | some st2 =>
        match astInspect f y st2 with
        | none => none
        | some st3 => leave f st3
  | .selectorExpr id x sel, st =>
    match f (some (.selectorExpr id x sel)) st with
    | none => none
    | some (st1, false) => some st1
    | some (st1, true) =>
      match astInspect f x st1 with
      | none => none
      | some st2 => leave f st2
  | .other id children, st =>
    match f (some (.other id children)) st with
    | none => none
    | some (st1, false) => some st1
    | some (st1, true) =>
      match astInspectList f children st1 with
      | none => none
      | some st2 => leave f st2
/-- The walk of an optional child (`if n.Init != nil`, `if n.Else != nil`). -/
def astInspectOpt (f : Option Node → WalkState → Option (WalkState × Bool)) :
    Option Node → WalkState → Option WalkState
  | none, st => some st
  | some n, st => astInspect f n st
/-- The walk of a list of children, in order. -/
def astInspectList (f : Option Node → WalkState → Option (WalkState × Bool)) :
    List Node → WalkState → Option WalkState
  | [], st => some st
  | n :: ns, st =>
    match astInspect f n st with
    | none => none
    | some st1 => astInspectList f ns st1
end

/-- The function `walkFile` of `main.go`: the warnings printed, in order, and the
boolean returned; `none` when a type resolution runs out of fuel. -/
def walkFile (pkg : Package) (fuel : Nat) (file : Node) : Option (List Warning × Bool) :=
  (astInspect (inspectFn pkg fuel) file ⟨[], false⟩).map
    (fun st => (st.printed, st.rawComparisonsFound))

/-! ## Notions the statements use -/

mutual
/-- The nodes of a tree, the root first, in the order `ast.Walk` reaches them. -/
def subnodes : Node → List Node
  | .ifStmt id init cond body els =>
    .ifStmt id init cond body els ::
      (subnodesOpt init ++ subnodes cond ++ subnodes body ++ subnodesOpt els)
  | .binaryExpr id x op y => .binaryExpr id x op y :: (subnodes x ++ subnodes y)
  | .selectorExpr id x sel => .selectorExpr id x sel :: subnodes x
  | .other id children => .other id children :: subnodesList children
/-- The nodes of an optional child. -/
def subnodesOpt : Option Node → List Node
  | none => []
  | some n => subnodes n
/-- The nodes of a list of children. -/
def subnodesList : List Node → List Node
  | [] => []
  | n :: ns => subnodes n ++ subnodesList ns
end

/-- The warning an operand of a condition gives: one when `isProhibited` says
true, none otherwise. -/
def operandWarnings (pkg : Package) (fuel : Nat) (e : Node) : Option (List Warning) :=
  (isProhibited pkg fuel e).map (fun r => if r.1 then [⟨e, r.2⟩] else [])

/-- The warnings of one node: those of the two operands, left first, when the node
is an if statement whose condition is a binary expression; none otherwise. -/
def stmtWarnings (pkg : Package) (fuel : Nat) : Node → Option (List Warning)
  | .ifStmt _ _ (.binaryExpr _ x _ y) _ _ =>
    match operandWarnings pkg fuel x with
    | none => none
    | some a => (operandWarnings pkg fuel y).map (fun b => a ++ b)
  | _ => some []

/-- The warnings of a list of nodes, in order. -/
def collectWarnings (pkg : Package) (fuel : Nat) : List Node → Option (List Warning)
  | [] => some []
  | n :: ns =>
    match stmtWarnings pkg fuel n with
    | none => none
    | some a => (collectWarnings pkg fuel ns).map (fun b => a ++ b)

/-- The struct `Session` of the spec: `Token string` tagged `security:"nodirectequality"`. -/
def sessionStruct : Struct :=
  { fields := [bytes "Token"], tags := [bytes "security:\"nodirectequality\""] }

/-- Whether the node is a selector expression `x.sel`. -/
def Node.isSelector : Node → Bool
  | .selectorExpr _ _ _ => true
  | _ => false

/-- Whether the node is an if statement. -/
def Node.isIfStmt : Node → Bool
  | .ifStmt _ _ _ _ _ => true
  | _ => false

/-- The fuel is enough for `structFromSelectorXType` to return on the type recorded
for every expression of the package. -/
def Resolves (pkg : Package) (fuel : Nat) : Prop :=
  ∀ e, (structFromSelectorXType pkg.graph fuel (pkg.types e)).isSome = true

/-- One layer around a type: a pointer object or a named object. -/
inductive Layer where
  | pointer (p : Nat)
  | named (n : Nat)
deriving DecidableEq

/-- The type `top` is `base` under the stack of layers, outermost first: each
pointer layer's `Elem()` and each named layer's `Underlying()` is the next one. -/
def layeredOn (g : TypeGraph) : List Layer → TypeVal → TypeVal → Prop
  | [], top, base => top = base
  | .pointer p :: ls, top, base => top = .pointer p ∧ layeredOn g ls (g.elem p) base
  | .named n :: ls, top, base => top = .named n ∧ layeredOn g ls (g.underlying n) base

/-- The type is neither a struct, a pointer nor a named type: nil, an alias object or
one of the other kinds. -/
def TypeVal.isLeaf : TypeVal → Bool
  | .struct _ => false
  | .pointer _ => false
  | .named _ => false
  | _ => true

/-- The operand is a prohibited field access: `isProhibited` returns true on it. -/
def prohibitedOperand (pkg : Package) (fuel : Nat) (e : Node) : Bool :=
  match isProhibited pkg fuel e with
  | some (true, _) => true
  | _ => false

/-- The node is an if statement whose condition is directly a binary expression with
a prohibited field access as one of its two operands. -/
def flaggedIf (pkg : Package) (fuel : Nat) : Node → Bool
  | .ifStmt _ _ (.binaryExpr _ x _ y) _ _ =>
    prohibitedOperand pkg fuel x || prohibitedOperand pkg fuel y
  | _ => false

/-- The struct is one of the type information: the type of an expression or what a
type object refers to. -/
def Package.hasStruct (pkg : Package) (s : Struct) : Prop :=
  (∃ e, pkg.types e = .struct s) ∨ (∃ p, pkg.graph.elem p = .struct s) ∨
    (∃ n, pkg.graph.underlying n = .struct s) ∨ (∃ a, pkg.graph.rhs a = .struct s)

/-- The state after more warnings were printed. -/
def WalkState.extend (st : WalkState) (ws : List Warning) : WalkState :=
  ⟨st.printed ++ ws, st.rawComparisonsFound || !ws.isEmpty⟩

/-! ## Example units -/

/-- The struct `Session` of the spec with the tag removed. -/
def plainStruct : Struct := { fields := [bytes "Token"], tags := [] }

/-- Type objects for the examples: every pointer object points to the named type
`Session`, whose underlying type is the given struct. -/
def sessionGraph (s : Struct) : TypeGraph :=
  { elem := fun _ => .named 0, underlying := fun _ => .struct s, rhs := fun _ => .nil }

/-- A package around a struct: expression 3 (`s`) has type `Session`, expression 8
(`p`) has type `*Session`, every other expression a type that is not a struct. -/
def unitPkg (s : Struct) : Package :=
  { types := fun e => if e = 3 then .named 0 else if e = 8 then .pointer 0 else .other
    graph := sessionGraph s }

/-- The operand `s.Token`. -/
def sToken : Node := .selectorExpr 5 (.other 3 []) (some (bytes "Token"))

/-- The operand `p.Token`, with `p` a pointer to a `Session`. -/
def pToken : Node := .selectorExpr 9 (.other 8 []) (some (bytes "Token"))

/-- The statement `if s.Token == userInput { }` (`==` is token 39). -/
def sessionIf : Node := .ifStmt 1 none (.binaryExpr 2 sToken 39 (.other 4 [])) (.other 6 []) none

/-- A file with one function whose body is the statement. -/
def sessionFile : Node := .other 0 [.other 7 [.other 10 [sessionIf]]]

/-- The statement `if s.Token == p.Token { }`: both operands name the field `Token`. -/
def bothIf : Node := .ifStmt 1 none (.binaryExpr 2 sToken 39 pToken) (.other 6 []) none

/-- A file whose function holds a loop; in the loop an if statement on local values
has, as its else branch, the statement `if s.Token == p.Token { }`. -/
def nestedFile : Node :=
  .other 0 [.other 7 [.other 10 [.other 11
    [.ifStmt 12 none (.binaryExpr 13 (.other 14 []) 39 (.other 15 [])) (.other 16 [])
      (some bothIf)]]]]

/-- A file whose function compares the field outside any if statement:
`ok := s.Token == userInput`. -/
def assignFile : Node :=
  .other 0 [.other 7 [.other 10 [.other 11 [.other 12 [], .binaryExpr 2 sToken 39 (.other 4 [])]]]]

/-- The node `c` is a child of the node `p`: one of the nodes `ast.Walk` walks from `p`. -/
inductive Child : Node → Node → Prop
  | ifInit (id : Nat) (i cond body : Node) (els : Option Node) :
      Child (.ifStmt id (some i) cond body els) i
  | ifCond (id : Nat) (init : Option Node) (cond body : Node) (els : Option Node) :
      Child (.ifStmt id init cond body els) cond
  | ifBody (id : Nat) (init : Option Node) (cond body : Node) (els : Option Node) :
      Child (.ifStmt id init cond body els) body
  | ifElse (id : Nat) (init : Option Node) (cond body e : Node) :
      Child (.ifStmt id init cond body (some e)) e
  | binaryX (id : Nat) (x : Node) (op : Nat) (y : Node) : Child (.binaryExpr id x op y) x
  | binaryY (id : Nat) (x : Node) (op : Nat) (y : Node) : Child (.binaryExpr id x op y) y
  | selectorX (id : Nat) (x : Node) (sel : Option GoString) : Child (.selectorExpr id x sel) x
  | other (id : Nat) (children : List Node) (c : Node) : c ∈ children →
      Child (.other id children) c

/-- The tree rooted at `root` contains the node `n`, at any depth. -/
inductive Contains : Node → Node → Prop
  | self (n : Node) : Contains n n
  | step (p c n : Node) : Child p c → Contains c n → Contains p n

/-- The tail of a result of `unquoteChar`, when there is one, is no longer than `n`. -/
def TailBounded (n : Nat) (o : Option (Nat × Bool × GoString)) : Prop :=
  ∀ x, o = some x → x.2.2.length ≤ n

/-! ## `main.go`: the run over the loaded packages -/

/-- What `main` reads of one element of `pkgs`: the package and its files
(`pkg.Syntax`). -/
structure LoadedPackage where
  pkg : Package
  files : List Node

/-- The inner loop of `main` over the files of a package.  The state is what has
been printed so far and the variable `rawComparisonsFound` of `main`. -/
def mainFiles (pkg : Package) (fuel : Nat) :
    List Node → List Warning × Bool → Option (List Warning × Bool)
  | [], st => some st
  | f :: fs, st =>
    match walkFile pkg fuel f with
    | none => none
    | some (ws, hasRawComparisons) =>
      mainFiles pkg fuel fs (st.1 ++ ws, if hasRawComparisons then true else st.2)

/-- The outer loop of `main` over the packages. -/
def mainPackages (fuel : Nat) :
    List LoadedPackage → List Warning × Bool → Option (List Warning × Bool)
  | [], st => some st
  | p :: ps, st =>
    match mainFiles p.pkg fuel p.files st with
    | none => none
    | some st1 => mainPackages fuel ps st1

/-- The loops of `main` from `rawComparisonsFound := false`: everything printed, and
the final `rawComparisonsFound` (the process exits with status 1 when it is
true). -/
def mainRun (fuel : Nat) (pkgs : List LoadedPackage) : Option (List Warning × Bool) :=
  mainPackages fuel pkgs ([], false)

/-- The warnings `walkFile` prints for a file and its result, `([], false)` when it
does not return within the fuel. -/
def fileResult (fuel : Nat) (pkg : Package) (f : Node) : List Warning × Bool :=
  (walkFile pkg fuel f).getD ([], false)

/-! ## Operators and their replacement -/

/-- The constant `token.LAND`, the operator `&&`. -/
def tokenLAND : Nat := 34

/-- The constant `token.LOR`, the operator `||`. -/
def tokenLOR : Nat := 35

/-- The constant `token.EQL`, the operator `==`. -/
def tokenEQL : Nat := 39

/-- The constant `token.LSS`, the operator `<`. -/
def tokenLSS : Nat := 40

mutual
/-- The tree with the operator `op` of every binary expression of identity `id`
replaced by `ρ id op`; nothing else changes. -/
def replaceOps (ρ : Nat → Nat → Nat) : Node → Node
  | .ifStmt id init cond body els =>
    .ifStmt id (replaceOpsOpt ρ init) (replaceOps ρ cond) (replaceOps ρ body)
      (replaceOpsOpt ρ els)
  | .binaryExpr id x op y => .binaryExpr id (replaceOps ρ x) (ρ id op) (replaceOps ρ y)
  | .selectorExpr id x sel => .selectorExpr id (replaceOps ρ x) sel
  | .other id children => .other id (replaceOpsList ρ children)
/-- The replacement in an optional child. -/
def replaceOpsOpt (ρ : Nat → Nat → Nat) : Option Node → Option Node
  | none => none
  | some n => some (replaceOps ρ n)
/-- The replacement in a list of children. -/
def replaceOpsList (ρ : Nat → Nat → Nat) : List Node → List Node
  | [] => []
  | n :: ns => replaceOps ρ n :: replaceOpsList ρ ns
end

/-- The warning with the operators of its expression replaced. -/
def Warning.replaceOps (ρ : Nat → Nat → Nat) (w : Warning) : Warning :=
  ⟨DirectEquality.replaceOps ρ w.expr, w.fieldName⟩

/-! ## More example units -/

/-- Type objects of `type T *T`: the underlying type of the named type is a pointer
whose element is the named type again. -/
def selfPointerGraph : TypeGraph :=
  { elem := fun _ => .named 0, underlying := fun _ => .pointer 0, rhs := fun _ => .nil }

/-- A package with `type A = Session`: expression 3 (`a`) has as type the alias
object 0, whose right-hand side is the named type `Session`, a struct with the
tagged field `Token`. -/
def aliasPkg : Package :=
  { types := fun e => if e = 3 then .typeAlias 0 else .other
    graph := { elem := fun _ => .nil, underlying := fun _ => .struct sessionStruct,
               rhs := fun _ => .named 0 } }

/-- The struct `struct { Valid bool }` with the field tagged
`security:"nodirectequality"`. -/
def flagStruct : Struct :=
  { fields := [bytes "Valid"], tags := [bytes "security:\"nodirectequality\""] }

/-- The operand `s.Valid`. -/
def sValid : Node := .selectorExpr 5 (.other 3 []) (some (bytes "Valid"))

/-- The statement `if s.Valid && ok { }`. -/
def logicalIf : Node :=
  .ifStmt 1 none (.binaryExpr 2 sValid tokenLAND (.other 4 [])) (.other 6 []) none

/-- The statement `if s.Token == userInput || p.Token == userInput { }`. -/
def compoundIf : Node :=
  .ifStmt 1 none
    (.binaryExpr 2 (.binaryExpr 11 sToken tokenEQL (.other 4 [])) tokenLOR
      (.binaryExpr 12 pToken tokenEQL (.other 13 [])))
    (.other 6 []) none

/-! ## `main.go`: the source line of a diagnostic -/

/-- The constant `bufio.MaxScanTokenSize`, the largest buffer of a `bufio.Scanner`. -/
def maxScanTokenSize : Nat := 65536

/-- The function `bufio.dropCR`: the data without a final carriage return. -/
def dropCR (data : GoString) : GoString :=
  if data.getLast? = some 13 then data.dropLast else data

/-- The first `scanner.Scan()` with the split function `bufio.ScanLines` on a reader
that delivers `data` and then the end of the file, followed by `scanner.Text()`:
the text before the first newline, or all the data when it has no newline,
without a final carriage return.  `none` is `Scan() == false`: no data at all, or
a line that does not fit the buffer. -/
def scanLine (data : GoString) : Option GoString :=
  if data = [] then none
  else if 10 ∈ data then
    let line := data.takeWhile (fun b => b ≠ 10)
    if line.length < maxScanTokenSize then some (dropCR line) else none
  else if data.length < maxScanTokenSize then some (dropCR data)
  else none

/-- The errors of `lineOfCode`: the file cannot be opened, or no line was scanned. -/
inductive LineError where
  | openFailed
  | exceededMax
deriving DecidableEq

/-- The function `lineOfCode` of `main.go` on the content of the file at `path`
(`none` when `os.Open` fails): the scanner reads from the offset the file was
moved to by `Seek`, which succeeds on a file for every offset. -/
def lineOfCode (file : Option GoString) (offset : Nat) : Except LineError GoString :=
  match file with
  | none => .error .openFailed
  | some content =>
    match scanLine (content.drop offset) with
    | some text => .ok text
    | none => .error .exceededMax

/-- The whole line of the content that contains the offset, as the spec words it:
the text between the newline before the offset and the newline after it. -/
def wholeLineAt (content : GoString) (offset : Nat) : GoString :=
  ((content.take offset).reverse.takeWhile (fun b => b ≠ 10)).reverse ++
    (content.drop offset).takeWhile (fun b => b ≠ 10)

/-- A source file: `package p`, and on its second line, after a tab, the statement
`if s.Token == userInput {`; the operand `s.Token` starts at offset 14. -/
def sourceText : GoString := bytes "package p\n\tif s.Token == userInput \x7b\n\t\x7d\n"

/-! ## Tags as `Lookup` reads them -/

/-- The text between the quotes of a value, as `Lookup` scans it: no quote of its
own, except after a backslash, which takes the next byte with it. -/
inductive QuotedBody : GoString → Prop
  | nil : QuotedBody []
  | plain (c : Nat) (q : GoString) : c ≠ 34 → c ≠ 92 → QuotedBody q → QuotedBody (c :: q)
  | escape (d : Nat) (q : GoString) : QuotedBody q → QuotedBody (92 :: d :: q)

/-- One group of a tag with the spaces before it: `spaces key:"body"`. -/
structure RawGroup where
  spaces : GoString
  key : GoString
  body : GoString

/-- The text of the group. -/
def RawGroup.text (g : RawGroup) : GoString :=
  g.spaces ++ (g.key ++ 58 :: 34 :: (g.body ++ [34]))

/-- The group follows the convention: spaces (U+0020) only before the key, a
well-formed key, a quoted body. -/
def RawGroup.WellFormed (g : RawGroup) : Prop :=
  (∀ b ∈ g.spaces, b = 32) ∧ WellFormedKey g.key ∧ QuotedBody g.body

/-- The text of a run of groups. -/
def renderRaw : List RawGroup → GoString
  | [] => []
  | g :: gs => g.text ++ renderRaw gs

/-- The string as a whole is a sequence of `key:"value"` groups: well-formed groups,
each after any number of spaces, and spaces at the end. -/
def Conforming (tag : GoString) : Prop :=
  ∃ (gs : List RawGroup) (trailing : GoString),
    (∀ g ∈ gs, g.WellFormed) ∧ (∀ b ∈ trailing, b = 32) ∧ tag = renderRaw gs ++ trailing

/-! ## The repository's tests -/

/-- The twelve cases of `TestHasNoDirectEqualityTag` (`main_test.go`) hold of the
embedding. -/
theorem hasNoDirectEqualityTag_tests :
    hasNoDirectEqualityTag (bytes "db:\"acceptance_token\" security:\"nodirectequality\"") = true ∧
      hasNoDirectEqualityTag (bytes "db:\"verification_token\" security:\"nodirectequality\"") = true ∧
      hasNoDirectEqualityTag (bytes "json:\"token,omitempty\" security:\"nodirectequality\"") = true ∧
      hasNoDirectEqualityTag
        (bytes "json:\"token,omitempty\" security:\"nodirectequality,other\"") = true ∧
      hasNoDirectEqualityTag
        (bytes "json:\"token,omitempty\" security:\"other,nodirectequality\"") = true ∧
      hasNoDirectEqualityTag (bytes "security:\"nodirectequality\"") = true ∧
      hasNoDirectEqualityTag (bytes "security:\"other,nodirectequality\"") = true ∧
      hasNoDirectEqualityTag (bytes "security:\"nodirectequality,other\"") = true ∧
      hasNoDirectEqualityTag (bytes "security:\"nodirectequality\" json:\"token\"") = true ∧
      hasNoDirectEqualityTag (bytes "db:\"nodirectequality\" security:\"acceptance_token\"") = false ∧
      hasNoDirectEqualityTag (bytes "security:\"\"") = false ∧
      hasNoDirectEqualityTag (bytes "\"\"") = false := by
  refine ⟨?_, ?_, ?_, ?_, ?_, ?_, ?_, ?_, ?_, ?_, ?_, ?_⟩ <;> decide

/-! ## Lemmas: `strings.Split` -/

theorem securityTag_eq : securityTag = [115, 101, 99, 117, 114, 105, 116, 121] := by decide

theorem noDirectEqualityValue_eq :
    noDirectEqualityValue =
      [110, 111, 100, 105, 114, 101, 99, 116, 101, 113, 117, 97, 108, 105, 116, 121] := by
  decide

theorem stringsSplit_ne_nil (sep : Nat) (s : GoString) : stringsSplit sep s ≠ [] := by
  induction s with
  | nil => simp [stringsSplit]
  | cons c s ih =>
    unfold stringsSplit
    split_ifs
    · simp
    · cases h : stringsSplit sep s <;> simp

theorem stringsSplit_cons_of_ne (sep c : Nat) (s h : GoString) (tl : List GoString)
    (hc : c ≠ sep) (hs : stringsSplit sep s = h :: tl) :
    stringsSplit sep (c :: s) = (c :: h) :: tl := by
  rw [stringsSplit, if_neg hc, hs]

theorem stringsSplit_append (sep : Nat) (a s h : GoString) (tl : List GoString)
    (ha : ∀ b ∈ a, b ≠ sep) (hs : stringsSplit sep s = h :: tl) :
    stringsSplit sep (a ++ s) = (a ++ h) :: tl := by
  induction a with
  | nil => simpa using hs
  | cons c a ih =>
    have h1 : stringsSplit sep (a ++ s) = (a ++ h) :: tl :=
      ih (fun b hb => ha b (List.mem_cons_of_mem _ hb))
    have hc : c ≠ sep := ha c (List.mem_cons_self _ _)
    simpa using stringsSplit_cons_of_ne sep c (a ++ s) (a ++ h) tl hc h1

theorem stringsSplit_joinTokens (ts : List GoString) (hne : ts ≠ [])
    (hts : ∀ t ∈ ts, 44 ∉ t) : stringsSplit 44 (joinTokens ts) = ts := by
  induction ts with
  | nil => exact absurd rfl hne
  | cons t ts ih =>
    cases ts with
    | nil =>
      have h0 : stringsSplit 44 ([] : GoString) = [] :: [] := rfl
      have := stringsSplit_append 44 t [] [] []
        (fun b hb hb44 => hts t (List.mem_cons_self _ _) (hb44 ▸ hb)) h0
      simpa [joinTokens] using this
    | cons t1 ts =>
      have h1 : stringsSplit 44 (joinTokens (t1 :: ts)) = t1 :: ts :=
        ih (by simp) (fun u hu => hts u (List.mem_cons_of_mem _ hu))
      have h2 : stringsSplit 44 (44 :: joinTokens (t1 :: ts)) = [] :: t1 :: ts := by
        rw [stringsSplit, if_pos rfl, h1]
      have := stringsSplit_append 44 t _ [] (t1 :: ts)
        (fun b hb hb44 => hts t (List.mem_cons_self _ _) (hb44 ▸ hb)) h2
      simpa [joinTokens] using this

/-! ## Lemmas: strings that agree on their ASCII bytes -/

theorem AsciiEquiv.refl (s : GoString) : AsciiEquiv s s := by
  induction s with
  | nil => exact AsciiEquiv.nil
  | cons c s ih =>
    by_cases hc : c < 128
    · exact AsciiEquiv.ascii c s s hc ih
    · have := AsciiEquiv.high [c] [c] s s (by simp) (by simp)
        (by intro x hx; simp at hx; omega) (by intro x hx; simp at hx; omega) ih
      simpa using this

theorem AsciiEquiv.eq_of_left_ascii {s t : GoString} (h : AsciiEquiv s t)
    (hs : ∀ b ∈ s, b < 128) : s = t := by
  induction h with
  | nil => rfl
  | ascii c s t _ _ ih =>
    rw [ih (fun b hb => hs b (List.mem_cons_of_mem _ hb))]
  | high a b s t ha _ ha128 _ _ _ =>
    exfalso
    cases a with
    | nil => exact ha rfl
    | cons x a =>
      have h1 := hs x (by simp)
      have h2 := ha128 x (by simp)
      omega

theorem AsciiEquiv.eq_of_right_ascii {s t : GoString} (h : AsciiEquiv s t)
    (ht : ∀ b ∈ t, b < 128) : s = t := by
  induction h with
  | nil => rfl
  | ascii c s t _ _ ih =>
    rw [ih (fun b hb => ht b (List.mem_cons_of_mem _ hb))]
  | high a b s t _ hb _ hb128 _ _ =>
    exfalso
    cases b with
    | nil => exact hb rfl
    | cons x b =>
      have h1 := ht x (by simp)
      have h2 := hb128 x (by simp)
      omega

theorem AsciiEquiv.stringsSplit {s t : GoString} (h : AsciiEquiv s t) :
    List.Forall₂ AsciiEquiv (stringsSplit 44 s) (stringsSplit 44 t) := by
  induction h with
  | nil => exact List.Forall₂.cons AsciiEquiv.nil List.Forall₂.nil
  | ascii c s t hc _ ih =>
    by_cases h44 : c = 44
    · subst h44
      rw [DirectEquality.stringsSplit, if_pos rfl, DirectEquality.stringsSplit, if_pos rfl]
      exact List.Forall₂.cons AsciiEquiv.nil ih
    · generalize hs1 : DirectEquality.stringsSplit 44 s = l at ih
      generalize ht1 : DirectEquality.stringsSplit 44 t = l1 at ih
      cases ih with
      | nil => exact absurd hs1 (stringsSplit_ne_nil 44 s)
      | @cons x y xs ys hh htl =>
        rw [stringsSplit_cons_of_ne 44 c s x xs h44 hs1,
          stringsSplit_cons_of_ne 44 c t y ys h44 ht1]
        exact List.Forall₂.cons (AsciiEquiv.ascii c x y hc hh) htl
  | high a b s t ha hb ha128 hb128 _ ih =>
    generalize hs1 : DirectEquality.stringsSplit 44 s = l at ih
    generalize ht1 : DirectEquality.stringsSplit 44 t = l1 at ih
    cases ih with
    | nil => exact absurd hs1 (stringsSplit_ne_nil 44 s)
    | @cons x y xs ys hh htl =>
      rw [stringsSplit_append 44 a s x xs (fun z hz h44 => by have := ha128 z hz; omega) hs1,
        stringsSplit_append 44 b t y ys (fun z hz h44 => by have := hb128 z hz; omega) ht1]
      exact List.Forall₂.cons (AsciiEquiv.high a b x y ha hb ha128 hb128 hh) htl

theorem noDirectEqualityValue_ascii : ∀ b ∈ noDirectEqualityValue, b < 128 := by decide

theorem any_marker_of_forall₂ {l l1 : List GoString} (h : List.Forall₂ AsciiEquiv l l1) :
    l.any (fun value => decide (value = noDirectEqualityValue)) =
      l1.any (fun value => decide (value = noDirectEqualityValue)) := by
  induction h with
  | nil => rfl
  | @cons x y xs ys hxy _ ih =>
    have hiff : x = noDirectEqualityValue ↔ y = noDirectEqualityValue := by
      constructor
      · intro hx
        have hasc : ∀ b ∈ x, b < 128 := by rw [hx]; exact noDirectEqualityValue_ascii
        rw [← hxy.eq_of_left_ascii hasc]; exact hx
      · intro hy
        have hasc : ∀ b ∈ y, b < 128 := by rw [hy]; exact noDirectEqualityValue_ascii
        rw [hxy.eq_of_right_ascii hasc]; exact hy
    simp only [List.any_cons, ih, decide_eq_decide.mpr hiff]

/-! ## Lemmas: `unicode/utf8` on a byte from 0x80 up -/

theorem first_cases (c : Nat) (hc : 128 ≤ c) :
    first c = 0xF1 ∨ (first c = 0x02 ∧ 0xC2 ≤ c ∧ c < 0xE0) ∨ (first c = 0x13 ∧ c = 0xE0) ∨
      (first c = 0x03 ∧ 0xE1 ≤ c ∧ c < 0xF0) ∨ (first c = 0x23 ∧ c = 0xED) ∨
      (first c = 0x34 ∧ c = 0xF0) ∨ (first c = 0x04 ∧ 0xF1 ≤ c ∧ c < 0xF4) ∨
      (first c = 0x44 ∧ c = 0xF4) := by
  unfold first
  split_ifs <;> simp <;> omega

theorem decodeRune_high (c : Nat) (s : GoString) (hc : 128 ≤ c) :
    1 ≤ (decodeRuneInString (c :: s)).2 ∧
      (decodeRuneInString (c :: s)).2 ≤ (c :: s).length ∧
      (∀ b ∈ (c :: s).take (decodeRuneInString (c :: s)).2, 128 ≤ b) ∧
      128 ≤ (decodeRuneInString (c :: s)).1 := by
  have hf := first_cases c hc
  rcases s with _ | ⟨s1, _ | ⟨s2, _ | ⟨s3, rest⟩⟩⟩ <;>
    rcases hf with h | ⟨h, h2⟩ | ⟨h, h2⟩ | ⟨h, h2⟩ | ⟨h, h2⟩ | ⟨h, h2⟩ | ⟨h, h2⟩ | ⟨h, h2⟩ <;>
    simp only [decodeRuneInString, h, acceptRanges, RuneError] <;>
    (try simp) <;> (try split_ifs) <;> (try simp) <;> (try omega)

theorem appendRune_high (r : Nat) (hr : 128 ≤ r) :
    appendRune r ≠ [] ∧ ∀ b ∈ appendRune r, 128 ≤ b := by
  unfold appendRune
  split_ifs <;> simp [RuneError] <;> omega

/-! ## Lemmas: `strconv.Unquote` on a plain value -/

theorem unquoteLoop_plain (n : Nat) :
    ∀ (v rest buf : GoString) (fuel : Nat), v.length ≤ n → v.length ≤ fuel →
      34 ∉ v → 92 ∉ v →
      ∃ v1, AsciiEquiv v v1 ∧
        unquoteLoop fuel (v ++ 34 :: rest) buf =
          if 10 ∈ v then none else some (buf ++ v1, rest) := by
  induction n with
  | zero =>
    intro v rest buf fuel hn _ _ _
    have hv : v = [] := List.length_eq_zero.mp (Nat.le_zero.mp hn)
    subst hv
    refine ⟨[], AsciiEquiv.nil, ?_⟩
    cases fuel <;> simp [unquoteLoop]
  | succ n ih =>
    intro v rest buf fuel hn hfuel hq hb
    cases v with
    | nil =>
      refine ⟨[], AsciiEquiv.nil, ?_⟩
      cases fuel <;> simp [unquoteLoop]
    | cons c w =>
      have hc34 : c ≠ 34 := fun h => hq (h ▸ List.mem_cons_self _ _)
      have hc92 : c ≠ 92 := fun h => hb (h ▸ List.mem_cons_self _ _)
      have hw34 : 34 ∉ w := fun h => hq (List.mem_cons_of_mem _ h)
      have hw92 : 92 ∉ w := fun h => hb (List.mem_cons_of_mem _ h)
      obtain ⟨fuel1, rfl⟩ : ∃ k, fuel = k + 1 := ⟨fuel - 1, by simp at hfuel; omega⟩
      simp only [List.length_cons] at hn hfuel
      by_cases hc : c < 128
      · obtain ⟨v1, hv1, hrun⟩ := ih w rest (buf ++ [c]) fuel1 (by omega) (by omega) hw34 hw92
        refine ⟨c :: v1, AsciiEquiv.ascii c w v1 hc hv1, ?_⟩
        have hmod : c % 256 = c := Nat.mod_eq_of_lt (by omega)
        have hnot : ¬ c ≥ RuneSelf := by simp [RuneSelf]; omega
        by_cases h10 : c = 10
        · subst h10
          simp [unquoteLoop, unquoteChar, RuneSelf]
        · have hmem : (10 ∈ c :: w) ↔ 10 ∈ w := by
            simp [List.mem_cons, Ne.symm h10]
          simp only [List.cons_append, unquoteLoop, unquoteChar, if_neg hc34, if_neg hnot,
            hc92, ne_eq, not_false_eq_true, if_true, if_neg h10, hmod, or_true, hrun,
            hmem, List.append_assoc, List.singleton_append, List.nil_append]
      · have hc128 : 128 ≤ c := by omega
        obtain ⟨hd1, hd2, hd3, hd4⟩ := decodeRune_high c (w ++ 34 :: rest) hc128
        generalize hdec : decodeRuneInString (c :: (w ++ 34 :: rest)) = d at hd1 hd2 hd3 hd4
        -- the decoded bytes lie inside `c :: w`
        have hle : d.2 ≤ (c :: w).length := by
          by_contra hgt
          have hgt1 : (c :: w).length < d.2 := by omega
          have hmem : (34 : Nat) ∈ (c :: (w ++ 34 :: rest)).take d.2 := by
            have : (c :: (w ++ 34 :: rest)) = (c :: w) ++ 34 :: rest := by simp
            rw [this, List.take_append_eq_append_take]
            have h2 : 0 < d.2 - (c :: w).length := by omega
            obtain ⟨k, hk⟩ : ∃ k, d.2 - (c :: w).length = k + 1 := ⟨_, (Nat.succ_pred_eq_of_pos h2).symm⟩
            rw [hk]
            simp
          have := hd3 34 hmem
          omega
        obtain ⟨v1, hv1, hrun⟩ := ih ((c :: w).drop d.2) rest (buf ++ appendRune d.1) fuel1
          (by simp only [List.length_drop, List.length_cons]; omega)
          (by simp only [List.length_drop, List.length_cons]; omega)
          (fun h => hq (List.mem_of_mem_drop h)) (fun h => hb (List.mem_of_mem_drop h))
        have htake : (c :: (w ++ 34 :: rest)).take d.2 = (c :: w).take d.2 := by
          have : (c :: (w ++ 34 :: rest)) = (c :: w) ++ 34 :: rest := by simp
          rw [this, List.take_append_of_le_length hle]
        have hdrop : (c :: (w ++ 34 :: rest)).drop d.2 = (c :: w).drop d.2 ++ 34 :: rest := by
          have : (c :: (w ++ 34 :: rest)) = (c :: w) ++ 34 :: rest := by simp
          rw [this, List.drop_append_of_le_length hle]
        have hahigh : ∀ x ∈ (c :: w).take d.2, 128 ≤ x := by
          rw [← htake]; exact hd3
        have hane : (c :: w).take d.2 ≠ [] := by
          obtain ⟨k, hk⟩ : ∃ k, d.2 = k + 1 := ⟨_, (Nat.succ_pred_eq_of_pos hd1).symm⟩
          rw [hk]; simp
        obtain ⟨hrne, hrhigh⟩ := appendRune_high d.1 hd4
        refine ⟨appendRune d.1 ++ v1, ?_, ?_⟩
        · have := AsciiEquiv.high _ _ _ _ hane hrne hahigh hrhigh hv1
          rwa [List.take_append_drop] at this
        · have hmem : (10 ∈ c :: w) ↔ 10 ∈ (c :: w).drop d.2 := by
            constructor
            · intro h
              rw [← List.take_append_drop d.2 (c :: w), List.mem_append] at h
              rcases h with h | h
              · have := hahigh 10 h; omega
              · exact h
            · exact List.mem_of_mem_drop
          have hge : c ≥ RuneSelf := by simp [RuneSelf]; omega
          have h10 : c ≠ 10 := by omega
          have hr : ¬ (d.1 < RuneSelf ∨ true = false) := by simp [RuneSelf]; omega
          simp only [List.cons_append, unquoteLoop, unquoteChar, if_neg hc34, if_pos hge,
            hdec, if_neg h10, if_neg hr, hdrop, hrun, hmem, List.append_assoc]

theorem takeWhile_ne_append (v rest : GoString) (h : 34 ∉ v) :
    (v ++ 34 :: rest).takeWhile (fun b => b ≠ 34) = v := by
  induction v with
  | nil => simp [List.takeWhile]
  | cons c w ih =>
    have hc : c ≠ 34 := fun h1 => h (h1 ▸ List.mem_cons_self _ _)
    simpa [List.takeWhile, hc] using ih (fun h1 => h (List.mem_cons_of_mem _ h1))

/-- The function `strconv.Unquote` on a quoted plain value: an error when the value has a
newline, and otherwise a string that agrees with the value on its ASCII bytes. -/
theorem strconvUnquote_plain (v : GoString) (hq : 34 ∉ v) (hb : 92 ∉ v) :
    ∃ v1, AsciiEquiv v v1 ∧
      strconvUnquote (34 :: (v ++ [34])) = if 10 ∈ v then none else some v1 := by
  obtain ⟨v1, hv1, hrun⟩ := unquoteLoop_plain v.length v [] [] (v ++ [34]).length
    (le_refl _) (by simp) hq hb
  have hseg : (v ++ [34]).takeWhile (fun b => b ≠ 34) = v := takeWhile_ne_append v [] hq
  have hmem : (34 : Nat) ∈ v ++ [34] := by simp
  have hrem : (v ++ [34]).drop (v.length + 1) = [] := by simp
  by_cases hfast : 92 ∉ v ∧ 10 ∉ v ∧ validString v = true
  · refine ⟨v, AsciiEquiv.refl v, ?_⟩
    simp only [strconvUnquote, hmem, not_true_eq_false, if_false, hseg, hfast, hrem,
      not_false_eq_true, and_self, if_true]
  · refine ⟨v1, hv1, ?_⟩
    simp only [strconvUnquote, hmem, not_true_eq_false, if_false, hseg, hfast, hrem, hrun]
    by_cases h10 : 10 ∈ v
    · simp [h10]
    · simp [h10]

/-! ## Lemmas: `reflect.StructTag.Lookup` on a well-formed tag -/

theorem scanQuoted_plain (v t : GoString) (hq : 34 ∉ v) (hb : 92 ∉ v) :
    scanQuoted (v ++ 34 :: t) = some (v, t) := by
  induction v with
  | nil => rw [List.nil_append, scanQuoted.eq_def]; simp
  | cons c w ih =>
    have hc34 : c ≠ 34 := fun h => hq (h ▸ List.mem_cons_self _ _)
    have hc92 : c ≠ 92 := fun h => hb (h ▸ List.mem_cons_self _ _)
    have := ih (fun h => hq (List.mem_cons_of_mem _ h)) (fun h => hb (List.mem_cons_of_mem _ h))
    rw [List.cons_append, scanQuoted.eq_def]
    simp [hc34, hc92, this]

theorem takeWhile_append_stop (p : Nat → Bool) (k r : GoString) (x : Nat)
    (hk : ∀ b ∈ k, p b = true) (hx : p x = false) : (k ++ x :: r).takeWhile p = k := by
  induction k with
  | nil => simp [List.takeWhile, hx]
  | cons c w ih =>
    have hc : p c = true := hk c (List.mem_cons_self _ _)
    simp [List.takeWhile, hc, ih (fun b hb => hk b (List.mem_cons_of_mem _ hb))]

theorem lookupLoop_space (key s : GoString) (fuel : Nat) :
    lookupLoop key (fuel + 1) (32 :: s) = lookupLoop key (fuel + 1) s := by
  by_cases hs : s = []
  · subst hs
    simp [lookupLoop]
  · have h1 : (32 :: s).dropWhile (fun b => decide (b = 32)) = s.dropWhile (fun b => decide (b = 32)) := by
      simp [List.dropWhile]
    by_cases hd : s.dropWhile (fun b => decide (b = 32)) = []
    · simp only [lookupLoop, h1, hd, hs, if_true, if_false, List.cons_ne_nil]
    · simp only [lookupLoop, h1, hs, if_false, List.cons_ne_nil]

theorem lookupLoop_group (key k v t : GoString) (fuel : Nat)
    (hk : WellFormedKey k) (hv : PlainValue v) :
    lookupLoop key (fuel + 1) (k ++ 58 :: 34 :: (v ++ 34 :: t)) =
      if key = k then strconvUnquote (34 :: (v ++ [34])) else lookupLoop key fuel t := by
  obtain ⟨hkne, hkb⟩ := hk
  obtain ⟨hq, hb⟩ := hv
  obtain ⟨kb, k1, rfl⟩ : ∃ kb k1, k = kb :: k1 := by
    cases k with
    | nil => exact absurd rfl hkne
    | cons kb k1 => exact ⟨kb, k1, rfl⟩
  have hkb0 : isKeyByte kb = true := hkb kb (List.mem_cons_self _ _)
  have hkb32 : kb ≠ 32 := by
    intro h; subst h; simp [isKeyByte] at hkb0
  have hne : (kb :: k1) ++ 58 :: 34 :: (v ++ 34 :: t) ≠ [] := by simp
  have hdrop : ((kb :: k1) ++ 58 :: 34 :: (v ++ 34 :: t)).dropWhile (fun b => decide (b = 32)) =
      (kb :: k1) ++ 58 :: 34 :: (v ++ 34 :: t) := by
    simp [List.dropWhile, hkb32]
  have htake : ((kb :: k1) ++ 58 :: 34 :: (v ++ 34 :: t)).takeWhile isKeyByte = kb :: k1 :=
    takeWhile_append_stop isKeyByte (kb :: k1) _ 58 hkb (by decide)
  have hget1 : ((kb :: k1) ++ 58 :: 34 :: (v ++ 34 :: t)).getD (kb :: k1).length 0 = 58 := by
    rw [List.getD_append_right _ _ _ _ (le_refl _)]; simp
  have hget2 : ((kb :: k1) ++ 58 :: 34 :: (v ++ 34 :: t)).getD ((kb :: k1).length + 1) 0 = 34 := by
    rw [List.getD_append_right _ _ _ _ (by omega)]; simp
  have hdrop2 : ((kb :: k1) ++ 58 :: 34 :: (v ++ 34 :: t)).drop ((kb :: k1).length + 2) =
      v ++ 34 :: t := by
    rw [List.drop_append_eq_append_drop]
    simp
  have hlen : ¬ ((kb :: k1).length = 0 ∨
      (kb :: k1).length + 1 ≥ ((kb :: k1) ++ 58 :: 34 :: (v ++ 34 :: t)).length ∨
      ((kb :: k1) ++ 58 :: 34 :: (v ++ 34 :: t)).getD (kb :: k1).length 0 ≠ 58 ∨
      ((kb :: k1) ++ 58 :: 34 :: (v ++ 34 :: t)).getD ((kb :: k1).length + 1) 0 ≠ 34) := by
    rw [hget1, hget2]
    simp only [List.length_append, List.length_cons]
    omega
  rw [lookupLoop]
  simp only [hne, if_false, hdrop, htake, hlen, hdrop2, scanQuoted_plain v t hq hb]

theorem renderTag_cons (g : TagGroup) (gs : List TagGroup) :
    renderTag (g :: gs) = g.1 ++ 58 :: 34 :: (g.2 ++ 34 :: sepTail gs) := by
  cases gs with
  | nil => simp [renderTag, renderGroup, sepTail]
  | cons g1 gs1 => simp [renderTag, renderGroup, sepTail]

theorem lookupLoop_renderTag (key : GoString) (gs : List TagGroup) :
    ∀ fuel, WellFormedGroups gs → gs.length < fuel →
      lookupLoop key fuel (renderTag gs) =
        (firstGroup key gs).bind (fun g => strconvUnquote (34 :: (g.2 ++ [34]))) := by
  induction gs with
  | nil =>
    intro fuel _ _
    cases fuel <;> simp [lookupLoop, renderTag, firstGroup]
  | cons g gs ih =>
    intro fuel hwf hfuel
    obtain ⟨fuel1, rfl⟩ : ∃ k, fuel = k + 1 := ⟨fuel - 1, by omega⟩
    have hg := hwf g (List.mem_cons_self _ _)
    have hwf1 : WellFormedGroups gs := fun x hx => hwf x (List.mem_cons_of_mem _ hx)
    simp only [List.length_cons] at hfuel
    rw [renderTag_cons, lookupLoop_group key g.1 g.2 _ fuel1 hg.1 hg.2]
    by_cases hkey : key = g.1
    · simp [firstGroup, List.find?, hkey]
    · have hkey1 : ¬ g.1 = key := fun h => hkey h.symm
      have hfind : firstGroup key (g :: gs) = firstGroup key gs := by
        simp [firstGroup, List.find?, hkey1]
      rw [if_neg hkey, hfind]
      cases gs with
      | nil => cases fuel1 <;> simp [sepTail, lookupLoop, firstGroup]
      | cons g1 gs1 =>
        obtain ⟨fuel2, rfl⟩ : ∃ k, fuel1 = k + 1 := ⟨fuel1 - 1, by simp at hfuel; omega⟩
        simp only [sepTail]
        rw [lookupLoop_space]
        exact ih (fuel2 + 1) hwf1 (by simp at hfuel ⊢; omega)

theorem length_le_renderTag (gs : List TagGroup) : gs.length ≤ (renderTag gs).length := by
  induction gs with
  | nil => simp
  | cons g gs ih =>
    rw [renderTag_cons]
    cases gs with
    | nil => simp only [sepTail, List.length_append, List.length_cons, List.length_nil]; omega
    | cons g1 gs1 =>
      simp only [sepTail, List.length_append, List.length_cons] at ih ⊢
      omega

/-- The method `Lookup` on a well-formed tag: the unquoted value of the first group
with the key. -/
theorem structTagLookup_renderTag (key : GoString) (gs : List TagGroup)
    (hwf : WellFormedGroups gs) :
    structTagLookup (renderTag gs) key =
      (firstGroup key gs).bind (fun g => strconvUnquote (34 :: (g.2 ++ [34]))) :=
  lookupLoop_renderTag key gs _ hwf (Nat.lt_succ_of_le (length_le_renderTag gs))

/-! ## Lemmas: `Lookup` finds a key only where the tag has `key:"` -/

theorem scanQuoted_suffix (n : Nat) :
    ∀ (s b r : GoString), s.length ≤ n → scanQuoted s = some (b, r) → r <:+ s := by
  induction n with
  | zero =>
    intro s b r hn h
    have hs : s = [] := List.length_eq_zero.mp (Nat.le_zero.mp hn)
    subst hs
    simp [scanQuoted] at h
  | succ n ih =>
    intro s b r hn h
    cases s with
    | nil => simp [scanQuoted] at h
    | cons c s1 =>
      simp only [List.length_cons] at hn
      rw [scanQuoted.eq_def] at h
      simp only at h
      split_ifs at h with h34 h92
      · simp only [Option.some.injEq, Prod.mk.injEq] at h
        rw [← h.2]
        exact List.suffix_cons _ _
      · cases s1 with
        | nil => simp at h
        | cons d s2 =>
          simp only [Option.map_eq_some'] at h
          obtain ⟨⟨b1, r1⟩, h1, h2⟩ := h
          simp only [Prod.mk.injEq] at h2
          simp only [List.length_cons] at hn
          have := ih s2 b1 r1 (by omega) h1
          rw [← h2.2]
          exact this.trans ((List.suffix_cons _ _).trans (List.suffix_cons _ _))
      · simp only [Option.map_eq_some'] at h
        obtain ⟨⟨b1, r1⟩, h1, h2⟩ := h
        simp only [Prod.mk.injEq] at h2
        have := ih s1 b1 r1 (by omega) h1
        rw [← h2.2]
        exact this.trans (List.suffix_cons _ _)

theorem split_at_key (p : Nat → Bool) (tag : GoString) :
    (tag.takeWhile p).length + 1 < tag.length →
      tag.getD (tag.takeWhile p).length 0 = 58 →
      tag.getD ((tag.takeWhile p).length + 1) 0 = 34 →
      tag = tag.takeWhile p ++ 58 :: 34 :: tag.drop ((tag.takeWhile p).length + 2) := by
  induction tag with
  | nil => intro h; simp at h
  | cons c t ih =>
    intro hlen h58 h34
    by_cases hc : p c = true
    · simp only [List.takeWhile_cons, hc, if_true, List.length_cons, List.getD_cons_succ,
        Nat.add_lt_add_iff_right] at hlen h58 h34 ih ⊢
      have := ih hlen h58 h34
      simp only [List.cons_append, List.drop_succ_cons]
      rw [← this]
    · simp only [List.takeWhile_cons, hc, if_false, List.length_nil, List.getD_cons_zero,
        List.nil_append, Nat.zero_add] at hlen h58 h34 ⊢
      cases t with
      | nil => simp at hlen
      | cons d t1 =>
        simp only [List.getD_cons_succ, List.getD_cons_zero] at h34
        subst h58; subst h34
        simp

theorem lookupLoop_some_contains (key : GoString) :
    ∀ (fuel : Nat) (tag v : GoString), lookupLoop key fuel tag = some v →
      (key ++ [58, 34]) <:+: tag := by
  intro fuel
  induction fuel with
  | zero => intro tag v h; simp [lookupLoop] at h
  | succ fuel ih =>
    intro tag0 v h
    rw [lookupLoop] at h
    by_cases h0 : tag0 = []
    · simp [h0] at h
    rw [if_neg h0] at h
    simp only at h
    by_cases h1 : tag0.dropWhile (fun b => decide (b = 32)) = []
    · simp [h1] at h
    rw [if_neg h1] at h
    by_cases h2 : (List.takeWhile isKeyByte (tag0.dropWhile (fun b => decide (b = 32)))).length = 0 ∨
        (List.takeWhile isKeyByte (tag0.dropWhile (fun b => decide (b = 32)))).length + 1 ≥
          (tag0.dropWhile (fun b => decide (b = 32))).length ∨
        (tag0.dropWhile (fun b => decide (b = 32))).getD
          (List.takeWhile isKeyByte (tag0.dropWhile (fun b => decide (b = 32)))).length 0 ≠ 58 ∨
        (tag0.dropWhile (fun b => decide (b = 32))).getD
          ((List.takeWhile isKeyByte (tag0.dropWhile (fun b => decide (b = 32)))).length + 1) 0 ≠ 34
    · rw [if_pos h2] at h; exact absurd h (by simp)
    rw [if_neg h2] at h
    push_neg at h2
    obtain ⟨_, hlen, hc, hq⟩ := h2
    have hsuf : tag0.dropWhile (fun b => decide (b = 32)) <:+ tag0 := List.dropWhile_suffix _
    generalize tag0.dropWhile (fun b => decide (b = 32)) = tag at h h1 hlen hc hq hsuf
    have hsplit := split_at_key isKeyByte tag (by omega) hc hq
    split at h
    · exact absurd h (by simp)
    · rename_i body rest hscan
      have hrest : rest <:+ tag := by
        have h1 := scanQuoted_suffix _ _ body rest (le_refl _) hscan
        exact h1.trans (List.drop_suffix _ _)
      split_ifs at h with hkey
      · have hin : (key ++ [58, 34]) <:+: tag := by
          rw [hsplit, ← hkey]
          exact ⟨[], tag.drop (key.length + 2), by simp⟩
        exact hin.trans hsuf.isInfix
      · exact (ih rest v h).trans (hrest.trans hsuf).isInfix

/-! ## Lemmas: the fuel of the library loops is never used up -/

theorem lookupLoop_fuel_succ (key : GoString) :
    ∀ (fuel : Nat) (tag : GoString), tag.length < fuel →
      lookupLoop key (fuel + 1) tag = lookupLoop key fuel tag := by
  intro fuel
  induction fuel with
  | zero => intro tag h; omega
  | succ k ih =>
    intro tag0 hlen
    rw [lookupLoop, lookupLoop]
    by_cases h0 : tag0 = []
    · simp [h0]
    simp only [if_neg h0]
    by_cases h1 : tag0.dropWhile (fun b => decide (b = 32)) = []
    · simp [h1]
    simp only [if_neg h1]
    split_ifs with h2 hk
    · rfl
    · rfl
    · split
      · rfl
      · rename_i body rest hs
        apply ih
        have hsuf := scanQuoted_suffix _ _ body rest (le_refl _) hs
        have h3 := hsuf.length_le
        have h4 : (tag0.dropWhile (fun b => decide (b = 32))).length ≤ tag0.length :=
          (List.dropWhile_suffix _).length_le
        have h5 : 0 < (tag0.dropWhile (fun b => decide (b = 32))).length :=
          List.length_pos.mpr h1
        simp only [List.length_drop] at h3
        omega

/-- More fuel than `len(tag) + 1` does not change what the loop of `Lookup` finds:
the fuel of `structTagLookup` is never used up. -/
theorem lookupLoop_fuel (key tag : GoString) (extra : Nat) :
    lookupLoop key (tag.length + 1 + extra) tag = structTagLookup tag key := by
  induction extra with
  | zero => rfl
  | succ n ih =>
    rw [← ih]
    exact lookupLoop_fuel_succ key (tag.length + 1 + n) tag (by omega)

theorem hexDigits_length (n : Nat) :
    ∀ (s : GoString) (v r : Nat) (t : GoString), hexDigits n s v = some (r, t) →
      t.length ≤ s.length := by
  induction n with
  | zero =>
    intro s v r t h
    simp only [hexDigits, Option.some.injEq, Prod.mk.injEq] at h
    rw [h.2]
  | succ n ih =>
    intro s v r t h
    cases s with
    | nil => simp [hexDigits] at h
    | cons b s =>
      rw [hexDigits] at h
      cases hb : unhex b with
      | none => simp [hb] at h
      | some x =>
        simp only [hb] at h
        have := ih s _ r t h
        simp only [List.length_cons]
        omega

theorem octDigits_length (n : Nat) :
    ∀ (s : GoString) (v r : Nat) (t : GoString), octDigits n s v = some (r, t) →
      t.length ≤ s.length := by
  induction n with
  | zero =>
    intro s v r t h
    simp only [octDigits, Option.some.injEq, Prod.mk.injEq] at h
    rw [h.2]
  | succ n ih =>
    intro s v r t h
    cases s with
    | nil => simp [octDigits] at h
    | cons b s =>
      rw [octDigits] at h
      split_ifs at h
      have := ih s _ r t h
      simp only [List.length_cons]
      omega

theorem tailBounded_none (n : Nat) : TailBounded n none := by
  intro x hx; exact absurd hx (by simp)

theorem tailBounded_some (a : Nat) (b : Bool) (w : GoString) :
    TailBounded w.length (some (a, b, w)) := by
  intro x hx
  simp only [Option.some.injEq] at hx
  rw [← hx]

theorem tailBounded_ite (n : Nat) (c : Prop) [Decidable c]
    (a b : Option (Nat × Bool × GoString)) (ha : TailBounded n a) (hb : TailBounded n b) :
    TailBounded n (if c then a else b) := by
  split_ifs
  · exact ha
  · exact hb

theorem tailBounded_hexMap (k : Nat) (w : GoString) :
    TailBounded w.length ((hexDigits k w 0).map (fun r => (r.1, false, r.2))) := by
  intro x hx
  simp only [Option.map_eq_some'] at hx
  obtain ⟨⟨v, w1⟩, hh, he⟩ := hx
  rw [← he]
  exact hexDigits_length _ _ _ _ _ hh

theorem tailBounded_hexMatch (k : Nat) (w : GoString) :
    TailBounded w.length
      (match hexDigits k w 0 with
      | none => none
      | some (v, u1) => if validRune v then some (v, true, u1) else none) := by
  intro x hx
  cases hh : hexDigits k w 0 with
  | none => rw [hh] at hx; exact absurd hx (by simp)
  | some p =>
    obtain ⟨v, w1⟩ := p
    rw [hh] at hx
    simp only at hx
    split_ifs at hx
    simp only [Option.some.injEq] at hx
    rw [← hx]
    exact hexDigits_length _ _ _ _ _ hh

theorem tailBounded_octMatch (v0 : Nat) (w : GoString) :
    TailBounded w.length
      (match octDigits 2 w v0 with
      | none => none
      | some (v, u1) => if v > 255 then none else some (v, false, u1)) := by
  intro x hx
  cases hh : octDigits 2 w v0 with
  | none => rw [hh] at hx; exact absurd hx (by simp)
  | some p =>
    obtain ⟨v, w1⟩ := p
    rw [hh] at hx
    simp only at hx
    split_ifs at hx
    simp only [Option.some.injEq] at hx
    rw [← hx]
    exact octDigits_length _ _ _ _ _ hh

theorem unquoteChar_length (s : GoString) (r : Nat) (m : Bool) (t : GoString)
    (h : unquoteChar s = some (r, m, t)) : t.length < s.length := by
  cases s with
  | nil => simp [unquoteChar] at h
  | cons c u =>
    rw [unquoteChar.eq_def] at h
    simp only at h
    by_cases h34 : c = 34
    · rw [if_pos h34] at h
      exact absurd h (by simp)
    rw [if_neg h34] at h
    by_cases hge : c ≥ RuneSelf
    · rw [if_pos hge] at h
      simp only [Option.some.injEq, Prod.mk.injEq] at h
      have hc : 128 ≤ c := by simpa [RuneSelf] using hge
      obtain ⟨hd1, hd2, _, _⟩ := decodeRune_high c u hc
      rw [← h.2.2, List.length_drop]
      simp only [List.length_cons] at hd2 ⊢
      omega
    rw [if_neg hge] at h
    by_cases h92 : c ≠ 92
    · rw [if_pos h92] at h
      simp only [Option.some.injEq, Prod.mk.injEq] at h
      rw [← h.2.2]
      simp
    · rw [if_neg h92] at h
      cases u with
      | nil => exact absurd h (by simp)
      | cons e w =>
        simp only at h
        have hb : TailBounded w.length
            (if e = 97 then some (7, false, w)
            else if e = 98 then some (8, false, w)
            else if e = 102 then some (12, false, w)
            else if e = 110 then some (10, false, w)
            else if e = 114 then some (13, false, w)
            else if e = 116 then some (9, false, w)
            else if e = 118 then some (11, false, w)
            else if e = 120 then
              (hexDigits 2 w 0).map (fun r => (r.1, false, r.2))
            else if e = 117 ∨ e = 85 then
              match hexDigits (if e = 117 then 4 else 8) w 0 with
              | none => none
              | some (v, u1) => if validRune v then some (v, true, u1) else none
            else if 48 ≤ e ∧ e ≤ 55 then
              match octDigits 2 w (e - 48) with
              | none => none
              | some (v, u1) => if v > 255 then none else some (v, false, u1)
            else if e = 92 then some (92, false, w)
            else if e = 34 then some (34, false, w)
            else none) := by
          repeat' (first
            | exact tailBounded_some _ _ _
            | exact tailBounded_none _
            | exact tailBounded_hexMap _ _
            | exact tailBounded_hexMatch _ _
            | exact tailBounded_octMatch _ _
            | apply tailBounded_ite)
        have hle := hb _ h
        simp only [List.length_cons] at hle ⊢
        omega

theorem unquoteLoop_fuel_succ :
    ∀ (fuel : Nat) (inp buf : GoString), inp.length ≤ fuel →
      unquoteLoop (fuel + 1) inp buf = unquoteLoop fuel inp buf := by
  intro fuel
  induction fuel with
  | zero =>
    intro inp buf h
    have : inp = [] := List.length_eq_zero.mp (Nat.le_zero.mp h)
    subst this
    rfl
  | succ k ih =>
    intro inp buf hlen
    cases inp with
    | nil => rfl
    | cons c rest =>
      rw [unquoteLoop, unquoteLoop]
      by_cases h34 : c = 34
      · simp only [if_pos h34]
      · simp only [if_neg h34]
        cases hu : unquoteChar (c :: rest) with
        | none => rfl
        | some p =>
          obtain ⟨r, m, rem⟩ := p
          have hrem := unquoteChar_length _ r m rem hu
          simp only [List.length_cons] at hrem hlen
          simp only
          split_ifs
          · rfl
          · exact ih rem _ (by omega)
          · exact ih rem _ (by omega)

/-- More fuel than `len(in)` does not change the result of the escape loop of
`strconv.Unquote`. -/
theorem unquoteLoop_fuel (inp buf : GoString) (extra : Nat) :
    unquoteLoop (inp.length + extra) inp buf = unquoteLoop inp.length inp buf := by
  induction extra with
  | zero => rfl
  | succ n ih =>
    rw [← ih]
    exact unquoteLoop_fuel_succ (inp.length + n) inp buf (by omega)

theorem validStringLoop_fuel_succ :
    ∀ (fuel : Nat) (s : GoString), s.length ≤ fuel →
      validStringLoop (fuel + 1) s = validStringLoop fuel s := by
  intro fuel
  induction fuel with
  | zero =>
    intro s h
    have : s = [] := List.length_eq_zero.mp (Nat.le_zero.mp h)
    subst this
    rfl
  | succ k ih =>
    intro s hlen
    cases s with
    | nil => rfl
    | cons c rest =>
      simp only [List.length_cons] at hlen
      rw [validStringLoop, validStringLoop]
      by_cases hc : c < RuneSelf
      · simp only [if_pos hc]
        exact ih rest (by omega)
      · simp only [if_neg hc]
        have hf := first_cases c (by simpa [RuneSelf] using hc)
        generalize first c = x at hf ⊢
        rcases hf with h | ⟨h, _⟩ | ⟨h, _⟩ | ⟨h, _⟩ | ⟨h, _⟩ | ⟨h, _⟩ | ⟨h, _⟩ | ⟨h, _⟩ <;>
          subst h <;>
          simp only [Nat.reduceMod, Nat.reduceDiv, acceptRanges, Nat.reduceEqDiff, if_true,
            if_false] <;>
          split_ifs <;>
          first
            | rfl
            | (apply ih; simp only [List.length_drop, List.length_cons]; omega)

/-- More fuel than `len(s)` does not change the result of the loop of
`utf8.ValidString`. -/
theorem validStringLoop_fuel (s : GoString) (extra : Nat) :
    validStringLoop (s.length + extra) s = validString s := by
  induction extra with
  | zero => rfl
  | succ n ih =>
    rw [← ih]
    exact validStringLoop_fuel_succ (s.length + n) s (by omega)

/-! ## The tag parser on well-formed tags -/

theorem firstGroup_mem {key : GoString} {gs : List TagGroup} {g : TagGroup}
    (h : firstGroup key gs = some g) : g ∈ gs :=
  List.mem_of_find?_eq_some h

/-- On a well-formed tag with a `security` group the parser answers from the value
of the first such group: false when the value has a newline (`strconv.Unquote`
rejects it), and otherwise whether a piece of the value between commas is the
marker. -/
theorem hasNoDirectEqualityTag_renderTag (gs : List TagGroup) (v : GoString)
    (hwf : WellFormedGroups gs) (hfirst : firstGroup securityTag gs = some (securityTag, v)) :
    hasNoDirectEqualityTag (renderTag gs) =
      if 10 ∈ v then false
      else (stringsSplit 44 v).any (fun value => decide (value = noDirectEqualityValue)) := by
  have hplain : PlainValue v := (hwf _ (firstGroup_mem hfirst)).2
  obtain ⟨v1, hv1, hunq⟩ := strconvUnquote_plain v hplain.1 hplain.2
  unfold hasNoDirectEqualityTag structTagGet
  rw [structTagLookup_renderTag securityTag gs hwf, hfirst]
  simp only [Option.some_bind, hunq]
  by_cases h10 : 10 ∈ v
  · simp only [h10, if_true, Option.getD_none]
    decide
  · simp only [h10, if_false, Option.getD_some]
    exact (any_marker_of_forall₂ hv1.stringsSplit).symm

/-- The pieces of a comma-joined list of comma-free tokens are the tokens. -/
theorem any_split_joinTokens (ts : List GoString) (hts : ∀ t ∈ ts, 44 ∉ t) :
    (stringsSplit 44 (joinTokens ts)).any (fun value => decide (value = noDirectEqualityValue)) =
      decide (noDirectEqualityValue ∈ ts) := by
  by_cases hne : ts = []
  · subst hne
    decide
  · rw [stringsSplit_joinTokens ts hne hts]
    by_cases hm : noDirectEqualityValue ∈ ts
    · simp only [hm, decide_True, List.any_eq_true, decide_eq_true_eq]
      exact ⟨_, hm, rfl⟩
    · simp only [hm, decide_False, List.any_eq_false, decide_eq_true_eq]
      intro x hx hxe
      exact hm (hxe ▸ hx)

/-- C1, as stated, fails: the tag `security:"nodirectequality,<LF>"` is one
well-formed group keyed `security` whose value has no quote and no backslash and
whose first comma-separated token is `nodirectequality`, and
`hasNoDirectEqualityTag` returns false on it (a raw newline makes
`strconv.Unquote` fail, so `Get` returns the empty string). -/
theorem hasNoDirectEqualityTag_newline_value :
    WellFormedGroups [(securityTag, noDirectEqualityValue ++ [44, 10])] ∧
      firstGroup securityTag [(securityTag, noDirectEqualityValue ++ [44, 10])] =
        some (securityTag, noDirectEqualityValue ++ [44, 10]) ∧
      noDirectEqualityValue ++ [44, 10] = joinTokens [noDirectEqualityValue, [10]] ∧
      (∀ t ∈ [noDirectEqualityValue, [10]], 44 ∉ t) ∧
      noDirectEqualityValue ∈ [noDirectEqualityValue, [10]] ∧
      renderTag [(securityTag, noDirectEqualityValue ++ [44, 10])] =
        bytes "security:\"nodirectequality,\n\"" ∧
      hasNoDirectEqualityTag (bytes "security:\"nodirectequality,\n\"") = false := by
  refine ⟨by decide, by decide, by decide, by decide, by decide, by decide, by decide⟩

/-- C1, amended: for every tag made of well-formed `key:"value"` groups separated by
single spaces, with values free of quotes and backslashes, whose first group keyed
`security` has a value without a newline that is the comma-joined list of the
comma-free tokens `ts`, `hasNoDirectEqualityTag` returns true if and only if one
of the tokens is `nodirectequality`; the position of the token and of the group
does not matter.  The three examples of the claim follow. -/
theorem hasNoDirectEqualityTag_wellFormed_iff (gs : List TagGroup) (v : GoString)
    (ts : List GoString) (hwf : WellFormedGroups gs)
    (hfirst : firstGroup securityTag gs = some (securityTag, v))
    (hnl : 10 ∉ v) (hts : ∀ t ∈ ts, 44 ∉ t) (hv : v = joinTokens ts) :
    (hasNoDirectEqualityTag (renderTag gs) = true ↔ noDirectEqualityValue ∈ ts) ∧
      hasNoDirectEqualityTag (bytes "security:\"\"") = false ∧
      hasNoDirectEqualityTag (bytes "security:\"a,nodirectequality\"") = true ∧
      hasNoDirectEqualityTag (bytes "security:\"nodirectequality,a\"") = true := by
  refine ⟨?_, by decide, by decide, by decide⟩
  rw [hasNoDirectEqualityTag_renderTag gs v hwf hfirst, if_neg hnl, hv,
    any_split_joinTokens ts hts]
  simp

/-- Witness of C1 (amended): the tag `json:"token" security:"a,nodirectequality"`. -/
theorem hasNoDirectEqualityTag_wellFormed_iff_witness :
    renderTag [(bytes "json", bytes "token"), (securityTag, bytes "a,nodirectequality")] =
        bytes "json:\"token\" security:\"a,nodirectequality\"" ∧
      (hasNoDirectEqualityTag
          (renderTag [(bytes "json", bytes "token"), (securityTag, bytes "a,nodirectequality")]) =
          true ↔
        noDirectEqualityValue ∈ [bytes "a", noDirectEqualityValue]) :=
  ⟨by decide,
    (hasNoDirectEqualityTag_wellFormed_iff
      [(bytes "json", bytes "token"), (securityTag, bytes "a,nodirectequality")]
      (bytes "a,nodirectequality") [bytes "a", noDirectEqualityValue]
      (by decide) (by decide) (by decide) (by decide) (by decide)).1⟩

/-- C9: a raw tag string that lacks the `security` namespace gives false.  Lacking
the namespace is any of: `Lookup` finds no `security` key in the string; the
string does not contain the text `security:"`; the string is a well-formed tag
none of whose groups is keyed `security`.  The string need not be well formed. -/
theorem hasNoDirectEqualityTag_without_security (tag : GoString)
    (h : structTagLookup tag securityTag = none ∨
      ¬ (bytes "security:\"") <:+: tag ∨
      ∃ gs, WellFormedGroups gs ∧ firstGroup securityTag gs = none ∧ tag = renderTag gs) :
    hasNoDirectEqualityTag tag = false := by
  have hnone : structTagLookup tag securityTag = none → hasNoDirectEqualityTag tag = false := by
    intro h1
    unfold hasNoDirectEqualityTag structTagGet
    rw [h1]
    decide
  rcases h with h | h | ⟨gs, hwf, hfirst, rfl⟩
  · exact hnone h
  · apply hnone
    have h2 : ¬ (securityTag ++ [58, 34]) <:+: tag := by
      have : securityTag ++ [58, 34] = bytes "security:\"" := by decide
      rw [this]; exact h
    cases hl : structTagLookup tag securityTag with
    | none => rfl
    | some v => exact absurd (lookupLoop_some_contains securityTag _ tag v hl) h2
  · apply hnone
    rw [structTagLookup_renderTag securityTag gs hwf, hfirst]
    rfl

/-- Witness of C9: the two-character string `""` of the test, and the empty string. -/
theorem hasNoDirectEqualityTag_without_security_witness :
    hasNoDirectEqualityTag (bytes "\"\"") = false ∧ hasNoDirectEqualityTag [] = false :=
  ⟨hasNoDirectEqualityTag_without_security (bytes "\"\"") (Or.inr (Or.inl (by decide))),
    hasNoDirectEqualityTag_without_security [] (Or.inr (Or.inl (by decide)))⟩

/-- C10: for every well-formed tag whose first `security` group has a value that is
the comma-joined list of comma-free tokens none of which is `nodirectequality`,
`hasNoDirectEqualityTag` returns false, whatever the other groups hold; a marker
under another key does not count. -/
theorem hasNoDirectEqualityTag_marker_elsewhere (gs : List TagGroup) (v : GoString)
    (ts : List GoString) (hwf : WellFormedGroups gs)
    (hfirst : firstGroup securityTag gs = some (securityTag, v))
    (hts : ∀ t ∈ ts, 44 ∉ t) (hv : v = joinTokens ts) (hno : noDirectEqualityValue ∉ ts) :
    hasNoDirectEqualityTag (renderTag gs) = false := by
  rw [hasNoDirectEqualityTag_renderTag gs v hwf hfirst]
  by_cases h10 : 10 ∈ v
  · rw [if_pos h10]
  · rw [if_neg h10, hv, any_split_joinTokens ts hts]
    simp [hno]

/-- Witness of C10: the tag `db:"nodirectequality" security:"acceptance_token"`. -/
theorem hasNoDirectEqualityTag_marker_elsewhere_witness :
    renderTag [(bytes "db", noDirectEqualityValue), (securityTag, bytes "acceptance_token")] =
        bytes "db:\"nodirectequality\" security:\"acceptance_token\"" ∧
      hasNoDirectEqualityTag
          (renderTag [(bytes "db", noDirectEqualityValue), (securityTag, bytes "acceptance_token")]) =
        false :=
  ⟨by decide,
    hasNoDirectEqualityTag_marker_elsewhere
      [(bytes "db", noDirectEqualityValue), (securityTag, bytes "acceptance_token")]
      (bytes "acceptance_token") [bytes "acceptance_token"]
      (by decide) (by decide) (by decide) (by decide) (by decide)⟩

/-! ## Lemmas: the traversal prints the warnings of the nodes, in order -/

theorem WalkState.extend_nil (st : WalkState) : st.extend [] = st := by
  cases st; simp [WalkState.extend]

theorem WalkState.extend_extend (st : WalkState) (a b : List Warning) :
    (st.extend a).extend b = st.extend (a ++ b) := by
  cases st with
  | mk p r =>
    cases a <;> cases b <;> simp [WalkState.extend]

theorem inspectFn_nil (pkg : Package) (fuel : Nat) (st : WalkState) :
    inspectFn pkg fuel none st = some (st, true) := rfl

theorem leave_inspectFn (pkg : Package) (fuel : Nat) (st : WalkState) :
    leave (inspectFn pkg fuel) st = some st := rfl

theorem inspectFn_eq (pkg : Package) (fuel : Nat) (n : Node) (st : WalkState) :
    inspectFn pkg fuel (some n) st =
      (stmtWarnings pkg fuel n).map (fun ws => (st.extend ws, true)) := by
  cases n with
  | ifStmt id init cond body els =>
    cases cond with
    | binaryExpr idc x op y =>
      simp only [inspectFn, stmtWarnings, operandWarnings]
      cases hx : isProhibited pkg fuel x with
      | none => rfl
      | some rx =>
        obtain ⟨px, nx⟩ := rx
        cases hy : isProhibited pkg fuel y with
        | none => rfl
        | some ry =>
          obtain ⟨py, ny⟩ := ry
          cases st
          cases px <;> cases py <;> simp [WalkState.extend]
    | ifStmt _ _ _ _ _ => simp [inspectFn, stmtWarnings, WalkState.extend_nil]
    | selectorExpr _ _ _ => simp [inspectFn, stmtWarnings, WalkState.extend_nil]
    | other _ _ => simp [inspectFn, stmtWarnings, WalkState.extend_nil]
  | binaryExpr _ _ _ _ => simp [inspectFn, stmtWarnings, WalkState.extend_nil]
  | selectorExpr _ _ _ => simp [inspectFn, stmtWarnings, WalkState.extend_nil]
  | other _ _ => simp [inspectFn, stmtWarnings, WalkState.extend_nil]

theorem collectWarnings_cons (pkg : Package) (fuel : Nat) (n : Node) (ns : List Node) :
    collectWarnings pkg fuel (n :: ns) =
      (stmtWarnings pkg fuel n).bind
        (fun a => (collectWarnings pkg fuel ns).map (fun b => a ++ b)) := by
  rw [collectWarnings]
  cases stmtWarnings pkg fuel n <;> rfl

theorem collectWarnings_append (pkg : Package) (fuel : Nat) (l1 l2 : List Node) :
    collectWarnings pkg fuel (l1 ++ l2) =
      (collectWarnings pkg fuel l1).bind
        (fun a => (collectWarnings pkg fuel l2).map (fun b => a ++ b)) := by
  induction l1 with
  | nil =>
    simp only [List.nil_append, collectWarnings, Option.some_bind, List.nil_append]
    cases collectWarnings pkg fuel l2 <;> rfl
  | cons n l1 ih =>
    rw [List.cons_append, collectWarnings_cons, collectWarnings_cons, ih]
    cases stmtWarnings pkg fuel n with
    | none => rfl
    | some a =>
      cases collectWarnings pkg fuel l1 with
      | none => rfl
      | some b =>
        cases collectWarnings pkg fuel l2 with
        | none => rfl
        | some c => simp

mutual
theorem astInspect_eq (pkg : Package) (fuel : Nat) :
    ∀ (n : Node) (st : WalkState),
      astInspect (inspectFn pkg fuel) n st =
        (collectWarnings pkg fuel (subnodes n)).map (fun ws => st.extend ws)
  | .ifStmt id init cond body els, st => by
    rw [astInspect, inspectFn_eq, subnodes]
    simp only [collectWarnings, collectWarnings_append]
    cases hs : stmtWarnings pkg fuel (.ifStmt id init cond body els) with
    | none => rfl
    | some a =>
      simp only [Option.map_some']
      rw [astInspectOpt_eq pkg fuel init]
      cases h1 : collectWarnings pkg fuel (subnodesOpt init) with
      | none => rfl
      | some b =>
        simp only [Option.map_some', Option.some_bind]
        rw [astInspect_eq pkg fuel cond]
        cases h2 : collectWarnings pkg fuel (subnodes cond) with
        | none => rfl
        | some c =>
          simp only [Option.map_some', Option.some_bind]
          rw [astInspect_eq pkg fuel body]
          cases h3 : collectWarnings pkg fuel (subnodes body) with
          | none => rfl
          | some d =>
            simp only [Option.map_some', Option.some_bind]
            rw [astInspectOpt_eq pkg fuel els]
            cases h4 : collectWarnings pkg fuel (subnodesOpt els) with
            | none => rfl
            | some e =>
              simp only [Option.map_some', leave_inspectFn, WalkState.extend_extend,
                List.append_assoc]
  | .binaryExpr id x op y, st => by
    rw [astInspect, inspectFn_eq, subnodes]
    simp only [collectWarnings, collectWarnings_append, stmtWarnings, Option.map_some']
    rw [astInspect_eq pkg fuel x]
    cases h1 : collectWarnings pkg fuel (subnodes x) with
    | none => rfl
    | some b =>
      simp only [Option.map_some', Option.some_bind]
      rw [astInspect_eq pkg fuel y]
      cases h2 : collectWarnings pkg fuel (subnodes y) with
      | none => rfl
      | some c =>
        simp only [Option.map_some', leave_inspectFn, WalkState.extend_extend,
          List.append_assoc, List.nil_append]
  | .selectorExpr id x sel, st => by
    rw [astInspect, inspectFn_eq, subnodes]
    simp only [collectWarnings, stmtWarnings, Option.map_some']
    rw [astInspect_eq pkg fuel x]
    cases h1 : collectWarnings pkg fuel (subnodes x) with
    | none => rfl
    | some b =>
      simp only [Option.map_some', leave_inspectFn, WalkState.extend_extend,
        List.append_assoc, List.nil_append]
  | .other id children, st => by
    rw [astInspect, inspectFn_eq, subnodes]
    simp only [collectWarnings, stmtWarnings, Option.map_some']
    rw [astInspectList_eq pkg fuel children]
    cases h1 : collectWarnings pkg fuel (subnodesList children) with
    | none => rfl
    | some b =>
      simp only [Option.map_some', leave_inspectFn, WalkState.extend_extend,
        List.append_assoc, List.nil_append]
theorem astInspectOpt_eq (pkg : Package) (fuel : Nat) :
    ∀ (o : Option Node) (st : WalkState),
      astInspectOpt (inspectFn pkg fuel) o st =
        (collectWarnings pkg fuel (subnodesOpt o)).map (fun ws => st.extend ws)
  | none, st => by
    simp [astInspectOpt, subnodesOpt, collectWarnings, WalkState.extend_nil]
  | some n, st => by
    rw [astInspectOpt, subnodesOpt, astInspect_eq pkg fuel n]
theorem astInspectList_eq (pkg : Package) (fuel : Nat) :
    ∀ (l : List Node) (st : WalkState),
      astInspectList (inspectFn pkg fuel) l st =
        (collectWarnings pkg fuel (subnodesList l)).map (fun ws => st.extend ws)
  | [], st => by
    simp [astInspectList, subnodesList, collectWarnings, WalkState.extend_nil]
  | n :: ns, st => by
    rw [astInspectList, subnodesList, collectWarnings_append, astInspect_eq pkg fuel n]
    cases h1 : collectWarnings pkg fuel (subnodes n) with
    | none => rfl
    | some a =>
      simp only [Option.map_some', Option.some_bind]
      rw [astInspectList_eq pkg fuel ns]
      cases h2 : collectWarnings pkg fuel (subnodesList ns) with
      | none => rfl
      | some b => simp only [Option.map_some', WalkState.extend_extend]
end

/-- The result of `walkFile`: the warnings of the nodes of the file, in the order of
the walk, and whether there is one. -/
theorem walkFile_eq_collect (pkg : Package) (fuel : Nat) (file : Node) :
    walkFile pkg fuel file =
      (collectWarnings pkg fuel (subnodes file)).map (fun ws => (ws, !ws.isEmpty)) := by
  rw [walkFile, astInspect_eq]
  cases collectWarnings pkg fuel (subnodes file) with
  | none => rfl
  | some ws => simp [WalkState.extend]

/-! ## Lemmas: the nodes of a tree -/

mutual
theorem contains_of_mem_subnodes (n : Node) :
    ∀ root : Node, n ∈ subnodes root → Contains root n
  | .ifStmt id init cond body els => by
    intro h
    rw [subnodes] at h
    rcases List.mem_cons.mp h with h | h
    · rw [h]; exact Contains.self _
    · simp only [List.mem_append] at h
      rcases h with ((h | h) | h) | h
      · cases init with
        | none => simp [subnodesOpt] at h
        | some i =>
          exact Contains.step _ i n (Child.ifInit id i cond body els)
            (contains_of_mem_subnodesOpt n (some i) h i rfl)
      · exact Contains.step _ cond n (Child.ifCond id init cond body els)
          (contains_of_mem_subnodes n cond h)
      · exact Contains.step _ body n (Child.ifBody id init cond body els)
          (contains_of_mem_subnodes n body h)
      · cases els with
        | none => simp [subnodesOpt] at h
        | some e =>
          exact Contains.step _ e n (Child.ifElse id init cond body e)
            (contains_of_mem_subnodesOpt n (some e) h e rfl)
  | .binaryExpr id x op y => by
    intro h
    rw [subnodes] at h
    rcases List.mem_cons.mp h with h | h
    · rw [h]; exact Contains.self _
    · rcases List.mem_append.mp h with h | h
      · exact Contains.step _ x n (Child.binaryX id x op y) (contains_of_mem_subnodes n x h)
      · exact Contains.step _ y n (Child.binaryY id x op y) (contains_of_mem_subnodes n y h)
  | .selectorExpr id x sel => by
    intro h
    rw [subnodes] at h
    rcases List.mem_cons.mp h with h | h
    · rw [h]; exact Contains.self _
    · exact Contains.step _ x n (Child.selectorX id x sel) (contains_of_mem_subnodes n x h)
  | .other id children => by
    intro h
    rw [subnodes] at h
    rcases List.mem_cons.mp h with h | h
    · rw [h]; exact Contains.self _
    · obtain ⟨c, hc, hn⟩ := contains_of_mem_subnodesList n children h
      exact Contains.step _ c n (Child.other id children c hc) hn
theorem contains_of_mem_subnodesOpt (n : Node) :
    ∀ o : Option Node, n ∈ subnodesOpt o → ∀ c, o = some c → Contains c n
  | none => by intro _ c hc; exact absurd hc (by simp)
  | some m => by
    intro h c hc
    simp only [Option.some.injEq] at hc
    rw [← hc]
    exact contains_of_mem_subnodes n m (by simpa [subnodesOpt] using h)
theorem contains_of_mem_subnodesList (n : Node) :
    ∀ l : List Node, n ∈ subnodesList l → ∃ c ∈ l, Contains c n
  | [] => by intro h; simp [subnodesList] at h
  | m :: ms => by
    intro h
    rw [subnodesList] at h
    rcases List.mem_append.mp h with h | h
    · exact ⟨m, List.mem_cons_self _ _, contains_of_mem_subnodes n m h⟩
    · obtain ⟨c, hc, hn⟩ := contains_of_mem_subnodesList n ms h
      exact ⟨c, List.mem_cons_of_mem _ hc, hn⟩
end

theorem self_mem_subnodes (n : Node) : n ∈ subnodes n := by
  cases n <;> simp [subnodes]

theorem subnodes_subset_subnodesList (c : Node) :
    ∀ l : List Node, c ∈ l → ∀ n ∈ subnodes c, n ∈ subnodesList l := by
  intro l
  induction l with
  | nil => intro h; simp at h
  | cons m ms ih =>
    intro h n hn
    rw [subnodesList]
    rcases List.mem_cons.mp h with h | h
    · rw [← h]; exact List.mem_append_left _ hn
    · exact List.mem_append_right _ (ih h n hn)

theorem mem_subnodes_of_child (p c n : Node) (hc : Child p c) (hn : n ∈ subnodes c) :
    n ∈ subnodes p := by
  cases hc with
  | ifInit id i cond body els =>
    rw [subnodes]; simp only [List.mem_cons, List.mem_append, subnodesOpt]; tauto
  | ifCond id init cond body els =>
    rw [subnodes]; simp only [List.mem_cons, List.mem_append]; tauto
  | ifBody id init cond body els =>
    rw [subnodes]; simp only [List.mem_cons, List.mem_append]; tauto
  | ifElse id init cond body e =>
    rw [subnodes]; simp only [List.mem_cons, List.mem_append, subnodesOpt]; tauto
  | binaryX id x op y =>
    rw [subnodes]; simp only [List.mem_cons, List.mem_append]; tauto
  | binaryY id x op y =>
    rw [subnodes]; simp only [List.mem_cons, List.mem_append]; tauto
  | selectorX id x sel =>
    rw [subnodes]; simp only [List.mem_cons]; tauto
  | other id children c hmem =>
    rw [subnodes]
    exact List.mem_cons_of_mem _ (subnodes_subset_subnodesList c children hmem n hn)

/-- The list `subnodes root` holds exactly the nodes the tree contains. -/
theorem mem_subnodes_iff (root n : Node) : n ∈ subnodes root ↔ Contains root n := by
  constructor
  · exact contains_of_mem_subnodes n root
  · intro h
    induction h with
    | self m => exact self_mem_subnodes m
    | step p c m hc _ ih => exact mem_subnodes_of_child p c m hc ih

/-! ## Lemmas: the type resolver -/

theorem structFromSelectorXType_layered (g : TypeGraph) (base : TypeVal) (r : Option Struct)
    (hbase : ∀ fuel, structFromSelectorXType g (fuel + 1) base = some r) :
    ∀ (ls : List Layer) (top : TypeVal) (fuel : Nat), layeredOn g ls top base →
      ls.length < fuel → structFromSelectorXType g fuel top = some r := by
  intro ls
  induction ls with
  | nil =>
    intro top fuel h hf
    obtain ⟨k, rfl⟩ : ∃ k, fuel = k + 1 := ⟨fuel - 1, by omega⟩
    simp only [layeredOn] at h
    rw [h]; exact hbase k
  | cons l ls ih =>
    intro top fuel h hf
    simp only [List.length_cons] at hf
    obtain ⟨k, rfl⟩ : ∃ k, fuel = k + 1 := ⟨fuel - 1, by omega⟩
    cases l with
    | pointer p =>
      obtain ⟨h1, h2⟩ := h
      rw [h1, structFromSelectorXType]
      exact ih _ k h2 (by omega)
    | named n =>
      obtain ⟨h1, h2⟩ := h
      rw [h1, structFromSelectorXType]
      exact ih _ k h2 (by omega)

theorem structFromSelectorXType_hasStruct (pkg : Package) (s : Struct) :
    ∀ (fuel : Nat) (t : TypeVal), (t = .struct s → pkg.hasStruct s) →
      structFromSelectorXType pkg.graph fuel t = some (some s) → pkg.hasStruct s := by
  intro fuel
  induction fuel with
  | zero => intro t _ h; simp [structFromSelectorXType] at h
  | succ k ih =>
    intro t ht h
    cases t with
    | struct s1 =>
      simp only [structFromSelectorXType, Option.some.injEq] at h
      exact ht (by rw [h])
    | pointer p =>
      rw [structFromSelectorXType] at h
      exact ih _ (fun he => Or.inr (Or.inl ⟨p, he⟩)) h
    | named n =>
      rw [structFromSelectorXType] at h
      exact ih _ (fun he => Or.inr (Or.inr (Or.inl ⟨n, he⟩))) h
    | nil => simp [structFromSelectorXType] at h
    | typeAlias a => simp [structFromSelectorXType] at h
    | other => simp [structFromSelectorXType] at h

/-! ## Lemmas: the field classifier -/

theorem isProhibitedFieldLoop_spec (s : Struct) (name : GoString) :
    ∀ (n i : Nat), i + n = s.NumFields →
      (∀ k, i ≤ k → k < s.NumFields → s.FieldName k = name →
          (∀ j, i ≤ j → j < k → s.FieldName j ≠ name) →
          isProhibitedFieldLoop s name n i = hasNoDirectEqualityTag (s.Tag k)) ∧
        ((∀ k, i ≤ k → k < s.NumFields → s.FieldName k ≠ name) →
          isProhibitedFieldLoop s name n i = false) := by
  intro n
  induction n with
  | zero =>
    intro i hi
    refine ⟨fun k h1 h2 _ _ => by omega, fun _ => rfl⟩
  | succ n ih =>
    intro i hi
    have hlt : i < s.NumFields := by omega
    obtain ⟨ih1, ih2⟩ := ih (i + 1) (by omega)
    by_cases hname : s.FieldName i = name
    · refine ⟨fun k h1 h2 h3 h4 => ?_, fun h => absurd hname (h i (le_refl _) hlt)⟩
      have hk : k = i := by
        by_contra hne
        exact h4 i (le_refl _) (by omega) hname
      subst hk
      rw [isProhibitedFieldLoop, if_pos hlt, if_pos hname]
    · refine ⟨fun k h1 h2 h3 h4 => ?_, fun h => ?_⟩
      · have hk : i + 1 ≤ k := by
          rcases Nat.eq_or_lt_of_le h1 with h | h
          · subst h; exact absurd h3 hname
          · exact h
        rw [isProhibitedFieldLoop, if_pos hlt, if_neg hname]
        exact ih1 k hk h2 h3 (fun j hj1 hj2 => h4 j (by omega) hj2)
      · rw [isProhibitedFieldLoop, if_pos hlt, if_neg hname]
        exact ih2 (fun k hk1 hk2 => h k (by omega) hk2)

theorem isProhibitedField_first (s : Struct) (name : GoString) (i : Nat)
    (hi : i < s.NumFields) (hname : s.FieldName i = name)
    (hfirst : ∀ j < i, s.FieldName j ≠ name) :
    isProhibitedField s name = hasNoDirectEqualityTag (s.Tag i) :=
  (isProhibitedFieldLoop_spec s name s.NumFields 0 (by omega)).1 i (Nat.zero_le _) hi hname
    (fun j _ hj => hfirst j hj)

theorem isProhibitedField_absent (s : Struct) (name : GoString)
    (h : ∀ i < s.NumFields, s.FieldName i ≠ name) : isProhibitedField s name = false :=
  (isProhibitedFieldLoop_spec s name s.NumFields 0 (by omega)).2 (fun k _ hk => h k hk)

theorem isProhibitedField_true_tag (s : Struct) (name : GoString)
    (h : isProhibitedField s name = true) :
    ∃ i, i < s.NumFields ∧ hasNoDirectEqualityTag (s.Tag i) = true := by
  by_contra hno
  push_neg at hno
  by_cases hex : ∃ i, i < s.NumFields ∧ s.FieldName i = name
  · classical
    let i := Nat.find hex
    have hi : i < s.NumFields ∧ s.FieldName i = name := Nat.find_spec hex
    have hmin : ∀ j < i, s.FieldName j ≠ name := fun j hj hjn =>
      Nat.find_min hex hj ⟨by omega, hjn⟩
    rw [isProhibitedField_first s name i hi.1 hi.2 hmin] at h
    exact hno i hi.1 h
  · push_neg at hex
    rw [isProhibitedField_absent s name hex] at h
    exact absurd h (by simp)

/-! ## Lemmas: the selector test -/

theorem isProhibited_of_not_selector (pkg : Package) (fuel : Nat) (e : Node)
    (h : e.isSelector = false) : isProhibited pkg fuel e = some (false, []) := by
  cases e with
  | selectorExpr _ _ _ => simp [Node.isSelector] at h
  | ifStmt _ _ _ _ _ => rfl
  | binaryExpr _ _ _ _ => rfl
  | other _ _ => rfl

theorem isProhibited_selector_struct (pkg : Package) (fuel : Nat) (id : Nat) (x : Node)
    (name : GoString) (s : Struct) (hname : name ≠ [])
    (hx : structFromSelectorXType pkg.graph fuel (pkg.types x.id) = some (some s)) :
    isProhibited pkg fuel (.selectorExpr id x (some name)) =
      some (isProhibitedField s name, name) := by
  have hlen : ¬ name.length = 0 := fun h => hname (List.length_eq_zero.mp h)
  simp only [isProhibited, isProbibitedSelector, if_neg hlen, hx]

theorem isProhibited_isSome (pkg : Package) (fuel : Nat) (hres : Resolves pkg fuel) (e : Node) :
    ∃ r, isProhibited pkg fuel e = some r := by
  cases e with
  | selectorExpr id x sel =>
    cases sel with
    | none => exact ⟨_, rfl⟩
    | some name =>
      by_cases hlen : name.length = 0
      · exact ⟨(false, []), by simp [isProhibited, isProbibitedSelector, hlen]⟩
      · have h := hres x.id
        cases hr : structFromSelectorXType pkg.graph fuel (pkg.types x.id) with
        | none => rw [hr] at h; simp at h
        | some r =>
          cases r with
          | none => exact ⟨(false, []), by simp [isProhibited, isProbibitedSelector, hlen, hr]⟩
          | some s =>
            exact ⟨(isProhibitedField s name, name),
              by simp only [isProhibited, isProbibitedSelector, if_neg hlen, hr]⟩
  | ifStmt _ _ _ _ _ => exact ⟨_, rfl⟩
  | binaryExpr _ _ _ _ => exact ⟨_, rfl⟩
  | other _ _ => exact ⟨_, rfl⟩

/-! ## Lemmas: the warnings of a list of nodes -/

theorem stmtWarnings_of_not_if (pkg : Package) (fuel : Nat) (n : Node)
    (h : n.isIfStmt = false) : stmtWarnings pkg fuel n = some [] := by
  cases n with
  | ifStmt _ _ _ _ _ => simp [Node.isIfStmt] at h
  | binaryExpr _ _ _ _ => rfl
  | selectorExpr _ _ _ => rfl
  | other _ _ => rfl

theorem collectWarnings_filter (pkg : Package) (fuel : Nat) (l : List Node) :
    collectWarnings pkg fuel l = collectWarnings pkg fuel (l.filter Node.isIfStmt) := by
  induction l with
  | nil => rfl
  | cons n ns ih =>
    by_cases h : n.isIfStmt = true
    · rw [List.filter_cons_of_pos h, collectWarnings_cons, collectWarnings_cons, ih]
    · have h1 : n.isIfStmt = false := by simpa using h
      rw [List.filter_cons_of_neg h, collectWarnings_cons, stmtWarnings_of_not_if pkg fuel n h1,
        ← ih]
      cases collectWarnings pkg fuel ns <;> simp

theorem stmtWarnings_binary (pkg : Package) (fuel : Nat) (id idc op : Nat)
    (init els : Option Node) (x y body : Node) (rx ry : Bool × GoString)
    (hx : isProhibited pkg fuel x = some rx) (hy : isProhibited pkg fuel y = some ry) :
    stmtWarnings pkg fuel (.ifStmt id init (.binaryExpr idc x op y) body els) =
      some ((if rx.1 then [⟨x, rx.2⟩] else []) ++ (if ry.1 then [⟨y, ry.2⟩] else [])) := by
  simp [stmtWarnings, operandWarnings, hx, hy]

theorem stmtWarnings_flagged (pkg : Package) (fuel : Nat) (n : Node) (a : List Warning)
    (h : stmtWarnings pkg fuel n = some a) : a ≠ [] ↔ flaggedIf pkg fuel n = true := by
  cases n with
  | ifStmt id init cond body els =>
    cases cond with
    | binaryExpr idc x op y =>
      simp only [stmtWarnings, operandWarnings] at h
      cases hx : isProhibited pkg fuel x with
      | none => simp [hx] at h
      | some rx =>
        cases hy : isProhibited pkg fuel y with
        | none => simp [hx, hy] at h
        | some ry =>
          obtain ⟨px, nx⟩ := rx
          obtain ⟨py, ny⟩ := ry
          simp only [hx, hy, Option.map_some', Option.some.injEq] at h
          subst h
          cases px <;> cases py <;> simp [flaggedIf, prohibitedOperand, hx, hy]
    | ifStmt _ _ _ _ _ => simp [stmtWarnings] at h; simp [flaggedIf, h]
    | selectorExpr _ _ _ => simp [stmtWarnings] at h; simp [flaggedIf, h]
    | other _ _ => simp [stmtWarnings] at h; simp [flaggedIf, h]
  | binaryExpr _ _ _ _ => simp [stmtWarnings] at h; simp [flaggedIf, h]
  | selectorExpr _ _ _ => simp [stmtWarnings] at h; simp [flaggedIf, h]
  | other _ _ => simp [stmtWarnings] at h; simp [flaggedIf, h]

theorem collectWarnings_flagged (pkg : Package) (fuel : Nat) :
    ∀ (l : List Node) (ws : List Warning), collectWarnings pkg fuel l = some ws →
      (ws ≠ [] ↔ ∃ n ∈ l, flaggedIf pkg fuel n = true) := by
  intro l
  induction l with
  | nil =>
    intro ws h
    simp only [collectWarnings, Option.some.injEq] at h
    simp [← h]
  | cons n ns ih =>
    intro ws h
    rw [collectWarnings_cons] at h
    cases ha : stmtWarnings pkg fuel n with
    | none => simp [ha] at h
    | some a =>
      cases hb : collectWarnings pkg fuel ns with
      | none => simp [ha, hb] at h
      | some b =>
        simp only [ha, hb, Option.some_bind, Option.map_some', Option.some.injEq] at h
        subst h
        have h1 := stmtWarnings_flagged pkg fuel n a ha
        have h2 := ih b hb
        constructor
        · intro hne
          by_cases hae : a = []
          · have hbne : b ≠ [] := by
              intro hbe; apply hne; simp [hae, hbe]
            obtain ⟨m, hm, hf⟩ := h2.mp hbne
            exact ⟨m, List.mem_cons_of_mem _ hm, hf⟩
          · exact ⟨n, List.mem_cons_self _ _, h1.mp hae⟩
        · rintro ⟨m, hm, hf⟩
          rcases List.mem_cons.mp hm with rfl | hm1
          · have := h1.mpr hf
            intro habs
            exact this (List.append_eq_nil.mp habs).1
          · have := h2.mpr ⟨m, hm1, hf⟩
            intro habs
            exact this (List.append_eq_nil.mp habs).2

theorem stmtWarnings_isSome (pkg : Package) (fuel : Nat) (hres : Resolves pkg fuel) (n : Node) :
    ∃ a, stmtWarnings pkg fuel n = some a := by
  cases n with
  | ifStmt id init cond body els =>
    cases cond with
    | binaryExpr idc x op y =>
      obtain ⟨rx, hx⟩ := isProhibited_isSome pkg fuel hres x
      obtain ⟨ry, hy⟩ := isProhibited_isSome pkg fuel hres y
      exact ⟨_, stmtWarnings_binary pkg fuel id idc op init els x y body rx ry hx hy⟩
    | ifStmt _ _ _ _ _ => exact ⟨[], rfl⟩
    | selectorExpr _ _ _ => exact ⟨[], rfl⟩
    | other _ _ => exact ⟨[], rfl⟩
  | binaryExpr _ _ _ _ => exact ⟨[], rfl⟩
  | selectorExpr _ _ _ => exact ⟨[], rfl⟩
  | other _ _ => exact ⟨[], rfl⟩

theorem collectWarnings_isSome (pkg : Package) (fuel : Nat) (hres : Resolves pkg fuel)
    (l : List Node) : ∃ ws, collectWarnings pkg fuel l = some ws := by
  induction l with
  | nil => exact ⟨[], rfl⟩
  | cons n ns ih =>
    obtain ⟨a, ha⟩ := stmtWarnings_isSome pkg fuel hres n
    obtain ⟨b, hb⟩ := ih
    exact ⟨a ++ b, by rw [collectWarnings_cons, ha, hb]; rfl⟩

theorem resolves_unitPkg (s : Struct) (fuel : Nat) (h : 3 ≤ fuel) :
    Resolves (unitPkg s) fuel := by
  intro e
  obtain ⟨k, rfl⟩ : ∃ k, fuel = k + 3 := ⟨fuel - 3, by omega⟩
  simp only [unitPkg]
  split_ifs <;> rfl

/-! ## Lemmas: a result of the checker does not depend on the fuel -/

theorem structFromSelectorXType_mono (g : TypeGraph) :
    ∀ (fuel : Nat) (t : TypeVal) (r : Option Struct),
      structFromSelectorXType g fuel t = some r →
      ∀ k, structFromSelectorXType g (fuel + k) t = some r := by
  intro fuel
  induction fuel with
  | zero => intro t r h; simp [structFromSelectorXType] at h
  | succ n ih =>
    intro t r h k
    have hk : n + 1 + k = (n + k) + 1 := by omega
    rw [hk]
    cases t with
    | struct s => simpa [structFromSelectorXType] using h
    | pointer p =>
      rw [structFromSelectorXType] at h ⊢
      exact ih _ r h k
    | named m =>
      rw [structFromSelectorXType] at h ⊢
      exact ih _ r h k
    | nil => simpa [structFromSelectorXType] using h
    | typeAlias a => simpa [structFromSelectorXType] using h
    | other => simpa [structFromSelectorXType] using h

theorem isProhibited_mono (pkg : Package) (fuel k : Nat) (e : Node) (r : Bool × GoString)
    (h : isProhibited pkg fuel e = some r) : isProhibited pkg (fuel + k) e = some r := by
  cases e with
  | selectorExpr id x sel =>
    cases sel with
    | none => exact h
    | some name =>
      simp only [isProhibited, isProbibitedSelector] at h ⊢
      split_ifs at h ⊢ with hlen
      · exact h
      · cases hr : structFromSelectorXType pkg.graph fuel (pkg.types x.id) with
        | none => rw [hr] at h; exact absurd h (by simp)
        | some o =>
          rw [structFromSelectorXType_mono pkg.graph fuel _ o hr k]
          rw [hr] at h
          exact h
  | ifStmt _ _ _ _ _ => exact h
  | binaryExpr _ _ _ _ => exact h
  | other _ _ => exact h

theorem stmtWarnings_mono (pkg : Package) (fuel k : Nat) (n : Node) (a : List Warning)
    (h : stmtWarnings pkg fuel n = some a) : stmtWarnings pkg (fuel + k) n = some a := by
  cases n with
  | ifStmt id init cond body els =>
    cases cond with
    | binaryExpr idc x op y =>
      simp only [stmtWarnings, operandWarnings] at h ⊢
      cases hx : isProhibited pkg fuel x with
      | none => simp [hx] at h
      | some rx =>
        cases hy : isProhibited pkg fuel y with
        | none => simp [hx, hy] at h
        | some ry =>
          rw [isProhibited_mono pkg fuel k x rx hx, isProhibited_mono pkg fuel k y ry hy]
          rw [hx, hy] at h
          exact h
    | ifStmt _ _ _ _ _ => exact h
    | selectorExpr _ _ _ => exact h
    | other _ _ => exact h
  | binaryExpr _ _ _ _ => exact h
  | selectorExpr _ _ _ => exact h
  | other _ _ => exact h

theorem collectWarnings_mono (pkg : Package) (fuel k : Nat) :
    ∀ (l : List Node) (ws : List Warning), collectWarnings pkg fuel l = some ws →
      collectWarnings pkg (fuel + k) l = some ws := by
  intro l
  induction l with
  | nil => intro ws h; exact h
  | cons n ns ih =>
    intro ws h
    rw [collectWarnings_cons] at h ⊢
    cases ha : stmtWarnings pkg fuel n with
    | none => simp [ha] at h
    | some a =>
      cases hb : collectWarnings pkg fuel ns with
      | none => simp [ha, hb] at h
      | some b =>
        rw [stmtWarnings_mono pkg fuel k n a ha, ih b hb]
        rw [ha, hb] at h
        exact h

/-- Once `walkFile` returns with some fuel it returns the same with any more fuel:
the result is that of the Go function, and `none` alone depends on the fuel. -/
theorem walkFile_mono (pkg : Package) (fuel k : Nat) (file : Node) (r : List Warning × Bool)
    (h : walkFile pkg fuel file = some r) : walkFile pkg (fuel + k) file = some r := by
  rw [walkFile_eq_collect] at h ⊢
  cases hc : collectWarnings pkg fuel (subnodes file) with
  | none => simp [hc] at h
  | some ws =>
    rw [collectWarnings_mono pkg fuel k _ ws hc]
    rw [hc] at h
    exact h

/-! ## The comparison matcher: claims on `walkFile` -/

/-- C2: take a struct whose field named `f` (the first with that name, and Go has no
second) has a well-formed tag whose `security` group is
`security:"nodirectequality"`, and a file whose only if statement has the
condition `x.f op y`, where the type of `x` resolves to that struct and `y` is
not a protected field access.  Then `walkFile` prints exactly one warning, for
the field `f` and at the operand `x.f`, and returns true. -/
theorem walkFile_single_comparison (pkg : Package) (fuel : Nat) (file : Node) (S : Struct)
    (f : GoString) (gs : List TagGroup) (i id idc ids op : Nat) (init els : Option Node)
    (x y body : Node)
    (hi : i < S.NumFields) (hname : S.FieldName i = f) (hfirst : ∀ j < i, S.FieldName j ≠ f)
    (hf : f ≠ []) (hwf : WellFormedGroups gs)
    (hsec : firstGroup securityTag gs = some (securityTag, noDirectEqualityValue))
    (htag : S.Tag i = renderTag gs)
    (hx : structFromSelectorXType pkg.graph fuel (pkg.types x.id) = some (some S))
    (hy : (isProhibited pkg fuel y).map Prod.fst = some false)
    (honly : (subnodes file).filter Node.isIfStmt =
      [.ifStmt id init (.binaryExpr idc (.selectorExpr ids x (some f)) op y) body els]) :
    walkFile pkg fuel file = some ([⟨.selectorExpr ids x (some f), f⟩], true) := by
  have hfield : isProhibitedField S f = true := by
    rw [isProhibitedField_first S f i hi hname hfirst, htag,
      hasNoDirectEqualityTag_renderTag gs noDirectEqualityValue hwf hsec]
    decide
  have hleft : isProhibited pkg fuel (.selectorExpr ids x (some f)) = some (true, f) := by
    rw [isProhibited_selector_struct pkg fuel ids x f S hf hx, hfield]
  obtain ⟨ry, hry⟩ : ∃ ry, isProhibited pkg fuel y = some ry := by
    cases h : isProhibited pkg fuel y with
    | none => rw [h] at hy; simp at hy
    | some ry => exact ⟨ry, rfl⟩
  have hry1 : ry.1 = false := by
    rw [hry] at hy; simpa using hy
  rw [walkFile_eq_collect, collectWarnings_filter, honly, collectWarnings_cons,
    stmtWarnings_binary pkg fuel id idc op init els _ y body (true, f) ry hleft hry]
  simp [collectWarnings, hry1]

/-- Witness of C2: the unit of the spec, `if s.Token == userInput` with `s` a
`Session`. -/
theorem walkFile_single_comparison_witness :
    walkFile (unitPkg sessionStruct) 2 sessionFile = some ([⟨sToken, bytes "Token"⟩], true) :=
  walkFile_single_comparison (unitPkg sessionStruct) 2 sessionFile sessionStruct (bytes "Token")
    [(securityTag, noDirectEqualityValue)] 0 1 2 5 39 none none (.other 3 []) (.other 4 [])
    (.other 6 []) (by decide) (by decide) (by decide) (by decide) (by decide) (by decide)
    (by decide) (by decide) (by decide) rfl

/-- C3: when a type is a struct `S` under a finite stack of pointer and named layers,
in any order, `structFromSelectorXType` returns `S` (with fuel above the number
of layers), and a selector on an expression of that type is classified as
`isProhibitedField` classifies the field on `S`; when the stack ends on a type
that is neither a struct, a pointer nor a named type, the result is nil. -/
theorem structFromSelectorXType_peels (g : TypeGraph) (ls : List Layer) (top base : TypeVal)
    (fuel : Nat) (hl : layeredOn g ls top base) (hfuel : ls.length < fuel) :
    (∀ S, base = .struct S → structFromSelectorXType g fuel top = some (some S)) ∧
      (base.isLeaf = true → structFromSelectorXType g fuel top = some none) ∧
      (∀ (S : Struct) (pkg : Package) (id : Nat) (x : Node) (name : GoString),
        base = .struct S → pkg.graph = g → pkg.types x.id = top → name ≠ [] →
        isProhibited pkg fuel (.selectorExpr id x (some name)) =
          some (isProhibitedField S name, name)) := by
  have h1 : ∀ S, base = .struct S → structFromSelectorXType g fuel top = some (some S) := by
    intro S hS
    exact structFromSelectorXType_layered g base (some S) (fun k => by rw [hS]; rfl)
      ls top fuel hl hfuel
  refine ⟨h1, ?_, ?_⟩
  · intro hleaf
    refine structFromSelectorXType_layered g base none (fun k => ?_) ls top fuel hl hfuel
    cases base with
    | struct _ => simp [TypeVal.isLeaf] at hleaf
    | pointer _ => simp [TypeVal.isLeaf] at hleaf
    | named _ => simp [TypeVal.isLeaf] at hleaf
    | nil => rfl
    | typeAlias _ => rfl
    | other => rfl
  · intro S pkg id x name hS hg ht hname
    have := h1 S hS
    rw [← hg, ← ht] at this
    rw [isProhibited_selector_struct pkg fuel id x name S hname this]

/-- Witness of C3: `*Session`, a pointer layer over a named layer over the struct. -/
theorem structFromSelectorXType_peels_witness :
    structFromSelectorXType (sessionGraph sessionStruct) 3 (.pointer 0) =
      some (some sessionStruct) :=
  (structFromSelectorXType_peels (sessionGraph sessionStruct) [.pointer 0, .named 0]
    (.pointer 0) (.struct sessionStruct) 3 ⟨rfl, rfl, rfl⟩ (by decide)).1 sessionStruct rfl

/-- C4: with fuel that resolves the types of the package, `walkFile` returns, and it
returns true if and only if the tree contains, at any depth, an if statement
whose condition is directly a binary expression with a prohibited field access
as one of its two operands; without such a node nothing is printed. -/
theorem walkFile_true_iff (pkg : Package) (fuel : Nat) (file : Node)
    (hres : Resolves pkg fuel) :
    ∃ ws b, walkFile pkg fuel file = some (ws, b) ∧
      (b = true ↔ ∃ n, Contains file n ∧ flaggedIf pkg fuel n = true) ∧
      (ws = [] ↔ ¬ ∃ n, Contains file n ∧ flaggedIf pkg fuel n = true) := by
  obtain ⟨ws, hws⟩ := collectWarnings_isSome pkg fuel hres (subnodes file)
  have hfl := collectWarnings_flagged pkg fuel (subnodes file) ws hws
  have hex : (∃ n ∈ subnodes file, flaggedIf pkg fuel n = true) ↔
      ∃ n, Contains file n ∧ flaggedIf pkg fuel n = true := by
    constructor
    · rintro ⟨n, hn, hf⟩
      exact ⟨n, (mem_subnodes_iff file n).mp hn, hf⟩
    · rintro ⟨n, hn, hf⟩
      exact ⟨n, (mem_subnodes_iff file n).mpr hn, hf⟩
  refine ⟨ws, !ws.isEmpty, by rw [walkFile_eq_collect, hws]; rfl, ?_, ?_⟩
  · rw [← hex, ← hfl]
    cases ws <;> simp
  · rw [← hex, ← hfl]
    simp

/-- Witness of C4: an if statement in an else branch inside a loop is found, and a
comparison that is not the condition of an if statement is not. -/
theorem walkFile_true_iff_witness :
    (∃ ws b, walkFile (unitPkg sessionStruct) 3 nestedFile = some (ws, b) ∧
      (b = true ↔ ∃ n, Contains nestedFile n ∧ flaggedIf (unitPkg sessionStruct) 3 n = true) ∧
      (ws = [] ↔ ¬ ∃ n, Contains nestedFile n ∧ flaggedIf (unitPkg sessionStruct) 3 n = true)) ∧
      (∃ n, Contains nestedFile n ∧ flaggedIf (unitPkg sessionStruct) 3 n = true) ∧
      walkFile (unitPkg sessionStruct) 3 assignFile = some ([], false) :=
  ⟨walkFile_true_iff (unitPkg sessionStruct) 3 nestedFile
      (resolves_unitPkg sessionStruct 3 (le_refl _)),
    ⟨bothIf,
      (mem_subnodes_iff nestedFile bothIf).mp
        (by repeat (first | exact List.Mem.head _ | apply List.Mem.tail)),
      by decide⟩,
    rfl⟩

/-- C5: for an if statement of the file whose condition is directly a binary
expression `x op y`, `walkFile` prints, between the warnings of the nodes walked
before and those of the nodes walked after, one warning for `x` when `x` is a
prohibited field access and then one for `y` when `y` is; so their number is the
number of prohibited operands, the left one comes first, and two operands that
name the same field give two warnings. -/
theorem walkFile_ifStmt_warnings (pkg : Package) (fuel : Nat) (file : Node)
    (l1 l2 : List Node) (id idc op : Nat) (init els : Option Node) (x y body : Node)
    (hres : Resolves pkg fuel)
    (hsub : subnodes file = l1 ++ .ifStmt id init (.binaryExpr idc x op y) body els :: l2) :
    ∃ w1 w2 px nx py ny,
      collectWarnings pkg fuel l1 = some w1 ∧ collectWarnings pkg fuel l2 = some w2 ∧
      isProhibited pkg fuel x = some (px, nx) ∧ isProhibited pkg fuel y = some (py, ny) ∧
      (walkFile pkg fuel file).map Prod.fst =
        some (w1 ++ ((if px then [⟨x, nx⟩] else []) ++ (if py then [⟨y, ny⟩] else [])) ++ w2) ∧
      ((if px then [(⟨x, nx⟩ : Warning)] else []) ++
        (if py then [(⟨y, ny⟩ : Warning)] else [])).length = px.toNat + py.toNat := by
  obtain ⟨w1, hw1⟩ := collectWarnings_isSome pkg fuel hres l1
  obtain ⟨w2, hw2⟩ := collectWarnings_isSome pkg fuel hres l2
  obtain ⟨⟨px, nx⟩, hx⟩ := isProhibited_isSome pkg fuel hres x
  obtain ⟨⟨py, ny⟩, hy⟩ := isProhibited_isSome pkg fuel hres y
  refine ⟨w1, w2, px, nx, py, ny, hw1, hw2, hx, hy, ?_, ?_⟩
  · rw [walkFile_eq_collect, hsub, collectWarnings_append, collectWarnings_cons, hw1, hw2,
      stmtWarnings_binary pkg fuel id idc op init els x y body (px, nx) (py, ny) hx hy]
    simp only [Option.some_bind, Option.map_some', List.append_assoc]
  · cases px <;> cases py <;> rfl

/-- Witness of C5: `if s.Token == p.Token`, two warnings for the field `Token`. -/
theorem walkFile_ifStmt_warnings_witness :
    (∃ w1 w2 px nx py ny,
      collectWarnings (unitPkg sessionStruct) 3 [] = some w1 ∧
      collectWarnings (unitPkg sessionStruct) 3
        [.binaryExpr 2 sToken 39 pToken, sToken, .other 3 [], pToken, .other 8 [], .other 6 []] =
        some w2 ∧
      isProhibited (unitPkg sessionStruct) 3 sToken = some (px, nx) ∧
      isProhibited (unitPkg sessionStruct) 3 pToken = some (py, ny) ∧
      (walkFile (unitPkg sessionStruct) 3 bothIf).map Prod.fst =
        some (w1 ++ ((if px then [⟨sToken, nx⟩] else []) ++
          (if py then [⟨pToken, ny⟩] else [])) ++ w2) ∧
      ((if px then [(⟨sToken, nx⟩ : Warning)] else []) ++
        (if py then [(⟨pToken, ny⟩ : Warning)] else [])).length = px.toNat + py.toNat) ∧
      walkFile (unitPkg sessionStruct) 3 bothIf =
        some ([⟨sToken, bytes "Token"⟩, ⟨pToken, bytes "Token"⟩], true) :=
  ⟨walkFile_ifStmt_warnings (unitPkg sessionStruct) 3 bothIf [] _ 1 2 39 none none sToken pToken
      (.other 6 []) (resolves_unitPkg sessionStruct 3 (le_refl _)) rfl, rfl⟩

/-- C6: `isProhibitedField` returns false when no field of the struct has the name;
otherwise it returns `hasNoDirectEqualityTag` of the tag of the first field with
the name, so two structs with the same field names whose tags agree at that
field get the same answer, whatever their other tags. -/
theorem isProhibitedField_spec (s : Struct) (name : GoString) :
    ((∀ i < s.NumFields, s.FieldName i ≠ name) → isProhibitedField s name = false) ∧
      (∀ i, i < s.NumFields → s.FieldName i = name → (∀ j < i, s.FieldName j ≠ name) →
        isProhibitedField s name = hasNoDirectEqualityTag (s.Tag i) ∧
        ∀ s1 : Struct, s1.fields = s.fields → s1.Tag i = s.Tag i →
          isProhibitedField s1 name = isProhibitedField s name) := by
  refine ⟨isProhibitedField_absent s name, fun i hi hname hfirst => ?_⟩
  have h := isProhibitedField_first s name i hi hname hfirst
  refine ⟨h, fun s1 hf ht => ?_⟩
  have h1 : isProhibitedField s1 name = hasNoDirectEqualityTag (s1.Tag i) :=
    isProhibitedField_first s1 name i (by simpa [Struct.NumFields, hf] using hi)
      (by simpa [Struct.FieldName, hf] using hname)
      (fun j hj => by simpa [Struct.FieldName, hf] using hfirst j hj)
  rw [h1, h, ht]

/-- Witness of C6: in `struct { ID int; Token string }` with the tags `json:"id"` and
`security:"nodirectequality"`, the field `Token` is classified by the second
tag and an absent field gives false. -/
theorem isProhibitedField_spec_witness :
    isProhibitedField
        { fields := [bytes "ID", bytes "Token"],
          tags := [bytes "json:\"id\"", bytes "security:\"nodirectequality\""] }
        (bytes "Token") =
      hasNoDirectEqualityTag (bytes "security:\"nodirectequality\"") ∧
    isProhibitedField
        { fields := [bytes "ID", bytes "Token"],
          tags := [bytes "json:\"id\"", bytes "security:\"nodirectequality\""] }
        (bytes "Name") = false :=
  ⟨((isProhibitedField_spec
        { fields := [bytes "ID", bytes "Token"],
          tags := [bytes "json:\"id\"", bytes "security:\"nodirectequality\""] }
        (bytes "Token")).2 1 (by decide) (by decide) (by decide)).1,
    (isProhibitedField_spec
        { fields := [bytes "ID", bytes "Token"],
          tags := [bytes "json:\"id\"", bytes "security:\"nodirectequality\""] }
        (bytes "Name")).1 (by decide)⟩

/-- C7: on an expression that is not a selector expression `isProhibited` returns
`(false, "")`; so the closure leaves the state as it is at an if statement whose
condition is a binary expression between two such expressions, and a file all
of whose if statements with a binary condition, at any depth, are of that kind
gets no warning and the result false. -/
theorem isProhibited_non_selector (pkg : Package) (fuel : Nat) :
    (∀ e : Node, e.isSelector = false → isProhibited pkg fuel e = some (false, [])) ∧
      (∀ (id idc op : Nat) (init els : Option Node) (x y body : Node) (st : WalkState),
        x.isSelector = false → y.isSelector = false →
        inspectFn pkg fuel (some (.ifStmt id init (.binaryExpr idc x op y) body els)) st =
          some (st, true)) ∧
      (∀ file : Node,
        (∀ (id idc op : Nat) (init els : Option Node) (x y body : Node),
          Contains file (.ifStmt id init (.binaryExpr idc x op y) body els) →
            x.isSelector = false ∧ y.isSelector = false) →
        walkFile pkg fuel file = some ([], false)) := by
  refine ⟨isProhibited_of_not_selector pkg fuel, ?_, ?_⟩
  · intro id idc op init els x y body st hx hy
    rw [inspectFn_eq, stmtWarnings_binary pkg fuel id idc op init els x y body _ _
      (isProhibited_of_not_selector pkg fuel x hx) (isProhibited_of_not_selector pkg fuel y hy)]
    simp [WalkState.extend_nil]
  · intro file hall
    have hnone : ∀ l : List Node, (∀ n ∈ l, n ∈ subnodes file) →
        collectWarnings pkg fuel l = some [] := by
      intro l
      induction l with
      | nil => intro _; rfl
      | cons n ns ih =>
        intro hsub
        have hn : stmtWarnings pkg fuel n = some [] := by
          cases n with
          | ifStmt id init cond body els =>
            cases cond with
            | binaryExpr idc x op y =>
              obtain ⟨hx, hy⟩ := hall id idc op init els x y body
                ((mem_subnodes_iff file _).mp (hsub _ (List.mem_cons_self _ _)))
              rw [stmtWarnings_binary pkg fuel id idc op init els x y body _ _
                (isProhibited_of_not_selector pkg fuel x hx)
                (isProhibited_of_not_selector pkg fuel y hy)]
              rfl
            | ifStmt _ _ _ _ _ => rfl
            | selectorExpr _ _ _ => rfl
            | other _ _ => rfl
          | binaryExpr _ _ _ _ => rfl
          | selectorExpr _ _ _ => rfl
          | other _ _ => rfl
        rw [collectWarnings_cons, hn, ih (fun m hm => hsub m (List.mem_cons_of_mem _ hm))]
        rfl
    rw [walkFile_eq_collect, hnone _ (fun n hn => hn)]
    rfl

/-- Witness of C7: `if a == b` on two local identifiers, with no fuel at all. -/
theorem isProhibited_non_selector_witness :
    inspectFn (unitPkg sessionStruct) 0
        (some (.ifStmt 1 none (.binaryExpr 2 (.other 14 []) 39 (.other 15 [])) (.other 6 []) none))
        ⟨[], false⟩ = some (⟨[], false⟩, true) :=
  (isProhibited_non_selector (unitPkg sessionStruct) 0).2.1 1 2 39 none none (.other 14 [])
    (.other 15 []) (.other 6 []) ⟨[], false⟩ rfl rfl

/-- C8: when `hasNoDirectEqualityTag` is false on every field tag of every struct of
the type information, `walkFile` (with fuel that resolves the types of the
package) prints nothing and returns false. -/
theorem walkFile_clean (pkg : Package) (fuel : Nat) (file : Node) (hres : Resolves pkg fuel)
    (hclean : ∀ s, pkg.hasStruct s → ∀ i < s.NumFields,
      hasNoDirectEqualityTag (s.Tag i) = false) :
    walkFile pkg fuel file = some ([], false) := by
  have hop : ∀ e r, isProhibited pkg fuel e = some r → r.1 = false := by
    intro e r he
    cases e with
    | selectorExpr id x sel =>
      cases sel with
      | none => simp [isProhibited, isProbibitedSelector] at he; simp [← he]
      | some name =>
        by_cases hlen : name.length = 0
        · simp [isProhibited, isProbibitedSelector, hlen] at he; simp [← he]
        · simp only [isProhibited, isProbibitedSelector, if_neg hlen] at he
          cases hr : structFromSelectorXType pkg.graph fuel (pkg.types x.id) with
          | none => simp [hr] at he
          | some o =>
            cases o with
            | none => simp [hr] at he; simp [← he]
            | some s =>
              simp only [hr, Option.some.injEq] at he
              have hs : pkg.hasStruct s :=
                structFromSelectorXType_hasStruct pkg s fuel _ (fun h => Or.inl ⟨x.id, h⟩) hr
              rw [← he]
              by_contra hne
              have htrue : isProhibitedField s name = true := by simpa using hne
              obtain ⟨i, hi, hti⟩ := isProhibitedField_true_tag s name htrue
              rw [hclean s hs i hi] at hti
              exact absurd hti (by simp)
    | ifStmt _ _ _ _ _ => simp [isProhibited] at he; simp [← he]
    | binaryExpr _ _ _ _ => simp [isProhibited] at he; simp [← he]
    | other _ _ => simp [isProhibited] at he; simp [← he]
  have hflag : ∀ n, flaggedIf pkg fuel n = false := by
    intro n
    have hpo : ∀ e, prohibitedOperand pkg fuel e = false := by
      intro e
      unfold prohibitedOperand
      cases he : isProhibited pkg fuel e with
      | none => rfl
      | some r =>
        obtain ⟨p, nm⟩ := r
        have := hop e (p, nm) he
        simp only at this
        subst this
        rfl
    cases n with
    | ifStmt id init cond body els =>
      cases cond with
      | binaryExpr idc x op y => simp [flaggedIf, hpo]
      | ifStmt _ _ _ _ _ => rfl
      | selectorExpr _ _ _ => rfl
      | other _ _ => rfl
    | binaryExpr _ _ _ _ => rfl
    | selectorExpr _ _ _ => rfl
    | other _ _ => rfl
  obtain ⟨ws, hws⟩ := collectWarnings_isSome pkg fuel hres (subnodes file)
  have hnil : ws = [] := by
    by_contra hne
    obtain ⟨n, _, hn⟩ := (collectWarnings_flagged pkg fuel (subnodes file) ws hws).mp hne
    rw [hflag n] at hn
    exact absurd hn (by simp)
  rw [walkFile_eq_collect, hws, hnil]
  rfl

/-- Witness of C8: the unit of the spec with the tag removed is clean. -/
theorem walkFile_clean_witness :
    walkFile (unitPkg plainStruct) 3 sessionFile = some ([], false) :=
  walkFile_clean (unitPkg plainStruct) 3 sessionFile (resolves_unitPkg plainStruct 3 (le_refl _))
    (by
      intro s hs i hi
      have hsp : s = plainStruct := by
        rcases hs with ⟨e, he⟩ | ⟨p, hp⟩ | ⟨n, hn⟩ | ⟨a, ha⟩
        · simp only [unitPkg] at he
          split_ifs at he
        · simp [unitPkg, sessionGraph] at hp
        · simpa [unitPkg, sessionGraph] using hn.symm
        · simp [unitPkg, sessionGraph] at ha
      subst hsp
      have : i = 0 := by simpa [Struct.NumFields, plainStruct] using hi
      subst this
      decide)

/-! ## The run: claim on `main` -/

theorem walkFile_flag_iff (pkg : Package) (fuel : Nat) (file : Node) (ws : List Warning)
    (b : Bool) (h : walkFile pkg fuel file = some (ws, b)) : b = true ↔ 0 < ws.length := by
  rw [walkFile_eq_collect] at h
  cases hc : collectWarnings pkg fuel (subnodes file) with
  | none => rw [hc] at h; exact absurd h (by simp)
  | some l =>
    rw [hc] at h
    simp only [Option.map_some', Option.some.injEq, Prod.mk.injEq] at h
    rw [← h.1, ← h.2]
    cases l <;> simp

theorem walkFile_isSome (pkg : Package) (fuel : Nat) (hres : Resolves pkg fuel) (file : Node) :
    ∃ r, walkFile pkg fuel file = some r := by
  obtain ⟨ws, hws⟩ := collectWarnings_isSome pkg fuel hres (subnodes file)
  exact ⟨_, by rw [walkFile_eq_collect, hws]; rfl⟩

theorem mainFiles_eq (pkg : Package) (fuel : Nat) (hres : Resolves pkg fuel) :
    ∀ (fs : List Node) (st : List Warning × Bool),
      mainFiles pkg fuel fs st =
        some (st.1 ++ fs.flatMap (fun f => (fileResult fuel pkg f).1),
          st.2 || fs.any (fun f => (fileResult fuel pkg f).2)) := by
  intro fs
  induction fs with
  | nil => intro st; simp [mainFiles]
  | cons f fs ih =>
    intro st
    obtain ⟨⟨ws, b⟩, hw⟩ := walkFile_isSome pkg fuel hres f
    rw [mainFiles, hw]
    simp only
    rw [ih]
    have hfr : fileResult fuel pkg f = (ws, b) := by simp [fileResult, hw]
    cases b <;> simp [hfr, List.flatMap_cons, List.append_assoc]

theorem mainPackages_eq (fuel : Nat) :
    ∀ (ps : List LoadedPackage) (st : List Warning × Bool),
      (∀ p ∈ ps, Resolves p.pkg fuel) →
      mainPackages fuel ps st =
        some (st.1 ++ ps.flatMap (fun p => p.files.flatMap (fun f => (fileResult fuel p.pkg f).1)),
          st.2 || ps.any (fun p => p.files.any (fun f => (fileResult fuel p.pkg f).2))) := by
  intro ps
  induction ps with
  | nil => intro st _; simp [mainPackages]
  | cons p ps ih =>
    intro st hres
    rw [mainPackages, mainFiles_eq p.pkg fuel (hres p (List.mem_cons_self _ _))]
    simp only
    rw [ih _ (fun q hq => hres q (List.mem_cons_of_mem _ hq))]
    simp [List.flatMap_cons, List.append_assoc, Bool.or_assoc]

theorem length_flatMap_pos {α β : Type} (l : List α) (f : α → List β) :
    0 < (l.flatMap f).length ↔ ∃ a ∈ l, 0 < (f a).length := by
  induction l with
  | nil => simp
  | cons a l ih =>
    simp only [List.flatMap_cons, List.length_append, List.mem_cons, exists_eq_or_imp]
    rw [← ih]
    omega

/-- C11: with fuel that resolves the types of every package, the loops of `main`
return; the final flag is true if and only if the number of warnings printed
over all files is greater than zero; the flag is the logical OR of the results
of `walkFile` over all packages and files, the output is the outputs of the
files in order, and each `walkFile` returns true exactly when it printed at
least one warning. -/
theorem mainRun_flag (fuel : Nat) (pkgs : List LoadedPackage)
    (hres : ∀ p ∈ pkgs, Resolves p.pkg fuel) :
    ∃ out flag, mainRun fuel pkgs = some (out, flag) ∧
      (flag = true ↔ 0 < out.length) ∧
      flag = pkgs.any (fun p => p.files.any (fun f => (fileResult fuel p.pkg f).2)) ∧
      out = pkgs.flatMap (fun p => p.files.flatMap (fun f => (fileResult fuel p.pkg f).1)) ∧
      (∀ p ∈ pkgs, ∀ f ∈ p.files, ∃ ws b, walkFile p.pkg fuel f = some (ws, b) ∧
        fileResult fuel p.pkg f = (ws, b) ∧ (b = true ↔ 0 < ws.length)) := by
  have hfile : ∀ p ∈ pkgs, ∀ f ∈ p.files, ∃ ws b, walkFile p.pkg fuel f = some (ws, b) ∧
      fileResult fuel p.pkg f = (ws, b) ∧ (b = true ↔ 0 < ws.length) := by
    intro p hp f _
    obtain ⟨⟨ws, b⟩, hw⟩ := walkFile_isSome p.pkg fuel (hres p hp) f
    exact ⟨ws, b, hw, by simp [fileResult, hw], walkFile_flag_iff p.pkg fuel f ws b hw⟩
  refine ⟨_, _, by rw [mainRun, mainPackages_eq fuel pkgs _ hres], ?_, by simp, by simp, hfile⟩
  simp only [List.nil_append, Bool.false_or, List.any_eq_true]
  rw [length_flatMap_pos]
  constructor
  · rintro ⟨p, hp, f, hf, hb⟩
    obtain ⟨ws, b, _, hfr, hiff⟩ := hfile p hp f hf
    refine ⟨p, hp, (length_flatMap_pos _ _).mpr ⟨f, hf, ?_⟩⟩
    rw [hfr] at hb ⊢
    exact hiff.mp hb
  · rintro ⟨p, hp, hpos⟩
    obtain ⟨f, hf, hlen⟩ := (length_flatMap_pos _ _).mp hpos
    obtain ⟨ws, b, _, hfr, hiff⟩ := hfile p hp f hf
    refine ⟨p, hp, f, hf, ?_⟩
    rw [hfr] at hlen ⊢
    exact hiff.mpr hlen

/-- Witness of C11: a clean package and the package of the spec, one file each. -/
theorem mainRun_flag_witness :
    (∃ out flag,
      mainRun 3 [⟨unitPkg plainStruct, [sessionFile]⟩, ⟨unitPkg sessionStruct, [sessionFile]⟩] =
        some (out, flag) ∧
      (flag = true ↔ 0 < out.length) ∧
      flag = [(⟨unitPkg plainStruct, [sessionFile]⟩ : LoadedPackage),
          ⟨unitPkg sessionStruct, [sessionFile]⟩].any
        (fun p => p.files.any (fun f => (fileResult 3 p.pkg f).2)) ∧
      out = [(⟨unitPkg plainStruct, [sessionFile]⟩ : LoadedPackage),
          ⟨unitPkg sessionStruct, [sessionFile]⟩].flatMap
        (fun p => p.files.flatMap (fun f => (fileResult 3 p.pkg f).1)) ∧
      (∀ p ∈ [(⟨unitPkg plainStruct, [sessionFile]⟩ : LoadedPackage),
          ⟨unitPkg sessionStruct, [sessionFile]⟩],
        ∀ f ∈ p.files, ∃ ws b, walkFile p.pkg 3 f = some (ws, b) ∧
          fileResult 3 p.pkg f = (ws, b) ∧ (b = true ↔ 0 < ws.length))) ∧
      mainRun 3 [⟨unitPkg plainStruct, [sessionFile]⟩, ⟨unitPkg sessionStruct, [sessionFile]⟩] =
        some ([⟨sToken, bytes "Token"⟩], true) :=
  ⟨mainRun_flag 3 _ (by
      intro p hp
      simp only [List.mem_cons, List.mem_singleton, List.not_mem_nil, or_false] at hp
      rcases hp with rfl | rfl
      · exact resolves_unitPkg plainStruct 3 (le_refl _)
      · exact resolves_unitPkg sessionStruct 3 (le_refl _)),
    rfl⟩

/-! ## The selector test: claim on the returned pair -/

/-- C14: for a selector expression with a non-empty field name whose base
expression's type resolves to the struct `S`, `isProhibited` returns the pair
`(isProhibitedField S name, name)`, the name whatever the boolean is; and
whenever `isProhibited` returns true on an expression, the expression is a
selector and the string returned is its field name. -/
theorem isProhibited_selector_pair (pkg : Package) (fuel id : Nat) (x : Node)
    (name : GoString) (S : Struct) (hname : name ≠ [])
    (hx : structFromSelectorXType pkg.graph fuel (pkg.types x.id) = some (some S)) :
    isProhibited pkg fuel (.selectorExpr id x (some name)) =
        some (isProhibitedField S name, name) ∧
      (∀ (e : Node) (name1 : GoString), isProhibited pkg fuel e = some (true, name1) →
        ∃ id1 x1, e = .selectorExpr id1 x1 (some name1)) := by
  refine ⟨isProhibited_selector_struct pkg fuel id x name S hname hx, ?_⟩
  intro e name1 he
  cases e with
  | selectorExpr id1 x1 sel =>
    cases sel with
    | none => simp [isProhibited, isProbibitedSelector] at he
    | some nm =>
      simp only [isProhibited, isProbibitedSelector] at he
      split_ifs at he with hlen
      · simp at he
      · cases hr : structFromSelectorXType pkg.graph fuel (pkg.types x1.id) with
        | none => rw [hr] at he; simp at he
        | some o =>
          cases o with
          | none => rw [hr] at he; simp at he
          | some s =>
            rw [hr] at he
            simp only [Option.some.injEq, Prod.mk.injEq] at he
            exact ⟨id1, x1, by rw [he.2]⟩
  | ifStmt _ _ _ _ _ => simp [isProhibited] at he
  | binaryExpr _ _ _ _ => simp [isProhibited] at he
  | other _ _ => simp [isProhibited] at he

/-- Witness of C14: `s.Token` on the tagged struct and on the struct without tag. -/
theorem isProhibited_selector_pair_witness :
    isProhibited (unitPkg sessionStruct) 2 sToken = some (true, bytes "Token") ∧
      isProhibited (unitPkg plainStruct) 2 sToken = some (false, bytes "Token") :=
  ⟨(isProhibited_selector_pair (unitPkg sessionStruct) 2 5 (.other 3 []) (bytes "Token")
      sessionStruct (by decide) (by decide)).1,
    (isProhibited_selector_pair (unitPkg plainStruct) 2 5 (.other 3 []) (bytes "Token")
      plainStruct (by decide) (by decide)).1⟩

/-! ## The type resolver: cycles and aliases -/

/-- On the type objects of `type T *T` the function `structFromSelectorXType` has
not returned after any number of calls, from the named type and from its pointer
alike (in Go, the recursion ends with a stack overflow). -/
theorem structFromSelectorXType_cycle (fuel : Nat) :
    structFromSelectorXType selfPointerGraph fuel (.named 0) = none ∧
      structFromSelectorXType selfPointerGraph fuel (.pointer 0) = none := by
  induction fuel with
  | zero => exact ⟨rfl, rfl⟩
  | succ n ih =>
    constructor
    · rw [structFromSelectorXType]; exact ih.2
    · rw [structFromSelectorXType]; exact ih.1

/-- C12, as stated, fails: on the type objects of `type T *T` the function
`structFromSelectorXType` never returns, whatever the number of calls allowed. -/
theorem structFromSelectorXType_never_returns :
    ¬ ∃ (fuel : Nat) (r : Option Struct),
      structFromSelectorXType selfPointerGraph fuel (.named 0) = some r := by
  rintro ⟨fuel, r, h⟩
  rw [(structFromSelectorXType_cycle fuel).1] at h
  exact absurd h (by simp)

/-- C12, amended: `structFromSelectorXType` terminates exactly on the types whose
chain of pointer and named layers is finite, that is, ends on a struct or on a
type that is neither a struct, a pointer nor a named type (nil included); and
once it has returned, more calls allowed do not change the result.  On a cycle
of pointer and named objects it does not return. -/
theorem structFromSelectorXType_terminates_iff (g : TypeGraph) (t : TypeVal) :
    ((∃ (fuel : Nat) (r : Option Struct), structFromSelectorXType g fuel t = some r) ↔
        ∃ (ls : List Layer) (base : TypeVal), layeredOn g ls t base ∧
          (base.isLeaf = true ∨ ∃ S, base = .struct S)) ∧
      (∀ (fuel : Nat) (r : Option Struct), structFromSelectorXType g fuel t = some r →
        ∀ k, structFromSelectorXType g (fuel + k) t = some r) := by
  refine ⟨⟨?_, ?_⟩, fun fuel r h k => structFromSelectorXType_mono g fuel t r h k⟩
  · rintro ⟨fuel, r, h⟩
    induction fuel generalizing t with
    | zero => simp [structFromSelectorXType] at h
    | succ n ih =>
      cases t with
      | struct s => exact ⟨[], .struct s, rfl, Or.inr ⟨s, rfl⟩⟩
      | pointer p =>
        rw [structFromSelectorXType] at h
        obtain ⟨ls, base, hl, hb⟩ := ih (g.elem p) h
        exact ⟨.pointer p :: ls, base, ⟨rfl, hl⟩, hb⟩
      | named m =>
        rw [structFromSelectorXType] at h
        obtain ⟨ls, base, hl, hb⟩ := ih (g.underlying m) h
        exact ⟨.named m :: ls, base, ⟨rfl, hl⟩, hb⟩
      | nil => exact ⟨[], .nil, rfl, Or.inl rfl⟩
      | typeAlias a => exact ⟨[], .typeAlias a, rfl, Or.inl rfl⟩
      | other => exact ⟨[], .other, rfl, Or.inl rfl⟩
  · rintro ⟨ls, base, hl, hb⟩
    rcases hb with hleaf | ⟨S, hS⟩
    · refine ⟨ls.length + 1, none, ?_⟩
      refine structFromSelectorXType_layered g base none (fun k => ?_) ls t _ hl (by omega)
      cases base with
      | struct _ => simp [TypeVal.isLeaf] at hleaf
      | pointer _ => simp [TypeVal.isLeaf] at hleaf
      | named _ => simp [TypeVal.isLeaf] at hleaf
      | nil => rfl
      | typeAlias _ => rfl
      | other => rfl
    · exact ⟨ls.length + 1, some S,
        structFromSelectorXType_layered g base (some S) (fun k => by rw [hS]; rfl) ls t _ hl
          (by omega)⟩

/-- Witness of C12 (amended): on `*Session`, a pointer layer over a named layer over
the struct, the function returns. -/
theorem structFromSelectorXType_terminates_iff_witness :
    ∃ (fuel : Nat) (r : Option Struct),
      structFromSelectorXType (sessionGraph sessionStruct) fuel (.pointer 0) = some r :=
  (structFromSelectorXType_terminates_iff (sessionGraph sessionStruct) (.pointer 0)).1.mpr
    ⟨[.pointer 0, .named 0], .struct sessionStruct, ⟨rfl, rfl, rfl⟩,
      Or.inr ⟨sessionStruct, rfl⟩⟩

/-- C18 fails on the code: on an alias object `structFromSelectorXType` returns nil
whatever the alias stands for, so in the unit `type A = Session`, `var a A`,
`if a.Token == userInput` the tagged field is not reported. -/
theorem structFromSelectorXType_alias (g : TypeGraph) (a fuel : Nat) :
    structFromSelectorXType g (fuel + 1) (.typeAlias a) = some none ∧
      aliasPkg.graph.rhs 0 = .named 0 ∧
      structFromSelectorXType aliasPkg.graph 2 (.named 0) = some (some sessionStruct) ∧
      isProhibitedField sessionStruct (bytes "Token") = true ∧
      walkFile aliasPkg 3 sessionFile = some ([], false) :=
  ⟨rfl, rfl, by decide, by decide, rfl⟩

/-! ## The operator of the condition -/

theorem replaceOps_id (ρ : Nat → Nat → Nat) (n : Node) : (replaceOps ρ n).id = n.id := by
  cases n <;> simp [replaceOps, Node.id]

theorem isProhibited_replaceOps (pkg : Package) (fuel : Nat) (ρ : Nat → Nat → Nat) (e : Node) :
    isProhibited pkg fuel (replaceOps ρ e) = isProhibited pkg fuel e := by
  cases e with
  | selectorExpr id x sel =>
    simp only [replaceOps, isProhibited, isProbibitedSelector, replaceOps_id]
  | ifStmt _ _ _ _ _ => simp [replaceOps, isProhibited]
  | binaryExpr _ _ _ _ => simp [replaceOps, isProhibited]
  | other _ _ => simp [replaceOps, isProhibited]

theorem stmtWarnings_replaceOps (pkg : Package) (fuel : Nat) (ρ : Nat → Nat → Nat) (n : Node) :
    stmtWarnings pkg fuel (replaceOps ρ n) =
      (stmtWarnings pkg fuel n).map (fun ws => ws.map (Warning.replaceOps ρ)) := by
  cases n with
  | ifStmt id init cond body els =>
    cases cond with
    | binaryExpr idc x op y =>
      simp only [replaceOps, stmtWarnings, operandWarnings, isProhibited_replaceOps]
      cases isProhibited pkg fuel x with
      | none => rfl
      | some rx =>
        cases isProhibited pkg fuel y with
        | none => rfl
        | some ry =>
          obtain ⟨px, nx⟩ := rx
          obtain ⟨py, ny⟩ := ry
          cases px <;> cases py <;> simp [Warning.replaceOps]
    | ifStmt _ _ _ _ _ => simp [replaceOps, stmtWarnings]
    | selectorExpr _ _ _ => simp [replaceOps, stmtWarnings]
    | other _ _ => simp [replaceOps, stmtWarnings]
  | binaryExpr _ _ _ _ => simp [replaceOps, stmtWarnings]
  | selectorExpr _ _ _ => simp [replaceOps, stmtWarnings]
  | other _ _ => simp [replaceOps, stmtWarnings]

theorem collectWarnings_map_replaceOps (pkg : Package) (fuel : Nat) (ρ : Nat → Nat → Nat)
    (l : List Node) :
    collectWarnings pkg fuel (l.map (replaceOps ρ)) =
      (collectWarnings pkg fuel l).map (fun ws => ws.map (Warning.replaceOps ρ)) := by
  induction l with
  | nil => rfl
  | cons n ns ih =>
    rw [List.map_cons, collectWarnings_cons, collectWarnings_cons, stmtWarnings_replaceOps, ih]
    cases stmtWarnings pkg fuel n with
    | none => rfl
    | some a =>
      cases collectWarnings pkg fuel ns with
      | none => rfl
      | some b => simp

mutual
theorem subnodes_replaceOps (ρ : Nat → Nat → Nat) :
    ∀ n : Node, subnodes (replaceOps ρ n) = (subnodes n).map (replaceOps ρ)
  | .ifStmt id init cond body els => by
    rw [replaceOps, subnodes, subnodes, subnodesOpt_replaceOps ρ init, subnodes_replaceOps ρ cond,
      subnodes_replaceOps ρ body, subnodesOpt_replaceOps ρ els]
    simp [replaceOps]
  | .binaryExpr id x op y => by
    rw [replaceOps, subnodes, subnodes, subnodes_replaceOps ρ x, subnodes_replaceOps ρ y]
    simp [replaceOps]
  | .selectorExpr id x sel => by
    rw [replaceOps, subnodes, subnodes, subnodes_replaceOps ρ x]
    simp [replaceOps]
  | .other id children => by
    rw [replaceOps, subnodes, subnodes, subnodesList_replaceOps ρ children]
    simp [replaceOps]
theorem subnodesOpt_replaceOps (ρ : Nat → Nat → Nat) :
    ∀ o : Option Node, subnodesOpt (replaceOpsOpt ρ o) = (subnodesOpt o).map (replaceOps ρ)
  | none => by simp [replaceOpsOpt, subnodesOpt]
  | some n => by rw [replaceOpsOpt, subnodesOpt, subnodesOpt, subnodes_replaceOps ρ n]
theorem subnodesList_replaceOps (ρ : Nat → Nat → Nat) :
    ∀ l : List Node, subnodesList (replaceOpsList ρ l) = (subnodesList l).map (replaceOps ρ)
  | [] => by simp [replaceOpsList, subnodesList]
  | n :: ns => by
    rw [replaceOpsList, subnodesList, subnodesList, subnodes_replaceOps ρ n,
      subnodesList_replaceOps ρ ns, List.map_append]
end

/-- C16: the operator is never checked.  Replace the operator of any binary
expressions of a file, the top-level binary condition of an if statement among
them, by any operators at all, the operands kept: `walkFile` then prints the
same warnings, for the same operands with the same field names in the same
order, and returns the same boolean (and does not return if it did not). -/
theorem walkFile_replaceOps (pkg : Package) (fuel : Nat) (ρ : Nat → Nat → Nat) (file : Node) :
    walkFile pkg fuel (replaceOps ρ file) =
        (walkFile pkg fuel file).map
          (fun r => (r.1.map (Warning.replaceOps ρ), r.2)) ∧
      (∀ w : Warning, (w.replaceOps ρ).expr.id = w.expr.id ∧
        (w.replaceOps ρ).fieldName = w.fieldName) ∧
      walkFile (unitPkg sessionStruct) 3
          (replaceOps (fun id op => if id = 2 then tokenLSS else op) sessionFile) =
        walkFile (unitPkg sessionStruct) 3 sessionFile := by
  refine ⟨?_, fun w => ⟨replaceOps_id ρ w.expr, rfl⟩, rfl⟩
  rw [walkFile_eq_collect, walkFile_eq_collect, subnodes_replaceOps,
    collectWarnings_map_replaceOps]
  cases collectWarnings pkg fuel (subnodes file) with
  | none => rfl
  | some ws => cases ws <;> simp

/-- C17, as stated, fails: in `if s.Valid && ok { }`, with `Valid` a tagged field,
the condition is a binary expression with the operator `&&` and the operand
`s.Valid` is a prohibited field access, so `walkFile` prints a warning for it. -/
theorem walkFile_logical_operand :
    logicalIf = .ifStmt 1 none (.binaryExpr 2 sValid tokenLAND (.other 4 [])) (.other 6 []) none ∧
      walkFile (unitPkg flagStruct) 3 logicalIf = some ([⟨sValid, bytes "Valid"⟩], true) :=
  ⟨rfl, rfl⟩

/-- C17, amended: at an if statement whose condition is `a && b` or `a || b` the
closure treats the condition like any binary expression.  It does not look
inside `a` and `b`: when neither is itself a selector expression (when they are
comparisons, say) nothing is printed for the statement; and for an operand that
is itself a field access it prints a warning exactly when `isProhibited` says
true. -/
theorem inspectFn_logical (pkg : Package) (fuel id idc op : Nat) (init els : Option Node)
    (a b body : Node) (st : WalkState) (hop : op = tokenLAND ∨ op = tokenLOR) :
    (a.isSelector = false → b.isSelector = false →
        inspectFn pkg fuel (some (.ifStmt id init (.binaryExpr idc a op b) body els)) st =
          some (st, true)) ∧
      (∀ ra rb : Bool × GoString, isProhibited pkg fuel a = some ra →
        isProhibited pkg fuel b = some rb →
        inspectFn pkg fuel (some (.ifStmt id init (.binaryExpr idc a op b) body els)) st =
          some (st.extend ((if ra.1 then [(⟨a, ra.2⟩ : Warning)] else []) ++
            (if rb.1 then [(⟨b, rb.2⟩ : Warning)] else [])), true)) := by
  have h2 : ∀ ra rb : Bool × GoString, isProhibited pkg fuel a = some ra →
      isProhibited pkg fuel b = some rb →
      inspectFn pkg fuel (some (.ifStmt id init (.binaryExpr idc a op b) body els)) st =
        some (st.extend ((if ra.1 then [(⟨a, ra.2⟩ : Warning)] else []) ++
          (if rb.1 then [(⟨b, rb.2⟩ : Warning)] else [])), true) := by
    intro ra rb ha hb
    rcases hop with rfl | rfl <;>
      (rw [inspectFn_eq, stmtWarnings_binary pkg fuel id idc _ init els a b body ra rb ha hb]
       rfl)
  refine ⟨fun ha hb => ?_, h2⟩
  rw [h2 _ _ (isProhibited_of_not_selector pkg fuel a ha)
    (isProhibited_of_not_selector pkg fuel b hb)]
  simp [WalkState.extend_nil]

/-- Witness of C17 (amended): `if s.Token == userInput || p.Token == userInput { }`
gets no warning, though both comparisons are on the tagged field. -/
theorem inspectFn_logical_witness :
    inspectFn (unitPkg sessionStruct) 3 (some compoundIf) ⟨[], false⟩ =
        some (⟨[], false⟩, true) ∧
      walkFile (unitPkg sessionStruct) 3 compoundIf = some ([], false) :=
  ⟨(inspectFn_logical (unitPkg sessionStruct) 3 1 2 tokenLOR none none
      (.binaryExpr 11 sToken tokenEQL (.other 4 []))
      (.binaryExpr 12 pToken tokenEQL (.other 13 [])) (.other 6 []) ⟨[], false⟩
      (Or.inr rfl)).1 rfl rfl,
    rfl⟩

/-! ## The diagnostic: the source line -/

/-- C15 fails on the code: in the file `sourceText` the operand `s.Token` of the
second line is at offset 14; `lineOfCode` returns the text from the operand to
the end of the line, `s.Token == userInput {`, and the whole line is
`<TAB>if s.Token == userInput {`. -/
theorem lineOfCode_from_offset :
    (sourceText.drop 14).take 7 = bytes "s.Token" ∧
      lineOfCode (some sourceText) 14 = .ok (bytes "s.Token == userInput \x7b") ∧
      wholeLineAt sourceText 14 = bytes "\tif s.Token == userInput \x7b" ∧
      bytes "s.Token == userInput \x7b" ≠ bytes "\tif s.Token == userInput \x7b" :=
  ⟨by decide, rfl, by decide, by decide⟩

/-! ## Lemmas: `Lookup` on an arbitrary string -/

theorem quotedBody_of_plain (v : GoString) (h : PlainValue v) : QuotedBody v := by
  induction v with
  | nil => exact QuotedBody.nil
  | cons c w ih =>
    obtain ⟨hq, hb⟩ := h
    exact QuotedBody.plain c w (fun hc => hq (hc ▸ List.mem_cons_self _ _))
      (fun hc => hb (hc ▸ List.mem_cons_self _ _))
      (ih ⟨fun hm => hq (List.mem_cons_of_mem _ hm), fun hm => hb (List.mem_cons_of_mem _ hm)⟩)

theorem scanQuoted_of_quotedBody (q t : GoString) (h : QuotedBody q) :
    scanQuoted (q ++ 34 :: t) = some (q, t) := by
  induction h with
  | nil => rw [List.nil_append, scanQuoted.eq_def]; simp
  | plain c q h34 h92 _ ih =>
    rw [List.cons_append, scanQuoted.eq_def]
    simp [h34, h92, ih]
  | escape d q _ ih =>
    rw [List.cons_append, List.cons_append, scanQuoted.eq_def]
    simp [ih]

theorem quotedBody_of_scanQuoted (n : Nat) :
    ∀ (s b r : GoString), s.length ≤ n → scanQuoted s = some (b, r) →
      QuotedBody b ∧ s = b ++ 34 :: r := by
  induction n with
  | zero =>
    intro s b r hn h
    have hs : s = [] := List.length_eq_zero.mp (Nat.le_zero.mp hn)
    subst hs
    simp [scanQuoted] at h
  | succ n ih =>
    intro s b r hn h
    cases s with
    | nil => simp [scanQuoted] at h
    | cons c s1 =>
      simp only [List.length_cons] at hn
      rw [scanQuoted.eq_def] at h
      simp only at h
      split_ifs at h with h34 h92
      · simp only [Option.some.injEq, Prod.mk.injEq] at h
        rw [← h.1, ← h.2, h34]
        exact ⟨QuotedBody.nil, rfl⟩
      · cases s1 with
        | nil => simp at h
        | cons d s2 =>
          simp only [Option.map_eq_some'] at h
          obtain ⟨⟨b1, r1⟩, h1, h2⟩ := h
          simp only [Prod.mk.injEq] at h2
          simp only [List.length_cons] at hn
          obtain ⟨hq, hs⟩ := ih s2 b1 r1 (by omega) h1
          rw [← h2.1, ← h2.2, h92, hs]
          exact ⟨QuotedBody.escape d b1 hq, rfl⟩
      · simp only [Option.map_eq_some'] at h
        obtain ⟨⟨b1, r1⟩, h1, h2⟩ := h
        simp only [Prod.mk.injEq] at h2
        obtain ⟨hq, hs⟩ := ih s1 b1 r1 (by omega) h1
        rw [← h2.1, ← h2.2, hs]
        exact ⟨QuotedBody.plain c b1 h34 h92 hq, rfl⟩

theorem lookupLoop_spaces (key : GoString) (fuel : Nat) (sp s : GoString)
    (hsp : ∀ b ∈ sp, b = 32) :
    lookupLoop key (fuel + 1) (sp ++ s) = lookupLoop key (fuel + 1) s := by
  induction sp with
  | nil => rfl
  | cons c sp ih =>
    have hc : c = 32 := hsp c (List.mem_cons_self _ _)
    rw [hc, List.cons_append, lookupLoop_space]
    exact ih (fun b hb => hsp b (List.mem_cons_of_mem _ hb))

theorem lookupLoop_keyed (key k q t : GoString) (fuel : Nat)
    (hk : WellFormedKey k) (hq : QuotedBody q) :
    lookupLoop key (fuel + 1) (k ++ 58 :: 34 :: (q ++ 34 :: t)) =
      if key = k then strconvUnquote (34 :: (q ++ [34])) else lookupLoop key fuel t := by
  obtain ⟨hkne, hkb⟩ := hk
  obtain ⟨kb, k1, rfl⟩ : ∃ kb k1, k = kb :: k1 := by
    cases k with
    | nil => exact absurd rfl hkne
    | cons kb k1 => exact ⟨kb, k1, rfl⟩
  have hkb0 : isKeyByte kb = true := hkb kb (List.mem_cons_self _ _)
  have hkb32 : kb ≠ 32 := by
    intro h; subst h; simp [isKeyByte] at hkb0
  have hne : (kb :: k1) ++ 58 :: 34 :: (q ++ 34 :: t) ≠ [] := by simp
  have hdrop : ((kb :: k1) ++ 58 :: 34 :: (q ++ 34 :: t)).dropWhile (fun b => decide (b = 32)) =
      (kb :: k1) ++ 58 :: 34 :: (q ++ 34 :: t) := by
    simp [List.dropWhile, hkb32]
  have htake : ((kb :: k1) ++ 58 :: 34 :: (q ++ 34 :: t)).takeWhile isKeyByte = kb :: k1 :=
    takeWhile_append_stop isKeyByte (kb :: k1) _ 58 hkb (by decide)
  have hget1 : ((kb :: k1) ++ 58 :: 34 :: (q ++ 34 :: t)).getD (kb :: k1).length 0 = 58 := by
    rw [List.getD_append_right _ _ _ _ (le_refl _)]; simp
  have hget2 : ((kb :: k1) ++ 58 :: 34 :: (q ++ 34 :: t)).getD ((kb :: k1).length + 1) 0 = 34 := by
    rw [List.getD_append_right _ _ _ _ (by omega)]; simp
  have hdrop2 : ((kb :: k1) ++ 58 :: 34 :: (q ++ 34 :: t)).drop ((kb :: k1).length + 2) =
      q ++ 34 :: t := by
    rw [List.drop_append_eq_append_drop]
    simp
  have hlen : ¬ ((kb :: k1).length = 0 ∨
      (kb :: k1).length + 1 ≥ ((kb :: k1) ++ 58 :: 34 :: (q ++ 34 :: t)).length ∨
      ((kb :: k1) ++ 58 :: 34 :: (q ++ 34 :: t)).getD (kb :: k1).length 0 ≠ 58 ∨
      ((kb :: k1) ++ 58 :: 34 :: (q ++ 34 :: t)).getD ((kb :: k1).length + 1) 0 ≠ 34) := by
    rw [hget1, hget2]
    simp only [List.length_append, List.length_cons]
    omega
  rw [lookupLoop]
  simp only [hne, if_false, hdrop, htake, hlen, hdrop2, scanQuoted_of_quotedBody q t hq]

theorem lookupLoop_rawGroup (key : GoString) (g : RawGroup) (t : GoString) (fuel : Nat)
    (hg : g.WellFormed) :
    lookupLoop key (fuel + 1) (g.text ++ t) =
      if key = g.key then strconvUnquote (34 :: (g.body ++ [34])) else lookupLoop key fuel t := by
  obtain ⟨hsp, hk, hq⟩ := hg
  have : g.text ++ t = g.spaces ++ (g.key ++ 58 :: 34 :: (g.body ++ 34 :: t)) := by
    simp [RawGroup.text]
  rw [this, lookupLoop_spaces key fuel _ _ hsp, lookupLoop_keyed key _ _ t fuel hk hq]

theorem lookupLoop_renderRaw (key : GoString) (g : RawGroup) (rest : GoString)
    (hg : g.WellFormed) (hkey : g.key = key) :
    ∀ (pre : List RawGroup) (fuel : Nat), (∀ p ∈ pre, p.WellFormed ∧ p.key ≠ key) →
      pre.length < fuel →
      lookupLoop key fuel (renderRaw pre ++ (g.text ++ rest)) =
        strconvUnquote (34 :: (g.body ++ [34])) := by
  intro pre
  induction pre with
  | nil =>
    intro fuel _ hf
    obtain ⟨k, rfl⟩ : ∃ k, fuel = k + 1 := ⟨fuel - 1, by omega⟩
    rw [renderRaw, List.nil_append, lookupLoop_rawGroup key g rest k hg, if_pos hkey.symm]
  | cons p pre ih =>
    intro fuel hpre hf
    simp only [List.length_cons] at hf
    obtain ⟨k, rfl⟩ : ∃ k, fuel = k + 1 := ⟨fuel - 1, by omega⟩
    obtain ⟨hp, hpk⟩ := hpre p (List.mem_cons_self _ _)
    rw [renderRaw, List.append_assoc, lookupLoop_rawGroup key p _ k hp,
      if_neg (fun h => hpk h.symm)]
    exact ih k (fun q hq => hpre q (List.mem_cons_of_mem _ hq)) (by omega)

theorem length_le_renderRaw (pre : List RawGroup) : pre.length ≤ (renderRaw pre).length := by
  induction pre with
  | nil => simp [renderRaw]
  | cons p pre ih =>
    simp only [renderRaw, RawGroup.text, List.length_append, List.length_cons] at ih ⊢
    omega

theorem takeWhile_all (p : Nat → Bool) (l : GoString) : ∀ b ∈ l.takeWhile p, p b = true := by
  induction l with
  | nil => intro b hb; simp at hb
  | cons c l ih =>
    intro b hb
    by_cases hc : p c = true
    · simp only [List.takeWhile_cons, hc, if_true, List.mem_cons] at hb
      rcases hb with rfl | hb
      · exact hc
      · exact ih b hb
    · simp [List.takeWhile_cons, hc] at hb

theorem lookupLoop_some_groups (key : GoString) :
    ∀ (fuel : Nat) (tag v : GoString), lookupLoop key fuel tag = some v →
      ∃ (pre : List RawGroup) (g : RawGroup) (rest : GoString),
        (∀ p ∈ pre, p.WellFormed ∧ p.key ≠ key) ∧ g.WellFormed ∧ g.key = key ∧
        tag = renderRaw pre ++ (g.text ++ rest) ∧
        strconvUnquote (34 :: (g.body ++ [34])) = some v := by
  intro fuel
  induction fuel with
  | zero => intro tag v h; simp [lookupLoop] at h
  | succ fuel ih =>
    intro tag0 v h
    rw [lookupLoop] at h
    by_cases h0 : tag0 = []
    · simp [h0] at h
    rw [if_neg h0] at h
    simp only at h
    by_cases h1 : tag0.dropWhile (fun b => decide (b = 32)) = []
    · simp [h1] at h
    rw [if_neg h1] at h
    by_cases h2 : (List.takeWhile isKeyByte (tag0.dropWhile (fun b => decide (b = 32)))).length = 0 ∨
        (List.takeWhile isKeyByte (tag0.dropWhile (fun b => decide (b = 32)))).length + 1 ≥
          (tag0.dropWhile (fun b => decide (b = 32))).length ∨
        (tag0.dropWhile (fun b => decide (b = 32))).getD
          (List.takeWhile isKeyByte (tag0.dropWhile (fun b => decide (b = 32)))).length 0 ≠ 58 ∨
        (tag0.dropWhile (fun b => decide (b = 32))).getD
          ((List.takeWhile isKeyByte (tag0.dropWhile (fun b => decide (b = 32)))).length + 1) 0 ≠ 34
    · rw [if_pos h2] at h; exact absurd h (by simp)
    rw [if_neg h2] at h
    push_neg at h2
    obtain ⟨hi0, hlen, hc, hq⟩ := h2
    have hsplit0 : tag0 = tag0.takeWhile (fun b => decide (b = 32)) ++
        tag0.dropWhile (fun b => decide (b = 32)) := (List.takeWhile_append_dropWhile _ _).symm
    have hspaces : ∀ b ∈ tag0.takeWhile (fun b => decide (b = 32)), b = 32 := by
      intro b hb
      simpa using takeWhile_all (fun b => decide (b = 32)) tag0 b hb
    generalize tag0.takeWhile (fun b => decide (b = 32)) = sp at hsplit0 hspaces
    generalize tag0.dropWhile (fun b => decide (b = 32)) = tag at h h1 hlen hc hq hi0 hsplit0
    have hsplit := split_at_key isKeyByte tag (by omega) hc hq
    have hkeyb : ∀ b ∈ tag.takeWhile isKeyByte, isKeyByte b = true := takeWhile_all isKeyByte tag
    have hkne : tag.takeWhile isKeyByte ≠ [] := fun he => hi0 (by rw [he]; rfl)
    generalize tag.takeWhile isKeyByte = name at h hsplit hkeyb hkne
    split at h
    · exact absurd h (by simp)
    · rename_i body rest hscan
      obtain ⟨hbody, hdropeq⟩ := quotedBody_of_scanQuoted _ _ body rest (le_refl _) hscan
      have hgwf : (⟨sp, name, body⟩ : RawGroup).WellFormed := ⟨hspaces, ⟨hkne, hkeyb⟩, hbody⟩
      have htag0 : tag0 = (⟨sp, name, body⟩ : RawGroup).text ++ rest := by
        rw [hsplit0, hsplit, hdropeq]
        simp [RawGroup.text]
      split_ifs at h with hkey
      · exact ⟨[], ⟨sp, name, body⟩, rest, by simp, hgwf, hkey.symm, by simpa [renderRaw] using htag0,
          h⟩
      · obtain ⟨pre, g, rest1, hpre, hg, hgk, hrest, hun⟩ := ih rest v h
        refine ⟨⟨sp, name, body⟩ :: pre, g, rest1, ?_, hg, hgk, ?_, hun⟩
        · intro p hp
          rcases List.mem_cons.mp hp with rfl | hp
          · exact ⟨hgwf, fun he => hkey he.symm⟩
          · exact hpre p hp
        · rw [renderRaw, List.append_assoc, ← hrest]
          exact htag0

/-- The method `Lookup` on any string: it finds a value exactly when the string
begins with well-formed groups under other keys followed by a well-formed group
under the key whose quoted body `strconv.Unquote` accepts; the value is the
unquoted body, and what follows the group is not read. -/
theorem structTagLookup_eq_some_iff (tag key v : GoString) :
    structTagLookup tag key = some v ↔
      ∃ (pre : List RawGroup) (g : RawGroup) (rest : GoString),
        (∀ p ∈ pre, p.WellFormed ∧ p.key ≠ key) ∧ g.WellFormed ∧ g.key = key ∧
        tag = renderRaw pre ++ (g.text ++ rest) ∧
        strconvUnquote (34 :: (g.body ++ [34])) = some v := by
  constructor
  · exact lookupLoop_some_groups key _ tag v
  · rintro ⟨pre, g, rest, hpre, hg, hgk, htag, hun⟩
    rw [structTagLookup, htag, lookupLoop_renderRaw key g rest hg hgk pre _ hpre, hun]
    have := length_le_renderRaw pre
    simp only [List.length_append]
    omega

/-! ## The tag parser on arbitrary strings -/

theorem hasNoDirectEqualityTag_eq_true_iff_lookup (tag : GoString) :
    hasNoDirectEqualityTag tag = true ↔
      ∃ v, structTagLookup tag securityTag = some v ∧
        noDirectEqualityValue ∈ stringsSplit 44 v := by
  unfold hasNoDirectEqualityTag structTagGet
  cases hl : structTagLookup tag securityTag with
  | none =>
    simp only [Option.getD_none, false_and, exists_false, iff_false]
    decide
  | some v =>
    simp only [Option.getD_some, List.any_eq_true, decide_eq_true_eq, Option.some.injEq,
      exists_eq_left']
    constructor
    · rintro ⟨x, hx, rfl⟩; exact hx
    · intro h; exact ⟨_, h, rfl⟩

theorem renderRaw_getLast (gs : List RawGroup) (h : gs ≠ []) :
    (renderRaw gs).getLast? = some 34 := by
  induction gs with
  | nil => exact absurd rfl h
  | cons g gs ih =>
    by_cases hgs : gs = []
    · subst hgs
      simp only [renderRaw, RawGroup.text, List.append_nil]
      have : g.spaces ++ (g.key ++ 58 :: 34 :: (g.body ++ [34])) =
          (g.spaces ++ (g.key ++ 58 :: 34 :: g.body)) ++ [34] := by simp
      rw [this]
      exact List.getLast?_concat _
    · rw [renderRaw, List.getLast?_append, ih hgs]
      rfl

theorem conforming_getLast (tag : GoString) (h : Conforming tag) :
    tag = [] ∨ tag.getLast? = some 32 ∨ tag.getLast? = some 34 := by
  obtain ⟨gs, trailing, _, htr, rfl⟩ := h
  by_cases ht : trailing = []
  · subst ht
    by_cases hgs : gs = []
    · subst hgs; left; rfl
    · right; right
      rw [List.append_nil]
      exact renderRaw_getLast gs hgs
  · right; left
    rw [List.getLast?_append]
    obtain ⟨b, hb⟩ : ∃ b, trailing.getLast? = some b := by
      cases hl : trailing.getLast? with
      | none => exact absurd (List.getLast?_eq_none_iff.mp hl) ht
      | some b => exact ⟨b, rfl⟩
    rw [hb, htr b (List.mem_of_getLast?_eq_some hb)]
    rfl

/-- C13, as stated, fails: the string `security:"nodirectequality" x` is not a
sequence of `key:"value"` groups (no conforming string ends in `x`), and
`hasNoDirectEqualityTag` returns true on it: `Lookup` returns at the `security`
group and never reads what follows. -/
theorem hasNoDirectEqualityTag_trailing_text :
    ¬ Conforming (bytes "security:\"nodirectequality\" x") ∧
      hasNoDirectEqualityTag (bytes "security:\"nodirectequality\" x") = true := by
  refine ⟨fun h => ?_, by decide⟩
  have := conforming_getLast _ h
  revert this
  decide

/-- C13, amended: `hasNoDirectEqualityTag` is total (the loops of `Lookup`, of
`strconv.Unquote` and of `utf8.ValidString` never use up their fuel, whatever
the string), and on every raw string, conforming or not,
it returns true exactly when the string begins with well-formed groups under
other keys, each after any number of spaces, followed by a well-formed
`security` group whose quoted body `strconv.Unquote` accepts and whose unquoted
value has a piece between commas equal to `nodirectequality`; the text after
that group is not read.  Every other string gives false. -/
theorem hasNoDirectEqualityTag_true_iff (tag : GoString) :
    (∀ extra, lookupLoop securityTag (tag.length + 1 + extra) tag =
        structTagLookup tag securityTag) ∧
      (hasNoDirectEqualityTag tag = true ↔
        ∃ (pre : List RawGroup) (g : RawGroup) (rest v : GoString),
          (∀ p ∈ pre, p.WellFormed ∧ p.key ≠ securityTag) ∧ g.WellFormed ∧
          g.key = securityTag ∧ tag = renderRaw pre ++ (g.text ++ rest) ∧
          strconvUnquote (34 :: (g.body ++ [34])) = some v ∧
          noDirectEqualityValue ∈ stringsSplit 44 v) ∧
      (∀ (inp buf : GoString) (extra : Nat),
        unquoteLoop (inp.length + extra) inp buf = unquoteLoop inp.length inp buf) ∧
      (∀ (s : GoString) (extra : Nat), validStringLoop (s.length + extra) s = validString s) := by
  refine ⟨lookupLoop_fuel securityTag tag, ?_, unquoteLoop_fuel, validStringLoop_fuel⟩
  rw [hasNoDirectEqualityTag_eq_true_iff_lookup]
  constructor
  · rintro ⟨v, hl, hm⟩
    obtain ⟨pre, g, rest, h1, h2, h3, h4, h5⟩ :=
      (structTagLookup_eq_some_iff tag securityTag v).mp hl
    exact ⟨pre, g, rest, v, h1, h2, h3, h4, h5, hm⟩
  · rintro ⟨pre, g, rest, v, h1, h2, h3, h4, h5, hm⟩
    exact ⟨v, (structTagLookup_eq_some_iff tag securityTag v).mpr ⟨pre, g, rest, h1, h2, h3, h4, h5⟩,
      hm⟩

/-! ## The tag parser: separators and repeated keys -/

theorem hasNoDirectEqualityTag_rawGroups (pre : List RawGroup) (g : RawGroup) (rest : GoString)
    (hpre : ∀ p ∈ pre, p.WellFormed ∧ p.key ≠ securityTag) (hg : g.WellFormed)
    (hkey : g.key = securityTag) (hplain : PlainValue g.body) :
    hasNoDirectEqualityTag (renderRaw pre ++ (g.text ++ rest)) =
      if 10 ∈ g.body then false
      else (stringsSplit 44 g.body).any (fun value => decide (value = noDirectEqualityValue)) := by
  obtain ⟨v1, hv1, hunq⟩ := strconvUnquote_plain g.body hplain.1 hplain.2
  have hlook : structTagLookup (renderRaw pre ++ (g.text ++ rest)) securityTag =
      strconvUnquote (34 :: (g.body ++ [34])) := by
    rw [structTagLookup]
    apply lookupLoop_renderRaw securityTag g rest hg hkey pre _ hpre
    have := length_le_renderRaw pre
    simp only [List.length_append]
    omega
  unfold hasNoDirectEqualityTag structTagGet
  rw [hlook, hunq]
  by_cases h10 : 10 ∈ g.body
  · simp only [h10, if_true, Option.getD_none]
    decide
  · simp only [h10, if_false, Option.getD_some]
    exact (any_marker_of_forall₂ hv1.stringsSplit).symm

theorem lookupLoop_stop (key : GoString) (c : Nat) (rest : GoString) (hc : isKeyByte c = false)
    (hc32 : c ≠ 32) (fuel : Nat) : lookupLoop key fuel (c :: rest) = none := by
  cases fuel with
  | zero => rfl
  | succ k =>
    rw [lookupLoop]
    simp [List.dropWhile, hc32, List.takeWhile, hc]

theorem lookupLoop_renderRaw_stop (key : GoString) (c : Nat) (sp rest : GoString)
    (hc : isKeyByte c = false) (hc32 : c ≠ 32) (hsp : ∀ b ∈ sp, b = 32) :
    ∀ (pre : List RawGroup) (fuel : Nat), (∀ p ∈ pre, p.WellFormed ∧ p.key ≠ key) →
      lookupLoop key fuel (renderRaw pre ++ (sp ++ c :: rest)) = none := by
  intro pre
  induction pre with
  | nil =>
    intro fuel _
    cases fuel with
    | zero => rfl
    | succ k =>
      rw [renderRaw, List.nil_append, lookupLoop_spaces key k sp _ hsp]
      exact lookupLoop_stop key c rest hc hc32 _
  | cons p pre ih =>
    intro fuel hpre
    cases fuel with
    | zero => rfl
    | succ k =>
      obtain ⟨hp, hpk⟩ := hpre p (List.mem_cons_self _ _)
      rw [renderRaw, List.append_assoc, lookupLoop_rawGroup key p _ k hp,
        if_neg (fun h => hpk h.symm)]
      exact ih k (fun q hq => hpre q (List.mem_cons_of_mem _ hq))

/-- C19, as stated, fails: `json:"token"<TAB>security:"nodirectequality"` is two
well-formed groups separated by a tab, the value of the `security` group is the
marker, and `hasNoDirectEqualityTag` returns false: `Lookup` skips spaces only
and stops at the tab. -/
theorem hasNoDirectEqualityTag_tab_separator :
    WellFormedGroups [(bytes "json", bytes "token"), (securityTag, noDirectEqualityValue)] ∧
      bytes "json:\"token\"\tsecurity:\"nodirectequality\"" =
        renderGroup (bytes "json", bytes "token") ++ 9 ::
          renderGroup (securityTag, noDirectEqualityValue) ∧
      noDirectEqualityValue ∈ stringsSplit 44 noDirectEqualityValue ∧
      hasNoDirectEqualityTag (bytes "json:\"token\"\tsecurity:\"nodirectequality\"") = false := by
  refine ⟨by decide, by decide, by decide, by decide⟩

/-- C19, amended: groups may be separated by any number of spaces (U+0020).  For a
tag that begins with well-formed groups under other keys and then a well-formed
`security` group, each group after any number of spaces, the value of the
`security` group free of quotes, backslashes and newlines and made of the
comma-free tokens `ts`, `hasNoDirectEqualityTag` returns true if and only if a
token is `nodirectequality`.  Another whitespace character (a tab, a newline:
any byte up to the space that is not the space) before the `security` group is
not skipped: the parse stops there and the result is false. -/
theorem hasNoDirectEqualityTag_space_separated (pre : List RawGroup) (g : RawGroup)
    (rest : GoString) (ts : List GoString)
    (hpre : ∀ p ∈ pre, p.WellFormed ∧ p.key ≠ securityTag) (hg : g.WellFormed)
    (hkey : g.key = securityTag) (hplain : PlainValue g.body) (hnl : 10 ∉ g.body)
    (hts : ∀ t ∈ ts, 44 ∉ t) (hv : g.body = joinTokens ts) :
    (hasNoDirectEqualityTag (renderRaw pre ++ (g.text ++ rest)) = true ↔
        noDirectEqualityValue ∈ ts) ∧
      (∀ (c : Nat) (sp rest1 : GoString), c ≤ 32 → c ≠ 32 → (∀ b ∈ sp, b = 32) →
        hasNoDirectEqualityTag (renderRaw pre ++ (sp ++ c :: rest1)) = false) := by
  constructor
  · rw [hasNoDirectEqualityTag_rawGroups pre g rest hpre hg hkey hplain, if_neg hnl, hv,
      any_split_joinTokens ts hts]
    simp
  · intro c sp rest1 hc hc32 hsp
    have hkb : isKeyByte c = false := by
      simp only [isKeyByte, Bool.and_eq_false_iff, decide_eq_false_iff_not]
      left; left; left; omega
    unfold hasNoDirectEqualityTag structTagGet structTagLookup
    rw [lookupLoop_renderRaw_stop securityTag c sp rest1 hkb hc32 hsp pre _ hpre]
    decide

/-- Witness of C19 (amended): `json:"token"`, two spaces, `security:"a,nodirectequality"`;
and the same with a tab instead of the spaces. -/
theorem hasNoDirectEqualityTag_space_separated_witness :
    renderRaw [⟨[], bytes "json", bytes "token"⟩] ++
          ((⟨[32, 32], securityTag, bytes "a,nodirectequality"⟩ : RawGroup).text ++ []) =
        bytes "json:\"token\"  security:\"a,nodirectequality\"" ∧
      (hasNoDirectEqualityTag (renderRaw [⟨[], bytes "json", bytes "token"⟩] ++
          ((⟨[32, 32], securityTag, bytes "a,nodirectequality"⟩ : RawGroup).text ++ [])) = true ↔
        noDirectEqualityValue ∈ [bytes "a", noDirectEqualityValue]) ∧
      hasNoDirectEqualityTag (renderRaw [⟨[], bytes "json", bytes "token"⟩] ++
          ([] ++ 9 :: bytes "security:\"a,nodirectequality\"")) = false :=
  have h := hasNoDirectEqualityTag_space_separated [⟨[], bytes "json", bytes "token"⟩]
    ⟨[32, 32], securityTag, bytes "a,nodirectequality"⟩ [] [bytes "a", noDirectEqualityValue]
    (by
      intro p hp
      simp only [List.mem_singleton] at hp
      subst hp
      exact ⟨⟨by decide, by decide, quotedBody_of_plain _ (by decide)⟩, by decide⟩)
    ⟨by decide, by decide, quotedBody_of_plain _ (by decide)⟩ rfl (by decide) (by decide)
    (by decide) (by decide)
  ⟨by decide, h.1, h.2 9 [] _ (by decide) (by decide) (by decide)⟩

theorem firstGroup_append (key : GoString) (pre post : List TagGroup) (g : TagGroup)
    (hpre : ∀ p ∈ pre, p.1 ≠ key) (hg : g.1 = key) :
    firstGroup key (pre ++ g :: post) = some g := by
  induction pre with
  | nil => simp [firstGroup, List.find?, hg]
  | cons p pre ih =>
    have hp : ¬ p.1 = key := hpre p (List.mem_cons_self _ _)
    have := ih (fun q hq => hpre q (List.mem_cons_of_mem _ hq))
    simpa [firstGroup, List.find?, hp] using this

/-- C20, as stated, fails: in `security:"nodirectequality,<LF>" security:"other"` the
first `security` group has the token `nodirectequality`, and
`hasNoDirectEqualityTag` returns false: the raw newline makes `strconv.Unquote`
fail (the corner of C1). -/
theorem hasNoDirectEqualityTag_first_security_newline :
    WellFormedGroups [(securityTag, noDirectEqualityValue ++ [44, 10]),
        (securityTag, bytes "other")] ∧
      noDirectEqualityValue ++ [44, 10] = joinTokens [noDirectEqualityValue, [10]] ∧
      (∀ t ∈ [noDirectEqualityValue, [10]], 44 ∉ t) ∧
      noDirectEqualityValue ∈ [noDirectEqualityValue, [10]] ∧
      renderTag [(securityTag, noDirectEqualityValue ++ [44, 10]), (securityTag, bytes "other")] =
        bytes "security:\"nodirectequality,\n\" security:\"other\"" ∧
      hasNoDirectEqualityTag (bytes "security:\"nodirectequality,\n\" security:\"other\"") =
        false := by
  refine ⟨by decide, by decide, by decide, by decide, by decide, by decide⟩

/-- C20, amended: when a well-formed tag has more than one group keyed `security`,
only the first decides.  With the value of the first free of newlines and made
of the comma-free tokens `ts`, `hasNoDirectEqualityTag` returns true if and only
if a token is `nodirectequality`, and the answer is that of the tag made of this
group alone, whatever the groups after it are; so
`security:"other" security:"nodirectequality"` gives false and
`security:"nodirectequality" security:"other"` gives true. -/
theorem hasNoDirectEqualityTag_first_security (pre post : List TagGroup) (v : GoString)
    (ts : List GoString) (hwf : WellFormedGroups (pre ++ (securityTag, v) :: post))
    (hpre : ∀ p ∈ pre, p.1 ≠ securityTag) (hnl : 10 ∉ v) (hts : ∀ t ∈ ts, 44 ∉ t)
    (hv : v = joinTokens ts) :
    (hasNoDirectEqualityTag (renderTag (pre ++ (securityTag, v) :: post)) = true ↔
        noDirectEqualityValue ∈ ts) ∧
      hasNoDirectEqualityTag (renderTag (pre ++ (securityTag, v) :: post)) =
        hasNoDirectEqualityTag (renderTag [(securityTag, v)]) ∧
      hasNoDirectEqualityTag (bytes "security:\"other\" security:\"nodirectequality\"") = false ∧
      hasNoDirectEqualityTag (bytes "security:\"nodirectequality\" security:\"other\"") = true := by
  have hfirst := firstGroup_append securityTag pre post (securityTag, v) hpre rfl
  have hwf1 : WellFormedGroups [(securityTag, v)] := by
    intro g hg
    simp only [List.mem_singleton] at hg
    subst hg
    exact hwf _ (by simp)
  have hfirst1 : firstGroup securityTag [(securityTag, v)] = some (securityTag, v) := by
    simp [firstGroup, List.find?]
  refine ⟨?_, ?_, by decide, by decide⟩
  · rw [hasNoDirectEqualityTag_renderTag _ v hwf hfirst, if_neg hnl, hv,
      any_split_joinTokens ts hts]
    simp
  · rw [hasNoDirectEqualityTag_renderTag _ v hwf hfirst,
      hasNoDirectEqualityTag_renderTag _ v hwf1 hfirst1]

/-- Witness of C20 (amended): `security:"other" security:"nodirectequality"`. -/
theorem hasNoDirectEqualityTag_first_security_witness :
    renderTag ([] ++ (securityTag, bytes "other") :: [(securityTag, noDirectEqualityValue)]) =
        bytes "security:\"other\" security:\"nodirectequality\"" ∧
      (hasNoDirectEqualityTag
          (renderTag ([] ++ (securityTag, bytes "other") ::
            [(securityTag, noDirectEqualityValue)])) = true ↔
        noDirectEqualityValue ∈ [bytes "other"]) :=
  ⟨by decide,
    (hasNoDirectEqualityTag_first_security [] [(securityTag, noDirectEqualityValue)]
      (bytes "other") [bytes "other"] (by decide) (by decide) (by decide) (by decide)
      (by decide)).1⟩

end DirectEquality
